import Mathlib

/-!
# Equivalence-relation store (`BinaryRelation`)

A shallow embedding of `src/BinaryRelation.h`: the relation object (union-find
collaborator, staleness flag, bucket cache), its mutators and queries, the
mode-tagged iterator and the partitioner, and of the `OrderingContext` of
`src/interpreter/Generator.cpp`, followed by the properties proved about them.

Conventions of the embedding:

* `DomainInt` values are never used arithmetically, so they are plain integers.
* `size_t` counters are natural numbers: a wrap-around at `2^64` would need
  a class of `2^32` elements.
* A `const` method that refreshes the `mutable` cache returns the refreshed
  object next to its result.
* `#pragma omp parallel for` loops are run in index order; the hash map
  `orderedStates` is an association list kept in order of first insertion,
  which is also its iteration order.
* A failed `assert`, a `throw` and a read through an empty accessor or past
  the end of a bucket are results `Except.error`; in the ordering context an
  access past the end of a vector is the result `none`.
-/

namespace souffle

/-- The element type `TupleType::value_type`. -/
abbrev DomainInt := Int

/-- The ways an operation of the relation can abort. -/
inductive Failure where
  /-- `throw "error: incrementing an out of range iterator"`. -/
  | incrementEnd
  /-- `throw "error: encountered a zero size djset"`. -/
  | zeroSizeDjset
  /-- A failed `assert` (or the read through the empty accessor behind it). -/
  | assertFailed
  /-- A bucket read at an index that is not below its size. -/
  | outOfRange
  /-- `throw "invalid state, cannot search for >2 arg start point ..."`. -/
  | invalidLevels
  /-- `throw "cannot generate for a non-existent value"`. -/
  | nonExistentValue
  /-- The enumeration loop was cut off by its step budget. -/
  | outOfFuel
deriving DecidableEq, Repr

deriving instance DecidableEq for Except

/-! ## The union-find collaborator -/

/-- Modelled from the spec: the union-find collaborator `SparseDisjointSet`
of `UnionFind.h`, which is not among the sources. Dense slot `i` holds the
sparse value `toSparse i` together with the representative of its class, so
`findRepresentative` is a lookup and a union relabels one class. -/
structure SparseDisjointSet where
  slots : List (DomainInt × DomainInt)
deriving DecidableEq, Repr

namespace SparseDisjointSet

/-- Modelled from the spec: the empty union-find (no dense slot). -/
def empty : SparseDisjointSet := ⟨[]⟩

/-- Modelled from the spec: `nodeExists(e)`, whether `e` is in the domain. -/
def nodeExists (s : SparseDisjointSet) (e : DomainInt) : Bool :=
  (s.slots.lookup e).isSome

/-- Modelled from the spec: `findRepresentative(e)` (`readOnlyFindNode`), the
canonical representative of the class of `e`; an element outside the domain
is answered by itself and the domain is left as it is. -/
def readOnlyFindNode (s : SparseDisjointSet) (e : DomainInt) : DomainInt :=
  (s.slots.lookup e).getD e

/-- Modelled from the spec: `sameSet(a, b)`, the comparison of the two
representatives. -/
def sameSet (s : SparseDisjointSet) (a b : DomainInt) : Bool :=
  s.readOnlyFindNode a == s.readOnlyFindNode b

/-- Modelled from the spec: `contains(x, y)`, the same-class test, false as
soon as one of the two elements does not exist. -/
def contains (s : SparseDisjointSet) (x y : DomainInt) : Bool :=
  s.nodeExists x && s.nodeExists y && s.sameSet x y

/-- Modelled from the spec: creation of the element `e` "if new", in the next
free dense slot and as a class of its own. -/
def makeNode (s : SparseDisjointSet) (e : DomainInt) : SparseDisjointSet :=
  if s.nodeExists e then s else ⟨s.slots ++ [(e, e)]⟩

/-- Modelled from the spec: relabelling of the class represented by `r` to
the representative `r'`. -/
def relabel (r r' : DomainInt) (p : DomainInt × DomainInt) : DomainInt × DomainInt :=
  if p.2 == r then (p.1, r') else p

/-- Modelled from the spec: `unionNodes(x, y)`, the idempotent merge that
creates `x` and `y` if new; the representative kept is the one of `y`. -/
def unionNodes (s : SparseDisjointSet) (x y : DomainInt) : SparseDisjointSet :=
  let s2 := (s.makeNode x).makeNode y
  let rx := s2.readOnlyFindNode x
  let ry := s2.readOnlyFindNode y
  if rx == ry then s2 else ⟨s2.slots.map (relabel rx ry)⟩

/-- Modelled from the spec: `denseSlotCount()` (`ds.a_blocks.size()`). -/
def denseSlotCount (s : SparseDisjointSet) : Nat := s.slots.length

/-- Modelled from the spec: `toSparse(i)`, the sparse value of dense slot `i`
(a slot that does not exist reads as `0`). -/
def toSparse (s : SparseDisjointSet) (i : Nat) : DomainInt :=
  (s.slots.map Prod.fst).getD i 0

/-- Modelled from the spec: `clear()`. -/
def clear (_s : SparseDisjointSet) : SparseDisjointSet := empty

/-- The domain: the sparse values of the dense slots, in slot order. -/
def domain (s : SparseDisjointSet) : List DomainInt := s.slots.map Prod.fst

/-- Modelled from the spec: `toDense(e)`, the dense slot of the existing
element `e`. -/
def toDense (s : SparseDisjointSet) (e : DomainInt) : Nat := s.domain.indexOf e

/-- Modelled from the spec: `ds.readOnlyFindNode(i)`, the find of the
underlying dense disjoint set: the dense slot of the representative of the
element in dense slot `i`. -/
def ds_readOnlyFindNode (s : SparseDisjointSet) (i : Nat) : Nat :=
  s.toDense (s.readOnlyFindNode (s.toSparse i))

end SparseDisjointSet

/-! ## The relation object -/

/-- `StatesList` behind its shared pointer: the members of one class. -/
abbrev StatesBucket := List DomainInt

/-- `StatesMap`: representative ↦ bucket, in iteration order. -/
abbrev StatesMap := List (DomainInt × StatesBucket)

/-- The data members of `BinaryRelation`; `addr` is the identity of the object
(what a `const BinaryRelation*` compares). -/
structure BinaryRelation where
  addr : Nat
  sds : SparseDisjointSet
  statesMapStale : Bool
  orderedStates : StatesMap
deriving DecidableEq, Repr

namespace BinaryRelation

/-- The constructor `BinaryRelation() : statesMapStale(false)`. -/
def new (addr : Nat) : BinaryRelation :=
  { addr := addr, sds := SparseDisjointSet.empty, statesMapStale := false, orderedStates := [] }

/-- `contains(x, y)`: the union-find query. -/
def contains (br : BinaryRelation) (x y : DomainInt) : Bool :=
  br.sds.contains x y

/-- `containsElement(e)`. -/
def containsElement (br : BinaryRelation) (e : DomainInt) : Bool :=
  br.sds.nodeExists e

/-- `insert(x, y, hints)`: mark the cache stale, remember `contains(x, y)`,
unite, and return what was remembered. -/
def insert (br : BinaryRelation) (x y : DomainInt) : BinaryRelation × Bool :=
  let br1 := { br with statesMapStale := true }
  let retval := br1.contains x y
  ({ br1 with sds := br1.sds.unionNodes x y }, retval)

/-- The body of the loop of `genAllDisjointSetLists` for one sparse value:
append it to the bucket under `rep`, creating the bucket when the key is new. -/
def addToBucket (m : StatesMap) (rep sVal : DomainInt) : StatesMap :=
  match m with
  | [] => [(rep, [sVal])]
  | (k, b) :: rest =>
    if k == rep then (k, b ++ [sVal]) :: rest else (k, b) :: addToBucket rest rep sVal

/-- `genAllDisjointSetLists()`: nothing when the flag is clear; otherwise the
map is rebuilt from the dense slots and the flag cleared. -/
def genAllDisjointSetLists (br : BinaryRelation) : BinaryRelation :=
  if !br.statesMapStale then br
  else
    let dSetSize := br.sds.denseSlotCount
    let m := (List.range dSetSize).foldl
      (fun m i =>
        let sVal := br.sds.toSparse i
        let rep := br.sds.readOnlyFindNode sVal
        addToBucket m rep sVal) []
    { br with orderedStates := m, statesMapStale := false }

/-- The keys under which the values of `l` are filed, in order of first use. -/
def keysOf (f : DomainInt → DomainInt) (l : List DomainInt) : List DomainInt :=
  l.foldl (fun ks v => if f v ∈ ks then ks else ks ++ [f v]) []

/-- The members of the class represented by `k`, in slot order. -/
def bucketOf (s : SparseDisjointSet) (k : DomainInt) : StatesBucket :=
  s.domain.filter (fun v => s.readOnlyFindNode v == k)

/-- The bucket map that files every element under its representative: one
bucket per representative, holding the members of its class in slot order. -/
def cacheOf (s : SparseDisjointSet) : StatesMap :=
  (keysOf s.readOnlyFindNode s.domain).map (fun k => (k, bucketOf s k))

/-- `size()`: refresh the cache, then add up `s * s` over the buckets. -/
def size (br : BinaryRelation) : BinaryRelation × Nat :=
  let br1 := br.genAllDisjointSetLists
  (br1, br1.orderedStates.foldl (fun retVal x => retVal + x.2.length * x.2.length) 0)

/-- `clear()`: reset the union-find and drop the cache (the flag is not touched). -/
def clear (br : BinaryRelation) : BinaryRelation :=
  { br with sds := br.sds.clear, orderedStates := [] }

/-- `insertAll(other)`: refresh the cache of `other`, unite every member of
every bucket of `other` with the bucket key, mark this cache stale. Returns
this object and `other`. -/
def insertAll (br other : BinaryRelation) : BinaryRelation × BinaryRelation :=
  let other1 := other.genAllDisjointSetLists
  let sds1 := other1.orderedStates.foldl
    (fun sds keypair =>
      let rep := keypair.1
      keypair.2.foldl (fun sds e => sds.unionNodes rep e) sds) br.sds
  ({ br with sds := sds1, statesMapStale := true }, other1)

/-- `orderedStates.find(a, key)` followed by `a->second`. -/
def findBucket (m : StatesMap) (key : DomainInt) : Except Failure StatesBucket :=
  match m.lookup key with
  | some b => .ok b
  | none => .error Failure.assertFailed

/-- The scan of one bucket `sb` in `extend`: at the first member that exists
in `other`, unite it with every member of its bucket in `other` and stop. -/
def extendBucket (other : BinaryRelation) (sds : SparseDisjointSet) :
    StatesBucket → Except Failure SparseDisjointSet
  | [] => .ok sds
  | c :: rest =>
    if other.containsElement c then
      match findBucket other.orderedStates (other.sds.readOnlyFindNode c) with
      | .ok osb => .ok (osb.foldl (fun sds e => sds.unionNodes c e) sds)
      | .error f => .error f
    else extendBucket other sds rest

/-- The outer loop of `extend` over the buckets of this relation. -/
def extendLoop (other : BinaryRelation) (sds : SparseDisjointSet) :
    StatesMap → Except Failure SparseDisjointSet
  | [] => .ok sds
  | keypair :: rest =>
    match extendBucket other sds keypair.2 with
    | .ok sds1 => extendLoop other sds1 rest
    | .error f => .error f

/-- `extend(other)`: refresh both caches, run the loop, mark this cache stale.
Returns this object and `other`. -/
def extend (br other : BinaryRelation) : Except Failure (BinaryRelation × BinaryRelation) :=
  let br1 := br.genAllDisjointSetLists
  let other1 := other.genAllDisjointSetLists
  match extendLoop other1 br1.sds br1.orderedStates with
  | .ok sds1 => .ok ({ br1 with sds := sds1, statesMapStale := true }, other1)
  | .error f => .error f

/-- The loop of `genDJSetList` over the dense slots: slot `i` is appended
when `de.readOnlyFindNode(i) == dVal`. -/
def genDJSetLoop (sds : SparseDisjointSet) (dVal : Nat) : StatesBucket :=
  (List.range sds.denseSlotCount).foldl
    (fun sp i => if sds.ds_readOnlyFindNode i == dVal then sp ++ [sds.toSparse i] else sp) []

/-- `genDJSetList(val)`: the bucket of the class of `val`, taken from the map
when the flag is clear or the key of the representative is already there, and
otherwise built by a scan of the dense slots and stored under the
representative. Returns the object and the bucket. -/
def genDJSetList (br : BinaryRelation) (val : DomainInt) :
    BinaryRelation × Except Failure StatesBucket :=
  if !br.sds.nodeExists val then (br, .error Failure.nonExistentValue)
  else
    let rep := br.sds.readOnlyFindNode val
    if !br.statesMapStale then (br, findBucket br.orderedStates rep)
    else
      match br.orderedStates.lookup rep with
      | some b => (br, .ok b)
      | none =>
        let dVal := br.sds.toDense val
        let sp := genDJSetLoop br.sds dVal
        ({ br with orderedStates := br.orderedStates ++ [(rep, sp)] }, .ok sp)

/-- `operator=(old)`: nothing on self-assignment; otherwise the union-find is
copied and the map cleared (the flag is not touched). -/
def operatorAssign (br old : BinaryRelation) : BinaryRelation :=
  if br.addr == old.addr then br
  else { br with sds := old.sds, orderedStates := [] }

end BinaryRelation

/-! ## The iterator -/

/-- `enum IterType`. -/
inductive IterType where
  | ALL
  | ANTERIOR
  | ANTPOST
  | WITHIN
deriving DecidableEq, Repr

/-- `TupleType`, a tuple of arity two. -/
abbrev TupleType := DomainInt × DomainInt

/-- The data members of `BinaryRelation::iterator`. `br` is the address of
the owning relation; `djSetMapListIt` is the part of the bucket map from the
cursor on, so the cached `djSetMapListEnd` is the empty list. -/
structure iterator where
  br : Nat
  isEndVal : Bool
  ityp : IterType
  cPair : TupleType
  djSetList : StatesBucket
  djSetMapListIt : StatesMap
  cAnteriorIndex : Nat
  cPosteriorIndex : Nat
deriving DecidableEq, Repr

namespace iterator

/-- `djSetList->get(i)`. -/
def get (b : StatesBucket) (i : Nat) : Except Failure DomainInt :=
  match b[i]? with
  | some v => .ok v
  | none => .error Failure.outOfRange

/-- `setAnterior(a)`. -/
def setAnterior (it : iterator) (a : DomainInt) : iterator :=
  { it with cPair := (a, it.cPair.2) }

/-- `updateAnterior()`. -/
def updateAnterior (it : iterator) : Except Failure iterator :=
  match get it.djSetList it.cAnteriorIndex with
  | .ok v => .ok (it.setAnterior v)
  | .error f => .error f

/-- `setPosterior(b)`. -/
def setPosterior (it : iterator) (b : DomainInt) : iterator :=
  { it with cPair := (it.cPair.1, b) }

/-- `updatePosterior()`. -/
def updatePosterior (it : iterator) : Except Failure iterator :=
  match get it.djSetList it.cPosteriorIndex with
  | .ok v => .ok (it.setPosterior v)
  | .error f => .error f

/-- The members as the in-class initialisers and default construction leave
them, before a constructor body runs. -/
def init (br : Nat) (ityp : IterType) (djSetList : StatesBucket) (mapIt : StatesMap) : iterator :=
  { br := br, isEndVal := false, ityp := ityp, cPair := (0, 0), djSetList := djSetList,
    djSetMapListIt := mapIt, cAnteriorIndex := 0, cPosteriorIndex := 0 }

/-- `iterator(br, true)`: the end iterator. -/
def mkEnd (br : Nat) : iterator :=
  { init br IterType.ALL [] [] with isEndVal := true }

/-- `iterator(br)`: the ALL iterator over the bucket map `m` of the relation. -/
def mkAll (br : Nat) (m : StatesMap) : Except Failure iterator :=
  match m with
  | [] => .ok { init br IterType.ALL [] [] with isEndVal := true }
  | keypair :: rest =>
    let it := init br IterType.ALL keypair.2 (keypair :: rest)
    if it.djSetList.length == 0 then .error Failure.assertFailed
    else it.updateAnterior >>= updatePosterior

/-- `iterator(br, within)`: the WITHIN iterator. -/
def mkWithin (br : Nat) (within : StatesBucket) : Except Failure iterator :=
  let it := init br IterType.WITHIN within []
  let it := if it.djSetList.length == 0 then { it with isEndVal := true } else it
  it.updateAnterior >>= updatePosterior

/-- `iterator(br, former, within)`: the ANTERIOR iterator. -/
def mkAnterior (br : Nat) (former : DomainInt) (within : StatesBucket) : Except Failure iterator :=
  let it := init br IterType.ANTERIOR within []
  let it := if it.djSetList.length == 0 then { it with isEndVal := true } else it
  (it.setAnterior former).updatePosterior

/-- `iterator(br, former, latter, within)`: the ANTPOST iterator. -/
def mkAntPost (br : Nat) (former latter : DomainInt) (within : StatesBucket) : iterator :=
  let it := init br IterType.ANTPOST within []
  let it := if it.djSetList.length == 0 then { it with isEndVal := true } else it
  (it.setAnterior former).setPosterior latter

/-- `operator==`. -/
def eq (a b : iterator) : Bool :=
  if a.isEndVal && b.isEndVal then a.br == b.br
  else a.isEndVal == b.isEndVal && a.cPair == b.cPair

/-- `operator!=`. -/
def ne (a b : iterator) : Bool := !(a.eq b)

/-- `operator*`. -/
def deref (it : iterator) : TupleType := it.cPair

/-- The tail shared by the ALL and WITHIN cases of `operator++` once the
anterior index has moved: `updateAnterior(); cPosteriorIndex = 0;
updatePosterior();` and the final `updatePosterior();`. -/
def movedAnterior (it : iterator) : Except Failure iterator :=
  it.updateAnterior >>= fun it =>
  updatePosterior { it with cPosteriorIndex := 0 } >>= updatePosterior

/-- The case `IterType::ALL` of `operator++`. -/
def nextALL (it : iterator) : Except Failure iterator :=
  let it := { it with cPosteriorIndex := it.cPosteriorIndex + 1 }
  if it.cPosteriorIndex == it.djSetList.length then
    let it := { it with cAnteriorIndex := it.cAnteriorIndex + 1 }
    if it.cAnteriorIndex == it.djSetList.length then
      let it := { it with djSetMapListIt := it.djSetMapListIt.tail }
      match it.djSetMapListIt with
      | [] => .ok { it with isEndVal := true }
      | keypair :: _ =>
        let it := { it with djSetList := keypair.2 }
        if it.djSetList.length == 0 then .error Failure.zeroSizeDjset
        else
          updateAnterior { it with cAnteriorIndex := 0, cPosteriorIndex := 0 } >>= updatePosterior
            >>= movedAnterior
    else it.movedAnterior
  else it.updatePosterior

/-- The case `IterType::ANTERIOR` of `operator++`. -/
def nextANTERIOR (it : iterator) : Except Failure iterator :=
  let it := { it with cPosteriorIndex := it.cPosteriorIndex + 1 }
  if it.cPosteriorIndex == it.djSetList.length then .ok { it with isEndVal := true }
  else it.updatePosterior

/-- The case `IterType::WITHIN` of `operator++`. -/
def nextWITHIN (it : iterator) : Except Failure iterator :=
  let it := { it with cPosteriorIndex := it.cPosteriorIndex + 1 }
  if it.cPosteriorIndex == it.djSetList.length then
    let it := { it with cAnteriorIndex := it.cAnteriorIndex + 1 }
    if it.cAnteriorIndex == it.djSetList.length then .ok { it with isEndVal := true }
    else it.movedAnterior
  else it.updatePosterior

/-- `operator++` (pre-increment). -/
def next (it : iterator) : Except Failure iterator :=
  if it.isEndVal then .error Failure.incrementEnd
  else
    match it.ityp with
    | IterType.ALL => it.nextALL
    | IterType.ANTERIOR => it.nextANTERIOR
    | IterType.ANTPOST => .ok { it with isEndVal := true }
    | IterType.WITHIN => it.nextWITHIN

end iterator

/-- `souffle::range<iterator>`: a begin and an end iterator. -/
abbrev range := iterator × iterator

/-- `make_range(a, b)`. -/
def make_range (a b : iterator) : range := (a, b)

/-- The consumer loop `for (it = r.begin(); it != r.end(); ++it) yield *it`,
cut off after `fuel` tests of the loop condition. -/
def enumerate : Nat → iterator → iterator → Except Failure (List TupleType)
  | 0, _, _ => .error Failure.outOfFuel
  | fuel + 1, it, last =>
    if it.ne last then
      match it.next with
      | .ok it1 =>
        match enumerate fuel it1 last with
        | .ok rest => .ok (it.deref :: rest)
        | .error f => .error f
      | .error f => .error f
    else .ok []

namespace BinaryRelation

/-- `begin()`. -/
def begin (br : BinaryRelation) : BinaryRelation × Except Failure iterator :=
  let br1 := br.genAllDisjointSetLists
  (br1, iterator.mkAll br1.addr br1.orderedStates)

/-- `end()`. -/
def «end» (br : BinaryRelation) : iterator := iterator.mkEnd br.addr

/-- `anteriorIt(anteriorVal)`: the bucket is looked up under the key
`anteriorVal`. -/
def anteriorIt (br : BinaryRelation) (anteriorVal : DomainInt) :
    BinaryRelation × Except Failure iterator :=
  let br1 := br.genAllDisjointSetLists
  (br1, findBucket br1.orderedStates anteriorVal >>= iterator.mkAnterior br1.addr anteriorVal)

/-- `antpostit(anteriorVal, posteriorVal)`: the bucket is looked up under the
key `posteriorVal`. -/
def antpostit (br : BinaryRelation) (anteriorVal posteriorVal : DomainInt) :
    BinaryRelation × Except Failure iterator :=
  if !br.sds.sameSet anteriorVal posteriorVal then (br, .ok br.end)
  else
    let br1 := br.genAllDisjointSetLists
    (br1, findBucket br1.orderedStates posteriorVal >>= fun found =>
      .ok (iterator.mkAntPost br1.addr anteriorVal posteriorVal found))

/-- `closure(rep)`. -/
def closure (br : BinaryRelation) (rep : DomainInt) : BinaryRelation × Except Failure iterator :=
  let br1 := br.genAllDisjointSetLists
  (br1, findBucket br1.orderedStates rep >>= iterator.mkWithin br1.addr)

/-- `getBoundaries<levels>(entry, ctxt)`. -/
def getBoundaries (br : BinaryRelation) (levels : Nat) (entry : TupleType) :
    BinaryRelation × Except Failure range :=
  if levels == 0 then
    let b := br.begin
    (b.1, b.2 >>= fun it => .ok (make_range it b.1.end))
  else if levels == 1 then
    if !br.sds.nodeExists entry.1 then (br, .ok (make_range br.end br.end))
    else
      let a := br.anteriorIt entry.1
      (a.1, a.2 >>= fun it => .ok (make_range it a.1.end))
  else if levels == 2 then
    if !br.sds.contains entry.1 entry.2 then (br, .ok (make_range br.end br.end))
    else
      let a := br.antpostit entry.1 entry.2
      (a.1, a.2 >>= fun it => .ok (make_range it a.1.end))
  else (br, .error Failure.invalidLevels)

/-- The first loop of `partition`: one `closure` range per bucket. -/
def partitionPerBucket (br : BinaryRelation) : StatesMap → Except Failure (List range)
  | [] => .ok []
  | p :: rest =>
    (br.closure p.1).2 >>= fun it =>
    partitionPerBucket br rest >>= fun ret => .ok (make_range it br.end :: ret)

/-- The loop `for (const auto& i : *itp.second)` of `partition`: one
`anteriorIt` range per member of the bucket. -/
def partitionMembers (br : BinaryRelation) : StatesBucket → Except Failure (List range)
  | [] => .ok []
  | i :: rest =>
    (br.anteriorIt i).2 >>= fun it =>
    partitionMembers br rest >>= fun ret => .ok (make_range it br.end :: ret)

/-- The second loop of `partition`: a bucket with `s * s > perchunk` is split
into one range per member, any other bucket gets its `closure` range. -/
def partitionSplit (br : BinaryRelation) (perchunk : Nat) : StatesMap → Except Failure (List range)
  | [] => .ok []
  | itp :: rest =>
    let s := itp.2.length
    (if s * s > perchunk then partitionMembers br itp.2
     else (br.closure itp.1).2 >>= fun it => .ok [make_range it br.end]) >>= fun here =>
    partitionSplit br perchunk rest >>= fun ret => .ok (here ++ ret)

/-- `partition(chunks)`. The cache is refreshed first; the flag is then clear,
so the refreshes inside `size`, `begin`, `closure` and `anteriorIt` leave the
object as it is and every loop runs over the refreshed object. -/
def partition (br : BinaryRelation) (chunks : Nat) : BinaryRelation × Except Failure (List range) :=
  let br1 := br.genAllDisjointSetLists
  let numPairs := br1.size.2
  if numPairs == 0 then (br1, .ok [])
  else if numPairs == 1 || chunks ≤ 1 then
    (br1, br1.begin.2 >>= fun it => .ok [make_range it br1.end])
  else if chunks ≤ br1.orderedStates.length then
    (br1, partitionPerBucket br1 br1.orderedStates)
  else
    let perchunk := numPairs / chunks
    (br1, partitionSplit br1 perchunk br1.orderedStates)

/-- The pairs a range yields to a consumer that is given `fuel` loop tests. -/
def pairsOf (fuel : Nat) (r : range) : Except Failure (List TupleType) :=
  enumerate fuel r.1 r.2

end BinaryRelation

/-! ## The ordering context of the node generator -/

/-- `NodeGenerator::OrderingContext`: the member `tupleOrders` as `insertOrder`
and `mapOrder` use it, a vector indexed by tuple id of the decoded orders,
themselves vectors of `uint32_t`. -/
structure OrderingContext where
  tupleOrders : List (List Nat)
deriving DecidableEq, Repr

namespace OrderingContext

/-- `tupleOrders.resize(n)`. -/
def resize (l : List (List Nat)) (n : Nat) : List (List Nat) :=
  if n ≤ l.length then l.take n else l ++ List.replicate (n - l.length) []

/-- The loop `decodeOrder[order[i]] = i` from index `i` on; an entry is a
`uint32_t`, and a write past the end of `decodeOrder` aborts. -/
def decodeLoop : List Nat → Nat → List Nat → Option (List Nat)
  | [], _, decodeOrder => some decodeOrder
  | o :: rest, i, decodeOrder =>
    if o < decodeOrder.length then decodeLoop rest (i + 1) (decodeOrder.set o (i % 2 ^ 32))
    else none

/-- `insertOrder(tupleId, order)`. -/
def insertOrder (ctx : OrderingContext) (tupleId : Nat) (order : List Nat) :
    Option OrderingContext :=
  let tupleOrders :=
    if tupleId ≥ ctx.tupleOrders.length then resize ctx.tupleOrders (tupleId + 1)
    else ctx.tupleOrders
  match decodeLoop order 0 (List.replicate order.length 0) with
  | some decodeOrder => some ⟨tupleOrders.set tupleId decodeOrder⟩
  | none => none

/-- `mapOrder(tupleId, elementId)`: `tupleOrders[tupleId][elementId]`, `none`
for a read past the end. -/
def mapOrder (ctx : OrderingContext) (tupleId elementId : Nat) : Option Nat :=
  match ctx.tupleOrders[tupleId]? with
  | some decodeOrder => decodeOrder[elementId]?
  | none => none

/-- `addNewTuple(tupleId, arity)`: the order `0, 1, ..., arity - 1`, each
entry cast to `uint32_t`. -/
def addNewTuple (ctx : OrderingContext) (tupleId arity : Nat) : Option OrderingContext :=
  ctx.insertOrder tupleId ((List.range arity).map (fun i => i % 2 ^ 32))

end OrderingContext

/-! ## Vocabulary of the properties -/

/-- An iterator reached from another by a run of successful `operator++`. -/
inductive Advances : iterator → iterator → Prop
  | refl (it : iterator) : Advances it it
  | step {a b c : iterator} : Advances a b → b.next = .ok c → Advances a c

/-- The cursor of an iterator that is not at end stands inside its bucket and
the current pair is the pair of the two members under the cursor. -/
def CursorInBounds (it : iterator) : Prop :=
  it.isEndVal = false →
    it.cAnteriorIndex < it.djSetList.length ∧ it.cPosteriorIndex < it.djSetList.length ∧
    it.djSetList[it.cAnteriorIndex]? = some it.cPair.1 ∧
    it.djSetList[it.cPosteriorIndex]? = some it.cPair.2

namespace SparseDisjointSet

/-- Well-formedness of the union-find: no sparse value has two dense slots,
and every representative is an element and represents itself. -/
def WF (s : SparseDisjointSet) : Prop :=
  s.domain.Nodup ∧ ∀ p ∈ s.slots, List.lookup p.2 s.slots = some p.2

/-- The union of the elements of every pair of `edges`, in list order. -/
def unionEdges (s : SparseDisjointSet) (edges : List (DomainInt × DomainInt)) : SparseDisjointSet :=
  edges.foldl (fun s e => s.unionNodes e.1 e.2) s

end SparseDisjointSet

/-- The smallest symmetric and transitive relation containing `P` (an
equivalence relation on the elements that `P` mentions). -/
inductive PERGen (P : DomainInt → DomainInt → Prop) : DomainInt → DomainInt → Prop
  | base {a b : DomainInt} : P a b → PERGen P a b
  | symm {a b : DomainInt} : PERGen P a b → PERGen P b a
  | trans {a b c : DomainInt} : PERGen P a b → PERGen P b c → PERGen P a c

namespace BinaryRelation

/-- The pairs `(key, member)` of a bucket map, bucket after bucket. -/
def edgesOf (m : StatesMap) : List (DomainInt × DomainInt) :=
  m.flatMap (fun keypair => keypair.2.map (fun e => (keypair.1, e)))

/-- The pairs `(c, member)` along which `extend` unites: for every bucket of
the map `m` of this relation, the first member `c` that exists in `other`
paired with every member of the class of `c` in `other`. -/
def extendEdges (m : StatesMap) (other : SparseDisjointSet) : List (DomainInt × DomainInt) :=
  m.flatMap (fun keypair =>
    match keypair.2.find? (fun c => other.nodeExists c) with
    | none => []
    | some c => (bucketOf other (other.readOnlyFindNode c)).map (fun e => (c, e)))

/-- The invariant of the relation object: the union-find is well-formed, and
a cache whose flag is clear files every element under its representative. -/
def Inv (br : BinaryRelation) : Prop :=
  br.sds.WF ∧ (br.statesMapStale = false → br.orderedStates = cacheOf br.sds)

/-- The states the public operations lead to from a newly constructed
relation: `insert`, `insertAll`, `extend`, `clear`, and the refresh of the
cache that `size`, `begin`, `getBoundaries` and `partition` perform; the
argument of `insertAll` and `extend` is such a state as well and only has
its cache refreshed. -/
inductive Reachable : BinaryRelation → Prop
  | new (addr : Nat) : Reachable (BinaryRelation.new addr)
  | insert {br : BinaryRelation} (x y : DomainInt) : Reachable br → Reachable (br.insert x y).1
  | insertAll {br other : BinaryRelation} :
      Reachable br → Reachable other → Reachable (br.insertAll other).1
  | insertAllArg {br other : BinaryRelation} :
      Reachable br → Reachable other → Reachable (br.insertAll other).2
  | extend {br other : BinaryRelation} {r : BinaryRelation × BinaryRelation} :
      Reachable br → Reachable other → br.extend other = .ok r → Reachable r.1
  | extendArg {br other : BinaryRelation} {r : BinaryRelation × BinaryRelation} :
      Reachable br → Reachable other → br.extend other = .ok r → Reachable r.2
  | clear {br : BinaryRelation} : Reachable br → Reachable br.clear
  | refresh {br : BinaryRelation} : Reachable br → Reachable br.genAllDisjointSetLists

/-- The equivalence class of `x`: the elements that `contains` relates to it. -/
def classOf (br : BinaryRelation) (x : DomainInt) : Finset DomainInt :=
  (br.sds.domain.filter (fun y => br.contains x y)).toFinset

/-- The equivalence classes of the relation. -/
def classes (br : BinaryRelation) : Finset (Finset DomainInt) :=
  (br.sds.domain.map br.classOf).toFinset

/-- The ordered pairs of elements that `contains` relates. -/
def pairs (br : BinaryRelation) : Finset TupleType :=
  (br.sds.domain.toFinset ×ˢ br.sds.domain.toFinset).filter (fun p => br.contains p.1 p.2 = true)

/-- Every ordered pair of members of a bucket, bucket after bucket, the first
coordinate moving slowest. -/
def allPairs (m : StatesMap) : List TupleType :=
  m.flatMap (fun keypair => keypair.2.flatMap (fun a => keypair.2.map (fun b => (a, b))))

/-- Two objects with the same content: `contains` gives the same answer on
every pair and the same elements exist. -/
def SameContent (a b : BinaryRelation) : Prop :=
  (∀ u v, a.contains u v = b.contains u v) ∧ (∀ e, a.containsElement e = b.containsElement e) ∧
    a.sds.domain = b.sds.domain

/-- The relation of `br` extended by `x ~ x` and `y ~ y`: what `insert(x, y)`
starts from once both elements exist. -/
def RelatedWith (br : BinaryRelation) (x y a b : DomainInt) : Prop :=
  br.contains a b = true ∨ (a = x ∧ b = x) ∨ (a = y ∧ b = y)

/-- The calls `insert(p.1, p.2)` for the pairs `p` of a list, one after the other. -/
def insertList (br : BinaryRelation) (l : List TupleType) : BinaryRelation :=
  l.foldl (fun b p => (b.insert p.1 p.2).1) br

/-- The relation of the running example: `insert(1, 2)` and then
`insert(2, 3)` on a new relation. -/
def example123 : BinaryRelation :=
  (((BinaryRelation.new 0).insert 1 2).1.insert 2 3).1

/-- The relation with the classes `{2, 3, 4}` and `{10, 11}`. -/
def exampleB : BinaryRelation :=
  ((((BinaryRelation.new 1).insert 2 3).1.insert 3 4).1.insert 10 11).1

/-- The relation with the single class `{1, 2}`. -/
def exampleA : BinaryRelation :=
  ((BinaryRelation.new 0).insert 1 2).1

/-- The relation with the classes `{1, 3}` and `{2, 4}`. -/
def exampleC : BinaryRelation :=
  (((BinaryRelation.new 1).insert 1 3).1.insert 2 4).1

end BinaryRelation

/-! ## Association lists -/

theorem lookup_cons_eq (e k r : DomainInt) (l : List (DomainInt × DomainInt)) :
    List.lookup e ((k, r) :: l) = if e = k then some r else List.lookup e l := by
  rw [List.lookup_cons]
  by_cases h : e = k
  · simp [h]
  · have : (e == k) = false := by simpa using h
    simp [this, h]

theorem lookup_isSome_iff (e : DomainInt) (l : List (DomainInt × DomainInt)) :
    (List.lookup e l).isSome = true ↔ e ∈ l.map Prod.fst := by
  induction l with
  | nil => simp
  | cons p l ih =>
    obtain ⟨k, r⟩ := p
    rw [lookup_cons_eq]
    by_cases h : e = k
    · simp [h]
    · simp only [h, if_false, List.map_cons, List.mem_cons, false_or]
      exact ih

theorem lookup_eq_none_iff (e : DomainInt) (l : List (DomainInt × DomainInt)) :
    List.lookup e l = none ↔ e ∉ l.map Prod.fst := by
  rw [← lookup_isSome_iff]
  cases List.lookup e l <;> simp

theorem mem_of_lookup_eq_some {e r : DomainInt} {l : List (DomainInt × DomainInt)}
    (h : List.lookup e l = some r) : (e, r) ∈ l := by
  induction l with
  | nil => simp at h
  | cons p l ih =>
    obtain ⟨k, q⟩ := p
    rw [lookup_cons_eq] at h
    by_cases hk : e = k
    · simp only [hk, if_true, Option.some.injEq] at h
      simp [hk, h]
    · simp only [hk, if_false] at h
      exact List.mem_cons_of_mem _ (ih h)

theorem lookup_of_mem_nodup {e r : DomainInt} {l : List (DomainInt × DomainInt)}
    (hnd : (l.map Prod.fst).Nodup) (h : (e, r) ∈ l) : List.lookup e l = some r := by
  induction l with
  | nil => simp at h
  | cons p l ih =>
    obtain ⟨k, q⟩ := p
    rw [lookup_cons_eq]
    simp only [List.map_cons, List.nodup_cons] at hnd
    rcases List.mem_cons.1 h with h1 | h1
    · cases h1; simp
    · have hne : e ≠ k := by
        rintro rfl
        exact hnd.1 (List.mem_map.2 ⟨(e, r), h1, rfl⟩)
      simp only [hne, if_false]
      exact ih hnd.2 h1

theorem lookup_append_eq (e : DomainInt) (l l' : List (DomainInt × DomainInt)) :
    List.lookup e (l ++ l') = (List.lookup e l).orElse (fun _ => List.lookup e l') := by
  induction l with
  | nil => simp
  | cons p l ih =>
    obtain ⟨k, q⟩ := p
    rw [List.cons_append, lookup_cons_eq, lookup_cons_eq]
    by_cases hk : e = k
    · simp [hk]
    · simp only [hk, if_false]; exact ih

theorem lookup_map_relabel (r r' e : DomainInt) (l : List (DomainInt × DomainInt)) :
    List.lookup e (l.map (SparseDisjointSet.relabel r r')) =
      (List.lookup e l).map (fun q => if q = r then r' else q) := by
  induction l with
  | nil => simp
  | cons p l ih =>
    obtain ⟨k, q⟩ := p
    have hrel : SparseDisjointSet.relabel r r' (k, q) = (k, if q = r then r' else q) := by
      unfold SparseDisjointSet.relabel
      by_cases hq : q = r <;> simp [hq]
    rw [List.map_cons, hrel, lookup_cons_eq, lookup_cons_eq]
    by_cases hk : e = k
    · simp [hk]
    · simp only [hk, if_false]; exact ih

theorem map_fst_map_relabel (r r' : DomainInt) (l : List (DomainInt × DomainInt)) :
    (l.map (SparseDisjointSet.relabel r r')).map Prod.fst = l.map Prod.fst := by
  induction l with
  | nil => rfl
  | cons p l ih =>
    simp only [List.map_cons, ih, SparseDisjointSet.relabel]
    by_cases hq : p.2 = r <;> simp [hq]

namespace SparseDisjointSet

/-! ## The union-find collaborator: queries -/

theorem nodeExists_iff (s : SparseDisjointSet) (e : DomainInt) :
    s.nodeExists e = true ↔ e ∈ s.domain := by
  unfold nodeExists domain
  exact lookup_isSome_iff e s.slots

theorem contains_iff (s : SparseDisjointSet) (x y : DomainInt) :
    s.contains x y = true ↔
      ∃ r, List.lookup x s.slots = some r ∧ List.lookup y s.slots = some r := by
  unfold contains nodeExists sameSet readOnlyFindNode
  cases hx : List.lookup x s.slots <;> cases hy : List.lookup y s.slots <;> simp
  exact eq_comm

theorem contains_comm (s : SparseDisjointSet) (x y : DomainInt) :
    s.contains x y = s.contains y x := by
  rw [Bool.eq_iff_iff, contains_iff, contains_iff]
  constructor <;> rintro ⟨r, h1, h2⟩ <;> exact ⟨r, h2, h1⟩

theorem contains_trans {s : SparseDisjointSet} {x y z : DomainInt}
    (h1 : s.contains x y = true) (h2 : s.contains y z = true) : s.contains x z = true := by
  rw [contains_iff] at *
  obtain ⟨r, hx, hy⟩ := h1
  obtain ⟨r', hy', hz⟩ := h2
  rw [hy] at hy'
  cases hy'
  exact ⟨r, hx, hz⟩

theorem contains_self_iff (s : SparseDisjointSet) (x : DomainInt) :
    s.contains x x = true ↔ x ∈ s.domain := by
  rw [contains_iff, ← nodeExists_iff]
  unfold nodeExists
  cases List.lookup x s.slots <;> simp

theorem mem_domain_of_contains {s : SparseDisjointSet} {x y : DomainInt}
    (h : s.contains x y = true) : x ∈ s.domain ∧ y ∈ s.domain := by
  rw [contains_iff] at h
  obtain ⟨r, hx, hy⟩ := h
  constructor
  · rw [← nodeExists_iff]; unfold nodeExists; rw [hx]; rfl
  · rw [← nodeExists_iff]; unfold nodeExists; rw [hy]; rfl

theorem lookup_isSome_of_mem {s : SparseDisjointSet} {x : DomainInt} (h : x ∈ s.domain) :
    ∃ r, List.lookup x s.slots = some r := by
  have := (nodeExists_iff s x).2 h
  unfold nodeExists at this
  exact Option.isSome_iff_exists.1 this

theorem readOnlyFindNode_eq {s : SparseDisjointSet} {x r : DomainInt}
    (h : List.lookup x s.slots = some r) : s.readOnlyFindNode x = r := by
  unfold readOnlyFindNode; rw [h]; rfl

theorem contains_iff_find {s : SparseDisjointSet} {x y : DomainInt}
    (hx : x ∈ s.domain) (hy : y ∈ s.domain) :
    s.contains x y = true ↔ s.readOnlyFindNode x = s.readOnlyFindNode y := by
  obtain ⟨rx, hrx⟩ := lookup_isSome_of_mem hx
  obtain ⟨ry, hry⟩ := lookup_isSome_of_mem hy
  rw [contains_iff, readOnlyFindNode_eq hrx, readOnlyFindNode_eq hry, hrx, hry]
  constructor
  · rintro ⟨r, h1, h2⟩; cases h1; cases h2; rfl
  · rintro rfl; exact ⟨rx, rfl, rfl⟩

/-! ## The union-find collaborator: `makeNode` -/

theorem WF_empty : WF empty := by
  constructor
  · simp [domain, empty]
  · intro p hp; simp [empty] at hp

theorem domain_makeNode (s : SparseDisjointSet) (e : DomainInt) :
    (s.makeNode e).domain = if e ∈ s.domain then s.domain else s.domain ++ [e] := by
  unfold makeNode
  by_cases h : e ∈ s.domain
  · rw [if_pos ((nodeExists_iff s e).2 h), if_pos h]
  · have h' : ¬ s.nodeExists e = true := fun hc => h ((nodeExists_iff s e).1 hc)
    rw [if_neg h', if_neg h]
    simp [domain]

theorem mem_domain_makeNode (s : SparseDisjointSet) (e u : DomainInt) :
    u ∈ (s.makeNode e).domain ↔ u ∈ s.domain ∨ u = e := by
  rw [domain_makeNode]
  by_cases h : e ∈ s.domain
  · rw [if_pos h]
    constructor
    · exact Or.inl
    · rintro (h1 | rfl)
      · exact h1
      · exact h
  · rw [if_neg h]; simp

theorem lookup_makeNode (s : SparseDisjointSet) (e u : DomainInt) :
    List.lookup u (s.makeNode e).slots =
      if u ∈ s.domain then List.lookup u s.slots else if u = e then some e else none := by
  unfold makeNode
  by_cases h : e ∈ s.domain
  · rw [if_pos ((nodeExists_iff s e).2 h)]
    by_cases hu : u ∈ s.domain
    · rw [if_pos hu]
    · rw [if_neg hu]
      have hne : u ≠ e := by rintro rfl; exact hu h
      rw [if_neg hne]
      exact (lookup_eq_none_iff u s.slots).2 hu
  · have h' : ¬ s.nodeExists e = true := fun hc => h ((nodeExists_iff s e).1 hc)
    rw [if_neg h']
    show List.lookup u (s.slots ++ [(e, e)]) = _
    rw [lookup_append_eq]
    by_cases hu : u ∈ s.domain
    · rw [if_pos hu]
      obtain ⟨r, hr⟩ := lookup_isSome_of_mem hu
      rw [hr]; rfl
    · rw [if_neg hu, (lookup_eq_none_iff u s.slots).2 hu]
      show List.lookup u [(e, e)] = _
      rw [lookup_cons_eq]
      simp

theorem WF_makeNode {s : SparseDisjointSet} (h : WF s) (e : DomainInt) : WF (s.makeNode e) := by
  by_cases he : e ∈ s.domain
  · have : s.makeNode e = s := by
      unfold makeNode; rw [if_pos ((nodeExists_iff s e).2 he)]
    rw [this]; exact h
  · constructor
    · rw [domain_makeNode, if_neg he]
      refine List.Nodup.append h.1 (List.nodup_singleton e) ?_
      intro a ha ha'
      rw [List.mem_singleton] at ha'
      exact he (ha' ▸ ha)
    · intro p hp
      rw [lookup_makeNode]
      have hslots : (s.makeNode e).slots = s.slots ++ [(e, e)] := by
        unfold makeNode
        have h' : ¬ s.nodeExists e = true := fun hc => he ((nodeExists_iff s e).1 hc)
        rw [if_neg h']
      rw [hslots, List.mem_append] at hp
      rcases hp with hp | hp
      · have h2 := h.2 p hp
        have hmem : p.2 ∈ s.domain := (mem_of_lookup_eq_some h2 |> fun m =>
          List.mem_map.2 ⟨(p.2, p.2), m, rfl⟩)
        rw [if_pos hmem]; exact h2
      · rw [List.mem_singleton] at hp
        subst hp
        simp [he]

/-! ## The union-find collaborator: `unionNodes` -/

theorem map_relabel_self (r : DomainInt) (l : List (DomainInt × DomainInt)) :
    l.map (relabel r r) = l := by
  induction l with
  | nil => rfl
  | cons p l ih =>
    rw [List.map_cons, ih]
    congr 1
    obtain ⟨a, b⟩ := p
    unfold relabel
    by_cases h : b = r
    · subst h; simp
    · simp [h]

theorem slots_unionNodes (s : SparseDisjointSet) (x y : DomainInt) :
    (s.unionNodes x y).slots =
      ((s.makeNode x).makeNode y).slots.map
        (relabel (((s.makeNode x).makeNode y).readOnlyFindNode x)
          (((s.makeNode x).makeNode y).readOnlyFindNode y)) := by
  unfold unionNodes
  simp only
  split
  · rename_i h
    rw [beq_iff_eq] at h
    rw [h, map_relabel_self]
  · rfl

theorem domain_unionNodes (s : SparseDisjointSet) (x y : DomainInt) :
    (s.unionNodes x y).domain = ((s.makeNode x).makeNode y).domain := by
  unfold domain
  rw [slots_unionNodes, map_fst_map_relabel]

theorem mem_domain_unionNodes (s : SparseDisjointSet) (x y u : DomainInt) :
    u ∈ (s.unionNodes x y).domain ↔ u ∈ s.domain ∨ u = x ∨ u = y := by
  rw [domain_unionNodes, mem_domain_makeNode, mem_domain_makeNode, or_assoc]

theorem lookup_unionNodes (s : SparseDisjointSet) (x y u : DomainInt) :
    List.lookup u (s.unionNodes x y).slots =
      (List.lookup u ((s.makeNode x).makeNode y).slots).map
        (fun q => if q = ((s.makeNode x).makeNode y).readOnlyFindNode x
          then ((s.makeNode x).makeNode y).readOnlyFindNode y else q) := by
  rw [slots_unionNodes, lookup_map_relabel]

theorem WF_relabel {s : SparseDisjointSet} (h : WF s) {r r' : DomainInt}
    (hr' : List.lookup r' s.slots = some r') : WF ⟨s.slots.map (relabel r r')⟩ := by
  constructor
  · unfold domain
    rw [map_fst_map_relabel]
    exact h.1
  · intro p hp
    simp only at hp ⊢
    rw [List.mem_map] at hp
    obtain ⟨q, hq, rfl⟩ := hp
    rw [lookup_map_relabel]
    unfold relabel
    by_cases hqr : q.2 = r
    · simp only [hqr, beq_self_eq_true, if_true, hr', Option.map_some']
      by_cases h1 : r' = r <;> simp [h1]
    · have : (q.2 == r) = false := by simpa using hqr
      simp only [this, Bool.false_eq_true, if_false, h.2 q hq, Option.map_some', hqr]

theorem WF_unionNodes {s : SparseDisjointSet} (h : WF s) (x y : DomainInt) :
    WF (s.unionNodes x y) := by
  have h2 : WF ((s.makeNode x).makeNode y) := WF_makeNode (WF_makeNode h x) y
  have hy : y ∈ ((s.makeNode x).makeNode y).domain := by
    rw [mem_domain_makeNode]; exact Or.inr rfl
  obtain ⟨ry, hry⟩ := lookup_isSome_of_mem hy
  have hry2 : List.lookup ry ((s.makeNode x).makeNode y).slots = some ry :=
    h2.2 (y, ry) (mem_of_lookup_eq_some hry)
  have := WF_relabel h2 (r := ((s.makeNode x).makeNode y).readOnlyFindNode x) hry2
  rw [← readOnlyFindNode_eq hry, ← slots_unionNodes] at this
  exact this

theorem contains_makeNode {s : SparseDisjointSet} (h : WF s) (e u v : DomainInt) :
    (s.makeNode e).contains u v = true ↔ s.contains u v = true ∨ (u = e ∧ v = e) := by
  rw [contains_iff, contains_iff]
  simp only [lookup_makeNode]
  constructor
  · rintro ⟨r, hu, hv⟩
    by_cases hud : u ∈ s.domain <;> by_cases hvd : v ∈ s.domain
    · rw [if_pos hud] at hu; rw [if_pos hvd] at hv
      exact Or.inl ⟨r, hu, hv⟩
    · rw [if_pos hud] at hu; rw [if_neg hvd] at hv
      by_cases hve : v = e
      · rw [if_pos hve] at hv
        cases hv
        have := h.2 (u, e) (mem_of_lookup_eq_some hu)
        have hmem : e ∈ s.domain := List.mem_map.2 ⟨(e, e), mem_of_lookup_eq_some this, rfl⟩
        exact absurd (hve ▸ hmem) hvd
      · rw [if_neg hve] at hv; cases hv
    · rw [if_neg hud] at hu; rw [if_pos hvd] at hv
      by_cases hue : u = e
      · rw [if_pos hue] at hu
        cases hu
        have := h.2 (v, e) (mem_of_lookup_eq_some hv)
        have hmem : e ∈ s.domain := List.mem_map.2 ⟨(e, e), mem_of_lookup_eq_some this, rfl⟩
        exact absurd (hue ▸ hmem) hud
      · rw [if_neg hue] at hu; cases hu
    · rw [if_neg hud] at hu; rw [if_neg hvd] at hv
      by_cases hue : u = e
      · by_cases hve : v = e
        · exact Or.inr ⟨hue, hve⟩
        · rw [if_neg hve] at hv; cases hv
      · rw [if_neg hue] at hu; cases hu
  · rintro (⟨r, hu, hv⟩ | ⟨hue, hve⟩)
    · have hud : u ∈ s.domain := List.mem_map.2 ⟨(u, r), mem_of_lookup_eq_some hu, rfl⟩
      have hvd : v ∈ s.domain := List.mem_map.2 ⟨(v, r), mem_of_lookup_eq_some hv, rfl⟩
      exact ⟨r, by rw [if_pos hud]; exact hu, by rw [if_pos hvd]; exact hv⟩
    · rw [hue, hve]
      by_cases hud : e ∈ s.domain
      · obtain ⟨r, hr⟩ := lookup_isSome_of_mem hud
        exact ⟨r, by rw [if_pos hud]; exact hr, by rw [if_pos hud]; exact hr⟩
      · exact ⟨e, by rw [if_neg hud, if_pos rfl], by rw [if_neg hud, if_pos rfl]⟩

theorem relabel_eq_iff (rx ry qu qv : Int) :
    ((if qv = rx then ry else qv) = if qu = rx then ry else qu) ↔
      qv = qu ∨ rx = qu ∧ ry = qv ∨ ry = qu ∧ rx = qv := by
  split_ifs <;> omega

/-- The relation after a union, in terms of the relation once both elements exist. -/
theorem contains_unionNodes_aux (s : SparseDisjointSet) (x y u v : DomainInt) :
    (s.unionNodes x y).contains u v = true ↔
      ((s.makeNode x).makeNode y).contains u v = true ∨
      (((s.makeNode x).makeNode y).contains u x = true ∧
        ((s.makeNode x).makeNode y).contains v y = true) ∨
      (((s.makeNode x).makeNode y).contains u y = true ∧
        ((s.makeNode x).makeNode y).contains v x = true) := by
  have hx : x ∈ ((s.makeNode x).makeNode y).domain := by
    rw [mem_domain_makeNode, mem_domain_makeNode]; exact Or.inl (Or.inr rfl)
  have hy : y ∈ ((s.makeNode x).makeNode y).domain := by
    rw [mem_domain_makeNode]; exact Or.inr rfl
  obtain ⟨rx, hrx⟩ := lookup_isSome_of_mem hx
  obtain ⟨ry, hry⟩ := lookup_isSome_of_mem hy
  rw [contains_iff]
  simp only [lookup_unionNodes, contains_iff, readOnlyFindNode_eq hrx, readOnlyFindNode_eq hry,
    hrx, hry]
  cases hu : List.lookup u ((s.makeNode x).makeNode y).slots with
  | none => simp
  | some qu =>
    cases hv : List.lookup v ((s.makeNode x).makeNode y).slots with
    | none => simp
    | some qv =>
      simp only [Option.map_some', Option.some.injEq, exists_eq_left', exists_eq_left]
      exact relabel_eq_iff rx ry qu qv

/-- Being equal or related. -/
theorem contains_unionNodes {s : SparseDisjointSet} (h : WF s) (x y u v : DomainInt) :
    (s.unionNodes x y).contains u v = true ↔
      s.contains u v = true ∨ (u = x ∧ v = x) ∨ (u = y ∧ v = y) ∨
      ((u = x ∨ s.contains u x = true) ∧ (v = y ∨ s.contains v y = true)) ∨
      ((u = y ∨ s.contains u y = true) ∧ (v = x ∨ s.contains v x = true)) := by
  rw [contains_unionNodes_aux]
  simp only [contains_makeNode (WF_makeNode h x), contains_makeNode h]
  by_cases hxy : x = y
  · subst hxy
    simp only [and_self, true_and, and_true]
    tauto
  · have hyx : ¬ y = x := fun hc => hxy hc.symm
    simp only [hxy, hyx, and_false, false_and, or_false, and_true, true_and]
    tauto

end SparseDisjointSet

/-! ## Generated partial equivalence relations -/

theorem PERGen.le {P : DomainInt → DomainInt → Prop} (S : DomainInt → DomainInt → Prop)
    (hsymm : ∀ a b, S a b → S b a) (htrans : ∀ a b c, S a b → S b c → S a c)
    (hP : ∀ a b, P a b → S a b) {u v : DomainInt} (h : PERGen P u v) : S u v := by
  induction h with
  | base h => exact hP _ _ h
  | symm _ ih => exact hsymm _ _ ih
  | trans _ _ ih1 ih2 => exact htrans _ _ _ ih1 ih2

theorem PERGen.mono {P Q : DomainInt → DomainInt → Prop} (hPQ : ∀ a b, P a b → Q a b)
    {u v : DomainInt} (h : PERGen P u v) : PERGen Q u v :=
  PERGen.le (PERGen Q) (fun _ _ => PERGen.symm) (fun _ _ _ => PERGen.trans)
    (fun a b hab => PERGen.base (hPQ a b hab)) h

theorem PERGen.left_refl {P : DomainInt → DomainInt → Prop} {u v : DomainInt}
    (h : PERGen P u v) : PERGen P u u :=
  PERGen.trans h (PERGen.symm h)

theorem PERGen.right_refl {P : DomainInt → DomainInt → Prop} {u v : DomainInt}
    (h : PERGen P u v) : PERGen P v v :=
  PERGen.trans (PERGen.symm h) h

theorem PERGen.congr {P Q : DomainInt → DomainInt → Prop} (hPQ : ∀ a b, P a b ↔ Q a b)
    (u v : DomainInt) : PERGen P u v ↔ PERGen Q u v :=
  ⟨PERGen.mono (fun a b => (hPQ a b).1), PERGen.mono (fun a b => (hPQ a b).2)⟩

/-- Closing a closure together with further pairs is closing everything at once. -/
theorem PERGen.flatten (P Q : DomainInt → DomainInt → Prop) (u v : DomainInt) :
    PERGen (fun a b => PERGen P a b ∨ Q a b) u v ↔ PERGen (fun a b => P a b ∨ Q a b) u v := by
  constructor
  · intro h
    refine PERGen.le (PERGen (fun a b => P a b ∨ Q a b)) (fun _ _ => PERGen.symm)
      (fun _ _ _ => PERGen.trans) ?_ h
    rintro a b (hab | hab)
    · exact PERGen.mono (fun _ _ => Or.inl) hab
    · exact PERGen.base (Or.inr hab)
  · intro h
    refine PERGen.mono ?_ h
    rintro a b (hab | hab)
    · exact Or.inl (PERGen.base hab)
    · exact Or.inr hab

namespace SparseDisjointSet

theorem contains_symm {s : SparseDisjointSet} {x y : DomainInt} (h : s.contains x y = true) :
    s.contains y x = true := by
  rw [contains_comm]; exact h

theorem PERGen_contains (s : SparseDisjointSet) (u v : DomainInt) :
    PERGen (fun a b => s.contains a b = true) u v ↔ s.contains u v = true :=
  ⟨PERGen.le (fun a b => s.contains a b = true) (fun _ _ => contains_symm)
    (fun _ _ _ => contains_trans) (fun _ _ h => h), fun h => PERGen.base h⟩

/-- A union adds the pair `(x, y)` and closes the relation again. -/
theorem contains_unionNodes_gen {s : SparseDisjointSet} (h : WF s) (x y u v : DomainInt) :
    (s.unionNodes x y).contains u v = true ↔
      PERGen (fun a b => s.contains a b = true ∨ (a = x ∧ b = y)) u v := by
  constructor
  · intro huv
    have hxy : PERGen (fun a b => s.contains a b = true ∨ (a = x ∧ b = y)) x y :=
      PERGen.base (Or.inr ⟨rfl, rfl⟩)
    have hnear : ∀ a b, (a = b ∨ s.contains a b = true) →
        PERGen (fun a b => s.contains a b = true ∨ (a = x ∧ b = y)) b b →
        PERGen (fun a b => s.contains a b = true ∨ (a = x ∧ b = y)) a b := by
      rintro a b (rfl | hab) hb
      · exact hb
      · exact PERGen.base (Or.inl hab)
    have hxx := PERGen.left_refl hxy
    have hyy := PERGen.right_refl hxy
    rcases (contains_unionNodes h x y u v).1 huv with h1 | ⟨rfl, rfl⟩ | ⟨rfl, rfl⟩ | ⟨h1, h2⟩ | ⟨h1, h2⟩
    · exact PERGen.base (Or.inl h1)
    · exact hxx
    · exact hyy
    · exact PERGen.trans (hnear u x h1 hxx) (PERGen.trans hxy (PERGen.symm (hnear v y h2 hyy)))
    · exact PERGen.trans (hnear u y h1 hyy)
        (PERGen.trans (PERGen.symm hxy) (PERGen.symm (hnear v x h2 hxx)))
  · intro huv
    refine PERGen.le (fun a b => (s.unionNodes x y).contains a b = true)
      (fun _ _ => contains_symm) (fun _ _ _ => contains_trans) ?_ huv
    rintro a b (hab | ⟨rfl, rfl⟩)
    · exact (contains_unionNodes h x y a b).2 (Or.inl hab)
    · exact (contains_unionNodes h a b a b).2
        (Or.inr (Or.inr (Or.inr (Or.inl ⟨Or.inl rfl, Or.inl rfl⟩))))

theorem WF_unionEdges {s : SparseDisjointSet} (h : WF s) (edges : List (DomainInt × DomainInt)) :
    WF (s.unionEdges edges) := by
  induction edges generalizing s with
  | nil => exact h
  | cons e edges ih => exact ih (WF_unionNodes h e.1 e.2)

/-- A run of unions adds its pairs and closes the relation again. -/
theorem contains_unionEdges {s : SparseDisjointSet} (h : WF s)
    (edges : List (DomainInt × DomainInt)) (u v : DomainInt) :
    (s.unionEdges edges).contains u v = true ↔
      PERGen (fun a b => s.contains a b = true ∨ (a, b) ∈ edges) u v := by
  induction edges generalizing s with
  | nil =>
    simp only [unionEdges, List.foldl_nil, List.not_mem_nil, or_false]
    exact (PERGen_contains s u v).symm
  | cons e edges ih =>
    have := ih (WF_unionNodes h e.1 e.2)
    unfold unionEdges at this ⊢
    rw [List.foldl_cons, this]
    rw [PERGen.congr (fun a b => or_congr (contains_unionNodes_gen h e.1 e.2 a b) Iff.rfl)]
    rw [PERGen.flatten]
    apply PERGen.congr
    intro a b
    simp only [List.mem_cons, Prod.ext_iff]
    tauto

theorem mem_domain_unionEdges (s : SparseDisjointSet) (edges : List (DomainInt × DomainInt))
    (u : DomainInt) :
    u ∈ (s.unionEdges edges).domain ↔ u ∈ s.domain ∨ ∃ e ∈ edges, u = e.1 ∨ u = e.2 := by
  induction edges generalizing s with
  | nil => simp [unionEdges]
  | cons e edges ih =>
    have := ih (s.unionNodes e.1 e.2)
    unfold unionEdges at this ⊢
    rw [List.foldl_cons, this, mem_domain_unionNodes]
    simp only [List.mem_cons, exists_eq_or_imp]
    constructor
    · rintro ((h1 | h1 | h1) | h1)
      · exact Or.inl h1
      · exact Or.inr (Or.inl (Or.inl h1))
      · exact Or.inr (Or.inl (Or.inr h1))
      · exact Or.inr (Or.inr h1)
    · rintro (h1 | (h1 | h1) | h1)
      · exact Or.inl (Or.inl h1)
      · exact Or.inl (Or.inr (Or.inl h1))
      · exact Or.inl (Or.inr (Or.inr h1))
      · exact Or.inr h1

end SparseDisjointSet

namespace BinaryRelation

/-! ## The bucket cache -/

theorem keysOf_append_singleton (f : DomainInt → DomainInt) (l : List DomainInt) (v : DomainInt) :
    keysOf f (l ++ [v]) = if f v ∈ keysOf f l then keysOf f l else keysOf f l ++ [f v] := by
  unfold keysOf
  rw [List.foldl_append]
  rfl

theorem mem_keysOf (f : DomainInt → DomainInt) (l : List DomainInt) (k : DomainInt) :
    k ∈ keysOf f l ↔ ∃ v ∈ l, f v = k := by
  induction l using List.reverseRecOn with
  | nil => simp [keysOf]
  | append_singleton l v ih =>
    rw [keysOf_append_singleton]
    by_cases h : f v ∈ keysOf f l
    · rw [if_pos h, ih]
      constructor
      · rintro ⟨w, hw, hwk⟩
        exact ⟨w, List.mem_append_left _ hw, hwk⟩
      · rintro ⟨w, hw, hwk⟩
        rcases List.mem_append.1 hw with hw | hw
        · exact ⟨w, hw, hwk⟩
        · rw [List.mem_singleton] at hw
          subst hw
          exact ih.1 (hwk ▸ h)
    · rw [if_neg h, List.mem_append, ih, List.mem_singleton]
      constructor
      · rintro (⟨w, hw, hwk⟩ | rfl)
        · exact ⟨w, List.mem_append_left _ hw, hwk⟩
        · exact ⟨v, List.mem_append_right _ (List.mem_singleton.2 rfl), rfl⟩
      · rintro ⟨w, hw, hwk⟩
        rcases List.mem_append.1 hw with hw | hw
        · exact Or.inl ⟨w, hw, hwk⟩
        · rw [List.mem_singleton] at hw
          subst hw
          exact Or.inr hwk.symm

theorem nodup_keysOf (f : DomainInt → DomainInt) (l : List DomainInt) : (keysOf f l).Nodup := by
  induction l using List.reverseRecOn with
  | nil => simp [keysOf]
  | append_singleton l v ih =>
    rw [keysOf_append_singleton]
    by_cases h : f v ∈ keysOf f l
    · rw [if_pos h]; exact ih
    · rw [if_neg h]
      refine List.Nodup.append ih (List.nodup_singleton _) ?_
      intro a ha ha'
      rw [List.mem_singleton] at ha'
      exact h (ha' ▸ ha)

theorem addToBucket_map (g : DomainInt → StatesBucket) (ks : List DomainInt) (hnd : ks.Nodup)
    (k0 v : DomainInt) :
    addToBucket (ks.map (fun k => (k, g k))) k0 v =
      if k0 ∈ ks then ks.map (fun k => (k, if k = k0 then g k ++ [v] else g k))
      else ks.map (fun k => (k, g k)) ++ [(k0, [v])] := by
  induction ks with
  | nil => simp [addToBucket]
  | cons k ks ih =>
    rw [List.nodup_cons] at hnd
    rw [List.map_cons, addToBucket]
    by_cases hk : k = k0
    · subst hk
      have hmem : k ∈ k :: ks := List.mem_cons_self _ _
      rw [if_pos hmem]
      simp only [beq_self_eq_true, if_true, List.map_cons]
      congr 1
      apply List.map_congr_left
      intro a ha
      have : a ≠ k := fun hc => hnd.1 (hc ▸ ha)
      simp [this]
    · have hbeq : (k == k0) = false := by simpa using hk
      simp only [hbeq, Bool.false_eq_true, if_false]
      rw [ih hnd.2]
      by_cases hmem : k0 ∈ ks
      · have hmem' : k0 ∈ k :: ks := List.mem_cons_of_mem _ hmem
        rw [if_pos hmem, if_pos hmem']
        simp [hk]
      · have hmem' : k0 ∉ k :: ks := by
          rw [List.mem_cons]; rintro (h | h)
          · exact hk h.symm
          · exact hmem h
        rw [if_neg hmem, if_neg hmem']
        simp

/-- Filing the values of `l` one after the other gives one bucket per key. -/
theorem foldl_addToBucket (f : DomainInt → DomainInt) (l : List DomainInt) :
    l.foldl (fun m v => addToBucket m (f v) v) [] =
      (keysOf f l).map (fun k => (k, l.filter (fun v => f v == k))) := by
  induction l using List.reverseRecOn with
  | nil => simp [keysOf]
  | append_singleton l v ih =>
    rw [List.foldl_append, ih]
    simp only [List.foldl_cons, List.foldl_nil]
    rw [addToBucket_map _ _ (nodup_keysOf f l), keysOf_append_singleton]
    by_cases h : f v ∈ keysOf f l
    · rw [if_pos h, if_pos h]
      apply List.map_congr_left
      intro k _
      by_cases hk : k = f v
      · simp [hk, List.filter_append]
      · have : ¬ f v = k := fun hc => hk hc.symm
        simp [hk, this, List.filter_append]
    · rw [if_neg h, if_neg h, List.map_append]
      congr 1
      · apply List.map_congr_left
        intro k hk
        have : ¬ f v = k := fun hc => h (hc ▸ hk)
        simp [this, List.filter_append]
      · have hnone : l.filter (fun w => f w == f v) = [] := by
          rw [List.filter_eq_nil_iff]
          intro w hw hc
          rw [beq_iff_eq] at hc
          exact h ((mem_keysOf f l (f v)).2 ⟨w, hw, hc⟩)
        simp [List.filter_append, hnone]

theorem range_map_toSparse (s : SparseDisjointSet) :
    (List.range s.denseSlotCount).map s.toSparse = s.domain := by
  apply List.ext_getElem
  · simp [SparseDisjointSet.denseSlotCount, SparseDisjointSet.domain]
  · intro i h1 h2
    simp only [List.getElem_map, List.getElem_range, SparseDisjointSet.toSparse,
      SparseDisjointSet.domain]
    simp only [SparseDisjointSet.domain, List.length_map] at h2
    rw [List.getD_eq_getElem?_getD, List.getElem?_eq_getElem (by simpa using h2)]
    simp

/-- What a regeneration leaves in the map. -/
theorem orderedStates_gen_of_stale {br : BinaryRelation} (h : br.statesMapStale = true) :
    br.genAllDisjointSetLists.orderedStates = cacheOf br.sds := by
  unfold genAllDisjointSetLists
  simp only [h, Bool.not_true, Bool.false_eq_true, if_false]
  unfold cacheOf bucketOf
  rw [← foldl_addToBucket, ← range_map_toSparse, List.foldl_map]

/-! ## The invariant of the relation object -/

theorem sds_gen (br : BinaryRelation) : br.genAllDisjointSetLists.sds = br.sds := by
  unfold genAllDisjointSetLists
  split <;> rfl

theorem addr_gen (br : BinaryRelation) : br.genAllDisjointSetLists.addr = br.addr := by
  unfold genAllDisjointSetLists
  split <;> rfl

theorem stale_gen (br : BinaryRelation) : br.genAllDisjointSetLists.statesMapStale = false := by
  unfold genAllDisjointSetLists
  cases h : br.statesMapStale <;> simp [h]

theorem gen_of_fresh {br : BinaryRelation} (h : br.statesMapStale = false) :
    br.genAllDisjointSetLists = br := by
  unfold genAllDisjointSetLists
  simp [h]

theorem gen_gen (br : BinaryRelation) :
    br.genAllDisjointSetLists.genAllDisjointSetLists = br.genAllDisjointSetLists :=
  gen_of_fresh (stale_gen br)

theorem contains_gen (br : BinaryRelation) (x y : DomainInt) :
    br.genAllDisjointSetLists.contains x y = br.contains x y := by
  unfold contains
  rw [sds_gen]

/-- After a refresh the map files every element under its representative. -/
theorem orderedStates_gen {br : BinaryRelation} (h : Inv br) :
    br.genAllDisjointSetLists.orderedStates = cacheOf br.sds := by
  cases hs : br.statesMapStale
  · rw [gen_of_fresh hs]; exact h.2 hs
  · exact orderedStates_gen_of_stale hs

theorem Inv_gen {br : BinaryRelation} (h : Inv br) : Inv br.genAllDisjointSetLists := by
  constructor
  · rw [sds_gen]; exact h.1
  · intro _
    rw [sds_gen]; exact orderedStates_gen h

theorem cacheOf_empty : cacheOf SparseDisjointSet.empty = [] := by
  simp [cacheOf, keysOf, SparseDisjointSet.empty, SparseDisjointSet.domain]

theorem Inv_new (addr : Nat) : Inv (BinaryRelation.new addr) :=
  ⟨SparseDisjointSet.WF_empty, fun _ => cacheOf_empty.symm⟩

theorem Inv_insert {br : BinaryRelation} (h : Inv br) (x y : DomainInt) : Inv (br.insert x y).1 :=
  ⟨SparseDisjointSet.WF_unionNodes h.1 x y, fun hc => by simp [insert] at hc⟩

theorem Inv_clear {br : BinaryRelation} (_h : Inv br) : Inv br.clear :=
  ⟨SparseDisjointSet.WF_empty, fun _ => cacheOf_empty.symm⟩

/-- The two nested loops of `insertAll` unite along the pairs of the map. -/
theorem foldl_buckets_eq_unionEdges (m : StatesMap) (s : SparseDisjointSet) :
    m.foldl (fun sds keypair => keypair.2.foldl (fun sds e => sds.unionNodes keypair.1 e) sds) s =
      s.unionEdges (edgesOf m) := by
  induction m generalizing s with
  | nil => rfl
  | cons kp m ih =>
    rw [List.foldl_cons, ih]
    unfold SparseDisjointSet.unionEdges edgesOf
    rw [List.flatMap_cons, List.foldl_append, List.foldl_map]

theorem sds_insertAll (br other : BinaryRelation) :
    (br.insertAll other).1.sds =
      br.sds.unionEdges (edgesOf other.genAllDisjointSetLists.orderedStates) := by
  unfold insertAll
  simp only
  rw [foldl_buckets_eq_unionEdges]

theorem insertAll_snd (br other : BinaryRelation) :
    (br.insertAll other).2 = other.genAllDisjointSetLists := rfl

theorem Inv_insertAll {br : BinaryRelation} (h : Inv br) (other : BinaryRelation) :
    Inv (br.insertAll other).1 := by
  constructor
  · rw [sds_insertAll]; exact SparseDisjointSet.WF_unionEdges h.1 _
  · intro hc; simp [insertAll] at hc

/-- The scan of one bucket in `extend` looks for the first member that exists
in `other` and unites it with every member of its bucket there. -/
theorem extendBucket_eq (other : BinaryRelation) (s : SparseDisjointSet) (sb : StatesBucket) :
    extendBucket other s sb =
      match sb.find? (fun c => other.containsElement c) with
      | none => .ok s
      | some c =>
        match findBucket other.orderedStates (other.sds.readOnlyFindNode c) with
        | .ok osb => .ok (s.unionEdges (osb.map (fun e => (c, e))))
        | .error f => .error f := by
  induction sb with
  | nil => rfl
  | cons c rest ih =>
    unfold extendBucket
    by_cases hc : other.containsElement c = true
    · rw [if_pos hc, List.find?_cons_of_pos _ hc]
      dsimp only
      cases findBucket other.orderedStates (other.sds.readOnlyFindNode c) with
      | error f => rfl
      | ok osb =>
        simp only [SparseDisjointSet.unionEdges, List.foldl_map]
    · rw [if_neg hc, List.find?_cons_of_neg _ hc]
      exact ih

theorem WF_extendBucket {other : BinaryRelation} {s s1 : SparseDisjointSet} {sb : StatesBucket}
    (hs : s.WF) (h : extendBucket other s sb = .ok s1) : s1.WF := by
  rw [extendBucket_eq] at h
  cases hf : sb.find? (fun c => other.containsElement c) with
  | none =>
    rw [hf] at h
    simp only [Except.ok.injEq] at h
    rw [← h]; exact hs
  | some c =>
    rw [hf] at h
    simp only at h
    cases hb : findBucket other.orderedStates (other.sds.readOnlyFindNode c) with
    | error f => rw [hb] at h; cases h
    | ok osb =>
      rw [hb] at h
      simp only [Except.ok.injEq] at h
      rw [← h]
      exact SparseDisjointSet.WF_unionEdges hs _

theorem WF_extendLoop {other : BinaryRelation} {s s1 : SparseDisjointSet} {m : StatesMap}
    (hs : s.WF) (h : extendLoop other s m = .ok s1) : s1.WF := by
  induction m generalizing s with
  | nil => simp [extendLoop] at h; rw [← h]; exact hs
  | cons kp m ih =>
    unfold extendLoop at h
    cases hb : extendBucket other s kp.2 with
    | error f => rw [hb] at h; cases h
    | ok s2 =>
      rw [hb] at h
      exact ih (WF_extendBucket hs hb) h

theorem extend_ok {br other : BinaryRelation} {r : BinaryRelation × BinaryRelation}
    (h : br.extend other = .ok r) :
    ∃ s1, extendLoop other.genAllDisjointSetLists br.genAllDisjointSetLists.sds
        br.genAllDisjointSetLists.orderedStates = .ok s1 ∧
      r = ({ br.genAllDisjointSetLists with sds := s1, statesMapStale := true },
        other.genAllDisjointSetLists) := by
  unfold extend at h
  simp only at h
  cases hl : extendLoop other.genAllDisjointSetLists br.genAllDisjointSetLists.sds
      br.genAllDisjointSetLists.orderedStates with
  | error f => rw [hl] at h; cases h
  | ok s1 =>
    rw [hl] at h
    simp only [Except.ok.injEq] at h
    exact ⟨s1, rfl, h.symm⟩

theorem Inv_extend {br other : BinaryRelation} {r : BinaryRelation × BinaryRelation}
    (hbr : Inv br) (h : br.extend other = .ok r) : Inv r.1 := by
  obtain ⟨s1, hl, rfl⟩ := extend_ok h
  constructor
  · refine WF_extendLoop ?_ hl
    rw [sds_gen]; exact hbr.1
  · intro hc; simp at hc

theorem Inv_extendArg {br other : BinaryRelation} {r : BinaryRelation × BinaryRelation}
    (hother : Inv other) (h : br.extend other = .ok r) : Inv r.2 := by
  obtain ⟨s1, hl, rfl⟩ := extend_ok h
  exact Inv_gen hother

/-- Every reachable state satisfies the invariant. -/
theorem Reachable.inv {br : BinaryRelation} (h : Reachable br) : Inv br := by
  induction h with
  | new addr => exact Inv_new addr
  | insert x y _ ih => exact Inv_insert ih x y
  | insertAll _ _ ih _ => exact Inv_insertAll ih _
  | insertAllArg _ _ _ ih => exact Inv_gen ih
  | extend _ _ he ih _ => exact Inv_extend ih he
  | extendArg _ _ he _ ih => exact Inv_extendArg ih he
  | clear _ ih => exact Inv_clear ih
  | refresh _ ih => exact Inv_gen ih

/-! ## `size` -/

theorem foldl_add_eq_sum {α : Type} (g : α → Nat) (l : List α) (a : Nat) :
    l.foldl (fun r x => r + g x) a = a + (l.map g).sum := by
  induction l generalizing a with
  | nil => simp
  | cons x l ih => rw [List.foldl_cons, ih, List.map_cons, List.sum_cons, Nat.add_assoc]

theorem cacheOf_eq (s : SparseDisjointSet) :
    cacheOf s = (keysOf s.readOnlyFindNode s.domain).map (fun k => (k, bucketOf s k)) := rfl

theorem mem_bucketOf (s : SparseDisjointSet) (k v : DomainInt) :
    v ∈ bucketOf s k ↔ v ∈ s.domain ∧ s.readOnlyFindNode v = k := by
  simp [bucketOf, List.mem_filter]

theorem nodup_bucketOf {s : SparseDisjointSet} (h : s.WF) (k : DomainInt) :
    (bucketOf s k).Nodup := h.1.filter _

theorem mem_keys_iff (s : SparseDisjointSet) (k : DomainInt) :
    k ∈ keysOf s.readOnlyFindNode s.domain ↔ ∃ v ∈ s.domain, s.readOnlyFindNode v = k :=
  mem_keysOf _ _ _

theorem bucketOf_ne_nil {s : SparseDisjointSet} {k : DomainInt}
    (hk : k ∈ keysOf s.readOnlyFindNode s.domain) : bucketOf s k ≠ [] := by
  obtain ⟨v, hv, hvk⟩ := (mem_keys_iff s k).1 hk
  intro hc
  have : v ∈ bucketOf s k := (mem_bucketOf s k v).2 ⟨hv, hvk⟩
  rw [hc] at this
  simp at this

theorem size_gen (br : BinaryRelation) : br.genAllDisjointSetLists.size = br.size := by
  unfold size
  rw [gen_gen]

theorem size_eq_sum {br : BinaryRelation} (h : Inv br) :
    br.size.2 = ((keysOf br.sds.readOnlyFindNode br.sds.domain).map
      (fun k => (bucketOf br.sds k).length * (bucketOf br.sds k).length)).sum := by
  unfold size
  simp only
  rw [foldl_add_eq_sum (fun x : DomainInt × StatesBucket => x.2.length * x.2.length),
    orderedStates_gen h, cacheOf_eq, List.map_map, Nat.zero_add]
  rfl

theorem mem_pairs (br : BinaryRelation) (x y : DomainInt) :
    (x, y) ∈ br.pairs ↔ br.contains x y = true := by
  unfold pairs
  rw [Finset.mem_filter, Finset.mem_product, List.mem_toFinset, List.mem_toFinset]
  constructor
  · exact fun h => h.2
  · intro h
    exact ⟨SparseDisjointSet.mem_domain_of_contains h, h⟩

theorem pairs_fiber {br : BinaryRelation} (k : DomainInt) :
    br.pairs.filter (fun p => br.sds.readOnlyFindNode p.1 = k) =
      (bucketOf br.sds k).toFinset ×ˢ (bucketOf br.sds k).toFinset := by
  ext ⟨x, y⟩
  rw [Finset.mem_filter, mem_pairs, Finset.mem_product, List.mem_toFinset, List.mem_toFinset,
    mem_bucketOf, mem_bucketOf]
  constructor
  · rintro ⟨hc, hk⟩
    obtain ⟨hx, hy⟩ := SparseDisjointSet.mem_domain_of_contains hc
    have := (SparseDisjointSet.contains_iff_find hx hy).1 hc
    exact ⟨⟨hx, hk⟩, hy, by rw [← this]; exact hk⟩
  · rintro ⟨⟨hx, hxk⟩, hy, hyk⟩
    exact ⟨(SparseDisjointSet.contains_iff_find hx hy).2 (by simp only at hxk; rw [hxk, hyk]), hxk⟩

theorem card_pairs {br : BinaryRelation} (h : Inv br) : br.pairs.card = br.size.2 := by
  rw [size_eq_sum h]
  have hmaps : ∀ p ∈ br.pairs,
      br.sds.readOnlyFindNode p.1 ∈ (keysOf br.sds.readOnlyFindNode br.sds.domain).toFinset := by
    rintro ⟨x, y⟩ hp
    rw [List.mem_toFinset, mem_keys_iff]
    rw [mem_pairs] at hp
    exact ⟨x, (SparseDisjointSet.mem_domain_of_contains hp).1, rfl⟩
  rw [Finset.card_eq_sum_card_fiberwise hmaps, List.sum_toFinset _ (nodup_keysOf _ _)]
  congr 1
  apply List.map_congr_left
  intro k _
  rw [pairs_fiber, Finset.card_product, List.toFinset_card_of_nodup (nodup_bucketOf h.1 k)]

theorem classOf_eq {br : BinaryRelation} {x : DomainInt} (hx : x ∈ br.sds.domain) :
    br.classOf x = (bucketOf br.sds (br.sds.readOnlyFindNode x)).toFinset := by
  ext y
  rw [classOf, List.mem_toFinset, List.mem_toFinset, List.mem_filter, mem_bucketOf]
  constructor
  · rintro ⟨hy, hc⟩
    exact ⟨hy, ((SparseDisjointSet.contains_iff_find hx hy).1 hc).symm⟩
  · rintro ⟨hy, hk⟩
    exact ⟨hy, (SparseDisjointSet.contains_iff_find hx hy).2 hk.symm⟩

theorem classes_eq (br : BinaryRelation) :
    br.classes = (keysOf br.sds.readOnlyFindNode br.sds.domain).toFinset.image
      (fun k => (bucketOf br.sds k).toFinset) := by
  ext C
  rw [classes, List.mem_toFinset, List.mem_map, Finset.mem_image]
  constructor
  · rintro ⟨x, hx, rfl⟩
    refine ⟨br.sds.readOnlyFindNode x, ?_, (classOf_eq hx).symm⟩
    rw [List.mem_toFinset, mem_keys_iff]
    exact ⟨x, hx, rfl⟩
  · rintro ⟨k, hk, rfl⟩
    rw [List.mem_toFinset, mem_keys_iff] at hk
    obtain ⟨x, hx, rfl⟩ := hk
    exact ⟨x, hx, classOf_eq hx⟩

theorem sum_classes {br : BinaryRelation} (h : Inv br) :
    ∑ C in br.classes, C.card ^ 2 = br.size.2 := by
  rw [size_eq_sum h, classes_eq, Finset.sum_image, List.sum_toFinset _ (nodup_keysOf _ _)]
  · congr 1
    apply List.map_congr_left
    intro k _
    rw [List.toFinset_card_of_nodup (nodup_bucketOf h.1 k), sq]
  · intro k hk k' _ heq
    rw [List.mem_toFinset, mem_keys_iff] at hk
    obtain ⟨v, hv, hvk⟩ := hk
    have hmem : v ∈ (bucketOf br.sds k).toFinset :=
      List.mem_toFinset.2 ((mem_bucketOf _ _ _).2 ⟨hv, hvk⟩)
    rw [heq, List.mem_toFinset, mem_bucketOf] at hmem
    rw [← hvk, ← hmem.2]

end BinaryRelation

namespace iterator

/-! ## Steps of the iterator -/

theorem get_eq_ok {b : StatesBucket} {i : Nat} {v : DomainInt} (h : b[i]? = some v) :
    get b i = .ok v := by
  unfold get; rw [h]

theorem getElem?_append_cons_length (pre : List DomainInt) (a : DomainInt) (post : List DomainInt) :
    (pre ++ a :: post)[pre.length]? = some a := by
  rw [List.getElem?_append_right (Nat.le_refl _)]
  simp

theorem ne_mkEnd_of_isEndVal_false {it : iterator} (addr : Nat) (h : it.isEndVal = false) :
    it.ne (mkEnd addr) = true := by
  simp [ne, eq, mkEnd, init, h]

theorem ne_mkEnd_of_isEndVal_true {it : iterator} (h : it.isEndVal = true) :
    it.ne (mkEnd it.br) = false := by
  simp [ne, eq, mkEnd, init, h]

/-- ALL: the posterior index moves within the bucket. -/
theorem next_ALL_posterior (addr : Nat) (a p : DomainInt) {q : DomainInt} {b : StatesBucket}
    (m : StatesMap) (i : Nat) {j : Nat} (hj : j + 1 < b.length) (hq : b[j + 1]? = some q) :
    next ⟨addr, false, IterType.ALL, (a, p), b, m, i, j⟩ =
      .ok ⟨addr, false, IterType.ALL, (a, q), b, m, i, j + 1⟩ := by
  have hne : ¬ j + 1 = b.length := Nat.ne_of_lt hj
  simp [next, nextALL, hne, updatePosterior, get_eq_ok hq, setPosterior]

/-- ALL: the posterior index wraps and the anterior index moves within the bucket. -/
theorem next_ALL_anterior (addr : Nat) (a p : DomainInt) {a1 h : DomainInt} {b : StatesBucket}
    (m : StatesMap) {i j : Nat} (hj : j + 1 = b.length) (hi : i + 1 < b.length) (ha1 : b[i + 1]? = some a1)
    (hh : b[0]? = some h) :
    next ⟨addr, false, IterType.ALL, (a, p), b, m, i, j⟩ =
      .ok ⟨addr, false, IterType.ALL, (a1, h), b, m, i + 1, 0⟩ := by
  have hne : ¬ i + 1 = b.length := Nat.ne_of_lt hi
  simp [next, nextALL, hj, hne, movedAnterior, updateAnterior, updatePosterior, get_eq_ok ha1,
    get_eq_ok hh, setAnterior, setPosterior, bind, Except.bind]

/-- ALL: both indices wrap and the cursor moves to the next bucket. -/
theorem next_ALL_bucket (addr : Nat) (a p h : DomainInt) {b : StatesBucket} (t : StatesBucket)
    (cur : DomainInt × StatesBucket) (k : DomainInt) (rest : StatesMap)
    {i j : Nat} (hj : j + 1 = b.length) (hi : i + 1 = b.length) :
    next ⟨addr, false, IterType.ALL, (a, p), b, cur :: (k, h :: t) :: rest, i, j⟩ =
      .ok ⟨addr, false, IterType.ALL, (h, h), h :: t, (k, h :: t) :: rest, 0, 0⟩ := by
  simp [next, nextALL, hj, hi, movedAnterior, updateAnterior, updatePosterior, get,
    setAnterior, setPosterior, bind, Except.bind]

/-- ALL: both indices wrap in the last bucket and the iterator is at end. -/
theorem next_ALL_end (addr : Nat) (a p : DomainInt) {b : StatesBucket}
    (cur : DomainInt × StatesBucket) {i j : Nat} (hj : j + 1 = b.length) (hi : i + 1 = b.length) :
    next ⟨addr, false, IterType.ALL, (a, p), b, [cur], i, j⟩ =
      .ok ⟨addr, true, IterType.ALL, (a, p), b, [], i + 1, j + 1⟩ := by
  simp [next, nextALL, hj, hi]

end iterator

/-! ## The full enumeration -/

theorem enumerate_end (fuel : Nat) (it : iterator) (h : it.isEndVal = true) :
    enumerate (fuel + 1) it (iterator.mkEnd it.br) = .ok [] := by
  unfold enumerate
  rw [iterator.ne_mkEnd_of_isEndVal_true h]
  rfl

theorem enumerate_step {fuel : Nat} {it it1 : iterator} {addr : Nat} {l : List TupleType}
    (h : it.isEndVal = false) (hn : it.next = .ok it1)
    (hrest : enumerate fuel it1 (iterator.mkEnd addr) = .ok l) :
    enumerate (fuel + 1) it (iterator.mkEnd addr) = .ok (it.cPair :: l) := by
  unfold enumerate
  rw [iterator.ne_mkEnd_of_isEndVal_false addr h, if_pos rfl, hn]
  simp only [hrest]
  rfl

namespace BinaryRelation

theorem allPairs_cons (k : DomainInt) (b : StatesBucket) (rest : StatesMap) :
    allPairs ((k, b) :: rest) =
      b.flatMap (fun a => b.map (fun q => (a, q))) ++ allPairs rest := by
  simp [allPairs]

/-- From any cursor position the ALL iterator yields the rest of the current
row, the remaining rows of the bucket and the remaining buckets. -/
theorem enumerate_ALL (addr : Nat) (fuel : Nat) :
    ∀ (key : DomainInt) (rest : StatesMap) (b pre post pre1 post1 : List DomainInt)
      (a p : DomainInt),
      b = pre ++ a :: post → b = pre1 ++ p :: post1 → (∀ kp ∈ rest, kp.2 ≠ []) →
      ((a, p) :: post1.map (fun q => (a, q)) ++
          post.flatMap (fun a1 => b.map (fun q => (a1, q))) ++ allPairs rest).length < fuel →
      enumerate fuel ⟨addr, false, IterType.ALL, (a, p), b, (key, b) :: rest, pre.length,
          pre1.length⟩ (iterator.mkEnd addr) =
        .ok ((a, p) :: post1.map (fun q => (a, q)) ++
          post.flatMap (fun a1 => b.map (fun q => (a1, q))) ++ allPairs rest) := by
  induction fuel with
  | zero => intro _ _ _ _ _ _ _ _ _ _ _ _ h; simp at h
  | succ n ih =>
    intro key rest b pre post pre1 post1 a p hb hb1 hrest hlen
    cases post1 with
    | cons q post2 =>
      have hb2 : b = (pre1 ++ [p]) ++ q :: post2 := by rw [hb1]; simp
      have hj : pre1.length + 1 < b.length := by rw [hb1]; simp
      have hq : b[pre1.length + 1]? = some q := by
        have := iterator.getElem?_append_cons_length (pre1 ++ [p]) q post2
        rw [← hb2] at this
        simpa using this
      have hstep := iterator.next_ALL_posterior addr a p ((key, b) :: rest) pre.length hj hq
      have hrec := ih key rest b pre post (pre1 ++ [p]) post2 a q hb hb2 hrest
        (by simp at hlen ⊢; omega)
      rw [List.length_append, List.length_singleton] at hrec
      have := enumerate_step rfl hstep hrec
      simpa using this
    | nil =>
      have hj : pre1.length + 1 = b.length := by rw [hb1]; simp
      cases post with
      | cons a1 post2 =>
        have hb2 : b = (pre ++ [a]) ++ a1 :: post2 := by rw [hb]; simp
        have hi : pre.length + 1 < b.length := by rw [hb]; simp
        have ha1 : b[pre.length + 1]? = some a1 := by
          have := iterator.getElem?_append_cons_length (pre ++ [a]) a1 post2
          rw [← hb2] at this
          simpa using this
        obtain ⟨h, t, hbt⟩ : ∃ h t, b = h :: t := by
          cases hbt : b with
          | nil => rw [hbt] at hb; simp at hb
          | cons h t => exact ⟨h, t, rfl⟩
        have hh : b[0]? = some h := by rw [hbt]; simp
        have hstep := iterator.next_ALL_anterior addr a p ((key, b) :: rest) hj hi ha1 hh
        have hrec := ih key rest b (pre ++ [a]) post2 [] t a1 h hb2 (by rw [hbt]; rfl) hrest
          (by simp [hbt] at hlen ⊢; omega)
        rw [List.length_append, List.length_singleton, List.length_nil] at hrec
        have := enumerate_step rfl hstep hrec
        rw [this]
        simp [hbt]
      | nil =>
        have hi : pre.length + 1 = b.length := by rw [hb]; simp
        cases rest with
        | nil =>
          have hstep := iterator.next_ALL_end addr a p (key, b) hj hi
          cases n with
          | zero => simp at hlen
          | succ n' =>
            have hend := enumerate_end n'
              ⟨addr, true, IterType.ALL, (a, p), b, [], pre.length + 1, pre1.length + 1⟩ rfl
            have := enumerate_step rfl hstep hend
            simpa [allPairs] using this
        | cons nxt rest1 =>
          obtain ⟨k1, b1⟩ := nxt
          cases hb1t : b1 with
          | nil => exact absurd hb1t (hrest (k1, b1) (List.mem_cons_self _ _))
          | cons h t =>
            have hstep := iterator.next_ALL_bucket addr a p h t (key, b) k1 rest1 hj hi
            have hrec := ih k1 rest1 (h :: t) [] t [] t h h rfl rfl
              (fun kp hkp => hrest kp (List.mem_cons_of_mem _ hkp))
              (by simp [allPairs_cons, hb1t] at hlen ⊢; omega)
            have := enumerate_step rfl hstep hrec
            simp only [List.length_nil] at this
            rw [this]
            simp [allPairs_cons]

end BinaryRelation

theorem prod_beq_iff (a p : TupleType) : (a == p) = true ↔ a = p := by
  obtain ⟨a1, a2⟩ := a
  obtain ⟨p1, p2⟩ := p
  show (a1 == p1 && a2 == p2) = true ↔ _
  simp

theorem count_pair_eq_one {l : List TupleType} (hnd : l.Nodup) {p : TupleType} (hp : p ∈ l) :
    l.count p = 1 := by
  induction l with
  | nil => simp at hp
  | cons a l ih =>
    rw [List.nodup_cons] at hnd
    rw [List.count_cons]
    by_cases h : a = p
    · subst h
      have h0 : l.count a = 0 := by
        rw [List.count_eq_zero]
        exact hnd.1
      have : (a == a) = true := (prod_beq_iff a a).2 rfl
      rw [h0, this]; rfl
    · have hne : (a == p) = false := by
        rw [← Bool.not_eq_true, prod_beq_iff]; exact h
      rw [hne]
      simp only [Bool.false_eq_true, if_false, Nat.add_zero]
      rcases List.mem_cons.1 hp with h1 | h1
      · exact absurd h1.symm h
      · exact ih hnd.2 h1

namespace BinaryRelation

/-! ## `begin()` … `end()` -/

theorem length_allPairs (m : StatesMap) :
    (allPairs m).length = (m.map (fun x => x.2.length * x.2.length)).sum := by
  induction m with
  | nil => rfl
  | cons kp m ih =>
    obtain ⟨k, b⟩ := kp
    rw [allPairs_cons, List.length_append, ih, List.map_cons, List.sum_cons]
    congr 1
    rw [List.length_flatMap]
    have : (List.length ∘ fun a : DomainInt => List.map (fun q : DomainInt => (a, q)) b) =
        fun _ => b.length := by
      funext a; simp
    rw [this]
    simp

theorem size_eq_length_allPairs {br : BinaryRelation} (h : Inv br) :
    br.size.2 = (allPairs (cacheOf br.sds)).length := by
  rw [length_allPairs]
  unfold size
  simp only
  rw [foldl_add_eq_sum (fun x : DomainInt × StatesBucket => x.2.length * x.2.length),
    orderedStates_gen h, Nat.zero_add]

theorem bucket_ne_nil_of_mem_cacheOf {s : SparseDisjointSet} {kp : DomainInt × StatesBucket}
    (h : kp ∈ cacheOf s) : kp.2 ≠ [] := by
  rw [cacheOf_eq, List.mem_map] at h
  obtain ⟨k, hk, rfl⟩ := h
  exact bucketOf_ne_nil hk

/-- Over a map without empty bucket, the ALL iterator is built and the loop up
to the end iterator yields every pair of every bucket. -/
theorem enumerate_mkAll (addr : Nat) (m : StatesMap) (hm : ∀ kp ∈ m, kp.2 ≠ []) :
    ∃ it, iterator.mkAll addr m = .ok it ∧
      ∀ fuel, (allPairs m).length < fuel →
        enumerate fuel it (iterator.mkEnd addr) = .ok (allPairs m) := by
  cases m with
  | nil =>
    refine ⟨_, rfl, ?_⟩
    intro fuel hfuel
    cases fuel with
    | zero => simp at hfuel
    | succ n =>
      exact enumerate_end n { iterator.init addr IterType.ALL [] [] with isEndVal := true } rfl
  | cons kp rest =>
    obtain ⟨k, b⟩ := kp
    cases hb : b with
    | nil => exact absurd hb (hm (k, b) (List.mem_cons_self _ _))
    | cons h t =>
      refine ⟨⟨addr, false, IterType.ALL, (h, h), h :: t, (k, h :: t) :: rest, 0, 0⟩, ?_, ?_⟩
      · simp [iterator.mkAll, iterator.init, iterator.updateAnterior, iterator.updatePosterior,
          iterator.get, iterator.setAnterior, iterator.setPosterior, bind, Except.bind]
      · intro fuel hfuel
        have := enumerate_ALL addr fuel k rest (h :: t) [] t [] t h h rfl rfl
          (fun kp hkp => hm kp (List.mem_cons_of_mem _ hkp))
          (by simp [allPairs_cons] at hfuel ⊢; omega)
        simp only [List.length_nil] at this
        rw [this]
        simp [allPairs_cons]

theorem begin_fst (br : BinaryRelation) : br.begin.1 = br.genAllDisjointSetLists := rfl

/-- On a state that satisfies the invariant, `begin()` succeeds and the loop up
to `end()` yields every pair of every bucket of the refreshed cache. -/
theorem enumerate_begin {br : BinaryRelation} (h : Inv br) :
    ∃ it, br.begin.2 = .ok it ∧
      ∀ fuel, br.size.2 < fuel →
        enumerate fuel it br.begin.1.end = .ok (allPairs (cacheOf br.sds)) := by
  have hm : ∀ kp ∈ cacheOf br.sds, kp.2 ≠ [] := fun kp hkp => bucket_ne_nil_of_mem_cacheOf hkp
  obtain ⟨it, hit, hen⟩ := enumerate_mkAll br.addr (cacheOf br.sds) hm
  refine ⟨it, ?_, ?_⟩
  · unfold begin
    simp only
    rw [orderedStates_gen h, addr_gen]
    exact hit
  · intro fuel hfuel
    rw [size_eq_length_allPairs h] at hfuel
    unfold BinaryRelation.end
    rw [begin_fst, addr_gen]
    exact hen fuel hfuel

theorem mem_allPairs (m : StatesMap) (x y : DomainInt) :
    (x, y) ∈ allPairs m ↔ ∃ kp ∈ m, x ∈ kp.2 ∧ y ∈ kp.2 := by
  unfold allPairs
  rw [List.mem_flatMap]
  constructor
  · rintro ⟨kp, hkp, hxy⟩
    rw [List.mem_flatMap] at hxy
    obtain ⟨a, ha, hxy⟩ := hxy
    rw [List.mem_map] at hxy
    obtain ⟨q, hq, heq⟩ := hxy
    simp only [Prod.mk.injEq] at heq
    exact ⟨kp, hkp, heq.1 ▸ ha, heq.2 ▸ hq⟩
  · rintro ⟨kp, hkp, hx, hy⟩
    exact ⟨kp, hkp, List.mem_flatMap.2 ⟨x, hx, List.mem_map.2 ⟨y, hy, rfl⟩⟩⟩

theorem mem_allPairs_cacheOf (s : SparseDisjointSet) (x y : DomainInt) :
    (x, y) ∈ allPairs (cacheOf s) ↔ s.contains x y = true := by
  rw [mem_allPairs, cacheOf_eq]
  constructor
  · rintro ⟨kp, hkp, hx, hy⟩
    rw [List.mem_map] at hkp
    obtain ⟨k, _, rfl⟩ := hkp
    rw [mem_bucketOf] at hx hy
    exact (SparseDisjointSet.contains_iff_find hx.1 hy.1).2 (hx.2.trans hy.2.symm)
  · intro hc
    obtain ⟨hx, hy⟩ := SparseDisjointSet.mem_domain_of_contains hc
    have := (SparseDisjointSet.contains_iff_find hx hy).1 hc
    refine ⟨(s.readOnlyFindNode x, bucketOf s (s.readOnlyFindNode x)), ?_, ?_, ?_⟩
    · exact List.mem_map.2 ⟨_, (mem_keys_iff s _).2 ⟨x, hx, rfl⟩, rfl⟩
    · exact (mem_bucketOf _ _ _).2 ⟨hx, rfl⟩
    · exact (mem_bucketOf _ _ _).2 ⟨hy, this.symm⟩

theorem nodup_allPairs_cacheOf {s : SparseDisjointSet} (h : s.WF) :
    (allPairs (cacheOf s)).Nodup := by
  unfold allPairs
  rw [cacheOf_eq, List.nodup_flatMap]
  constructor
  · intro kp hkp
    rw [List.mem_map] at hkp
    obtain ⟨k, _, rfl⟩ := hkp
    exact List.Nodup.product (nodup_bucketOf h k) (nodup_bucketOf h k)
  · rw [List.pairwise_map]
    refine List.Pairwise.imp ?_ (nodup_keysOf s.readOnlyFindNode s.domain)
    intro k k1 hne
    simp only [Function.onFun]
    intro p hp hp1
    simp only [List.mem_flatMap, List.mem_map, mem_bucketOf] at hp hp1
    obtain ⟨a, ⟨_, hak⟩, b, _, rfl⟩ := hp
    obtain ⟨a1, ⟨_, hak1⟩, b1, _, heq⟩ := hp1
    simp only [Prod.mk.injEq] at heq
    rw [heq.1] at hak1
    exact hne (hak.symm.trans hak1)

end BinaryRelation

namespace SparseDisjointSet

/-! ## Representatives in a well-formed union-find -/

theorem lookup_find {s : SparseDisjointSet} {e : DomainInt} (he : e ∈ s.domain) :
    List.lookup e s.slots = some (s.readOnlyFindNode e) := by
  obtain ⟨r, hr⟩ := lookup_isSome_of_mem he
  rw [readOnlyFindNode_eq hr, hr]

theorem lookup_find_find {s : SparseDisjointSet} (h : s.WF) {e : DomainInt} (he : e ∈ s.domain) :
    List.lookup (s.readOnlyFindNode e) s.slots = some (s.readOnlyFindNode e) :=
  h.2 (e, s.readOnlyFindNode e) (mem_of_lookup_eq_some (lookup_find he))

theorem find_mem_domain {s : SparseDisjointSet} (h : s.WF) {e : DomainInt} (he : e ∈ s.domain) :
    s.readOnlyFindNode e ∈ s.domain :=
  List.mem_map.2 ⟨(_, _), mem_of_lookup_eq_some (lookup_find_find h he), rfl⟩

theorem find_find {s : SparseDisjointSet} (h : s.WF) {e : DomainInt} (he : e ∈ s.domain) :
    s.readOnlyFindNode (s.readOnlyFindNode e) = s.readOnlyFindNode e :=
  readOnlyFindNode_eq (lookup_find_find h he)

theorem contains_find {s : SparseDisjointSet} (h : s.WF) {e : DomainInt} (he : e ∈ s.domain) :
    s.contains (s.readOnlyFindNode e) e = true :=
  (contains_iff_find (find_mem_domain h he) he).2 (find_find h he)

end SparseDisjointSet

namespace BinaryRelation

/-! ## `insertAll` -/

theorem mem_edgesOf (m : StatesMap) (k e : DomainInt) :
    (k, e) ∈ edgesOf m ↔ ∃ kp ∈ m, kp.1 = k ∧ e ∈ kp.2 := by
  unfold edgesOf
  rw [List.mem_flatMap]
  constructor
  · rintro ⟨kp, hkp, hmem⟩
    rw [List.mem_map] at hmem
    obtain ⟨q, hq, heq⟩ := hmem
    simp only [Prod.mk.injEq] at heq
    exact ⟨kp, hkp, heq.1, heq.2 ▸ hq⟩
  · rintro ⟨kp, hkp, hk, he⟩
    exact ⟨kp, hkp, List.mem_map.2 ⟨e, he, by rw [hk]⟩⟩

theorem mem_edgesOf_cacheOf (s : SparseDisjointSet) (k e : DomainInt) :
    (k, e) ∈ edgesOf (cacheOf s) ↔ e ∈ s.domain ∧ s.readOnlyFindNode e = k := by
  rw [mem_edgesOf, cacheOf_eq]
  constructor
  · rintro ⟨kp, hkp, hk, he⟩
    rw [List.mem_map] at hkp
    obtain ⟨k1, _, rfl⟩ := hkp
    simp only at hk he
    rw [mem_bucketOf] at he
    exact ⟨he.1, he.2.trans hk⟩
  · rintro ⟨he, hk⟩
    refine ⟨(k, bucketOf s k), List.mem_map.2 ⟨k, (mem_keys_iff s k).2 ⟨e, he, hk⟩, rfl⟩, rfl, ?_⟩
    exact (mem_bucketOf s k e).2 ⟨he, hk⟩

/-- Closing a relation together with the star of every class of `s` is closing
it together with the relation of `s`. -/
theorem PERGen_edgesOf_cacheOf {s : SparseDisjointSet} (h : s.WF)
    (P : DomainInt → DomainInt → Prop) (u v : DomainInt) :
    PERGen (fun a b => P a b ∨ (a, b) ∈ edgesOf (cacheOf s)) u v ↔
      PERGen (fun a b => P a b ∨ s.contains a b = true) u v := by
  constructor
  · apply PERGen.mono
    rintro a b (hab | hab)
    · exact Or.inl hab
    · rw [mem_edgesOf_cacheOf] at hab
      right
      rw [← hab.2]
      exact SparseDisjointSet.contains_find h hab.1
  · intro huv
    refine PERGen.le (PERGen (fun a b => P a b ∨ (a, b) ∈ edgesOf (cacheOf s)))
      (fun _ _ => PERGen.symm) (fun _ _ _ => PERGen.trans) ?_ huv
    rintro a b (hab | hab)
    · exact PERGen.base (Or.inl hab)
    · obtain ⟨ha, hb⟩ := SparseDisjointSet.mem_domain_of_contains hab
      have hfind := (SparseDisjointSet.contains_iff_find ha hb).1 hab
      have e1 : PERGen (fun a b => P a b ∨ (a, b) ∈ edgesOf (cacheOf s)) (s.readOnlyFindNode a) a :=
        PERGen.base (Or.inr ((mem_edgesOf_cacheOf s _ a).2 ⟨ha, rfl⟩))
      have e2 : PERGen (fun a b => P a b ∨ (a, b) ∈ edgesOf (cacheOf s)) (s.readOnlyFindNode a) b :=
        PERGen.base (Or.inr ((mem_edgesOf_cacheOf s _ b).2 ⟨hb, hfind.symm⟩))
      exact PERGen.trans (PERGen.symm e1) e2

/-- After `insertAll` the relation is the closure of the two relations. -/
theorem contains_insertAll {br other : BinaryRelation} (h : Inv br) (ho : Inv other)
    (u v : DomainInt) :
    (br.insertAll other).1.contains u v = true ↔
      PERGen (fun a b => br.contains a b = true ∨ other.contains a b = true) u v := by
  unfold contains
  rw [sds_insertAll, SparseDisjointSet.contains_unionEdges h.1, orderedStates_gen ho]
  exact PERGen_edgesOf_cacheOf ho.1 _ u v

/-! ## `extend` -/

theorem lookup_map_key {β : Type} (g : DomainInt → β) (ks : List DomainInt) (k : DomainInt) :
    List.lookup k (ks.map (fun k => (k, g k))) = if k ∈ ks then some (g k) else none := by
  induction ks with
  | nil => rfl
  | cons k1 ks ih =>
    rw [List.map_cons, List.lookup_cons]
    by_cases hk : k = k1
    · subst hk; simp
    · have : (k == k1) = false := by simpa using hk
      rw [this, ih]
      simp [hk]

theorem findBucket_cacheOf {s : SparseDisjointSet} {c : DomainInt} (hc : c ∈ s.domain) :
    findBucket (cacheOf s) (s.readOnlyFindNode c) = .ok (bucketOf s (s.readOnlyFindNode c)) := by
  unfold findBucket
  rw [cacheOf_eq, lookup_map_key, if_pos ((mem_keys_iff s _).2 ⟨c, hc, rfl⟩)]

theorem extendBucket_cacheOf {other : BinaryRelation}
    (ho : other.orderedStates = cacheOf other.sds) (s : SparseDisjointSet) (sb : StatesBucket) :
    extendBucket other s sb = .ok (s.unionEdges (extendEdges [(0, sb)] other.sds)) := by
  rw [extendBucket_eq]
  unfold extendEdges containsElement
  simp only [List.flatMap_cons, List.flatMap_nil, List.append_nil]
  cases hf : sb.find? (fun c => other.sds.nodeExists c) with
  | none => rfl
  | some c =>
    have hc : c ∈ other.sds.domain := by
      have := List.find?_some hf
      exact (SparseDisjointSet.nodeExists_iff _ _).1 this
    simp only
    rw [ho, findBucket_cacheOf hc]

theorem extendEdges_cons (kp : DomainInt × StatesBucket) (m : StatesMap)
    (other : SparseDisjointSet) :
    extendEdges (kp :: m) other = extendEdges [(0, kp.2)] other ++ extendEdges m other := by
  simp [extendEdges]

theorem extendLoop_cacheOf {other : BinaryRelation}
    (ho : other.orderedStates = cacheOf other.sds) (s : SparseDisjointSet) (m : StatesMap) :
    extendLoop other s m = .ok (s.unionEdges (extendEdges m other.sds)) := by
  induction m generalizing s with
  | nil => rfl
  | cons kp m ih =>
    unfold extendLoop
    rw [extendBucket_cacheOf ho]
    simp only
    rw [ih, extendEdges_cons kp m]
    unfold SparseDisjointSet.unionEdges
    rw [List.foldl_append]

/-- On states that satisfy the invariant `extend` succeeds, and unites along
the pairs of `extendEdges`. -/
theorem extend_eq {br other : BinaryRelation} (h : Inv br) (ho : Inv other) :
    br.extend other = .ok
      ({ br.genAllDisjointSetLists with
          sds := br.sds.unionEdges (extendEdges (cacheOf br.sds) other.sds),
          statesMapStale := true },
        other.genAllDisjointSetLists) := by
  unfold extend
  simp only
  have ho1 : other.genAllDisjointSetLists.orderedStates =
      cacheOf other.genAllDisjointSetLists.sds := by
    rw [sds_gen]; exact orderedStates_gen ho
  rw [extendLoop_cacheOf ho1, orderedStates_gen h, sds_gen, sds_gen]

/-! ## The contract of the relation -/

theorem reachable_example123 : Reachable example123 :=
  Reachable.insert 2 3 (Reachable.insert 1 2 (Reachable.new 0))

/-- C1: in every reachable state `size()` is the sum, over the equivalence
classes, of the squared class size, and this is the number of ordered pairs
`(x, y)` for which `contains(x, y)` holds. -/
theorem size_eq_sum_sq_classes (br : BinaryRelation) (h : Reachable br) :
    br.size.2 = ∑ C in br.classes, C.card ^ 2 ∧
    br.size.2 = br.pairs.card ∧
    ∀ x y, (x, y) ∈ br.pairs ↔ br.contains x y = true :=
  ⟨(sum_classes h.inv).symm, (card_pairs h.inv).symm, mem_pairs br⟩

/-- C1, on the example: after `insert(1, 2)` and `insert(2, 3)` on an empty
relation `size()` is 9, the sum of squares over the classes and the number of
related pairs. -/
theorem size_eq_sum_sq_classes_witness :
    Reachable example123 ∧ example123.size.2 = 9 ∧
    ∑ C in example123.classes, C.card ^ 2 = 9 ∧ example123.pairs.card = 9 := by
  have h := size_eq_sum_sq_classes example123 reachable_example123
  have h9 : example123.size.2 = 9 := by decide
  exact ⟨reachable_example123, h9, h.1 ▸ h9, h.2.1 ▸ h9⟩

/-- C2: `insert(x, y)` returns what `contains(x, y)` was before the call: false
for the new pair `(1, 2)` on an empty relation (also when only one element is
new) and true when the same pair is inserted again. -/
theorem insert_returns_contains_before :
    (BinaryRelation.new 0).contains 1 2 = false ∧
    ((BinaryRelation.new 0).insert 1 2).2 = false ∧
    (((BinaryRelation.new 0).insert 1 2).1.insert 2 3).2 = false ∧
    (((BinaryRelation.new 0).insert 1 2).1.insert 1 2).2 = true := by
  decide

/-- C3: in every state, immediately after `insert(x, y)` the query
`contains(x, y)` is true. -/
theorem contains_after_insert (br : BinaryRelation) (x y : DomainInt) :
    (br.insert x y).1.contains x y = true := by
  show (br.sds.unionNodes x y).contains x y = true
  rw [SparseDisjointSet.contains_unionNodes_aux]
  right; left
  constructor
  · rw [SparseDisjointSet.contains_self_iff, SparseDisjointSet.mem_domain_makeNode,
      SparseDisjointSet.mem_domain_makeNode]
    exact Or.inl (Or.inr rfl)
  · rw [SparseDisjointSet.contains_self_iff, SparseDisjointSet.mem_domain_makeNode]
    exact Or.inr rfl

/-- C4: in every reachable state `begin()` succeeds, and the loop from it up
to `end()` terminates (any budget above `size()` is enough) and yields exactly
`size()` pairs. -/
theorem enumerate_begin_length (br : BinaryRelation) (h : Reachable br) :
    ∃ it l, br.begin.2 = .ok it ∧
      (∀ fuel, br.size.2 < fuel → enumerate fuel it br.begin.1.end = .ok l) ∧
      l.length = br.size.2 := by
  obtain ⟨it, hit, hen⟩ := enumerate_begin h.inv
  exact ⟨it, _, hit, hen, (size_eq_length_allPairs h.inv).symm⟩

/-- C4, on the example: the nine pairs of the class `{1, 2, 3}` are yielded. -/
theorem enumerate_begin_length_witness :
    Reachable example123 ∧
    ∃ it l, example123.begin.2 = .ok it ∧
      (∀ fuel, example123.size.2 < fuel → enumerate fuel it example123.begin.1.end = .ok l) ∧
      l.length = example123.size.2 :=
  ⟨reachable_example123, enumerate_begin_length example123 reachable_example123⟩

/-- C5: in every reachable state every pair `(a, b)` yielded by the loop from
`begin()` up to `end()` satisfies `contains(a, b)`. -/
theorem enumerate_begin_sound (br : BinaryRelation) (h : Reachable br) :
    ∃ it l, br.begin.2 = .ok it ∧
      (∀ fuel, br.size.2 < fuel → enumerate fuel it br.begin.1.end = .ok l) ∧
      ∀ p ∈ l, br.contains p.1 p.2 = true := by
  obtain ⟨it, hit, hen⟩ := enumerate_begin h.inv
  refine ⟨it, _, hit, hen, ?_⟩
  rintro ⟨a, b⟩ hp
  exact (mem_allPairs_cacheOf br.sds a b).1 hp

/-- C5, on the example. -/
theorem enumerate_begin_sound_witness :
    Reachable example123 ∧
    ∃ it l, example123.begin.2 = .ok it ∧
      (∀ fuel, example123.size.2 < fuel → enumerate fuel it example123.begin.1.end = .ok l) ∧
      ∀ p ∈ l, example123.contains p.1 p.2 = true :=
  ⟨reachable_example123, enumerate_begin_sound example123 reachable_example123⟩

/-- C6: in every reachable state the loop from `begin()` up to `end()` yields
no pair twice, and yields every pair `(x, y)` with `contains(x, y)`, reflexive
pairs included, exactly once. -/
theorem enumerate_begin_exactly_once (br : BinaryRelation) (h : Reachable br) :
    ∃ it l, br.begin.2 = .ok it ∧
      (∀ fuel, br.size.2 < fuel → enumerate fuel it br.begin.1.end = .ok l) ∧
      l.Nodup ∧ ∀ x y, br.contains x y = true → l.count (x, y) = 1 := by
  obtain ⟨it, hit, hen⟩ := enumerate_begin h.inv
  have hnd := nodup_allPairs_cacheOf h.inv.1
  refine ⟨it, _, hit, hen, hnd, ?_⟩
  intro x y hc
  exact count_pair_eq_one hnd ((mem_allPairs_cacheOf br.sds x y).2 hc)

/-- C6, on the example. -/
theorem enumerate_begin_exactly_once_witness :
    Reachable example123 ∧
    ∃ it l, example123.begin.2 = .ok it ∧
      (∀ fuel, example123.size.2 < fuel → enumerate fuel it example123.begin.1.end = .ok l) ∧
      l.Nodup ∧ ∀ x y, example123.contains x y = true → l.count (x, y) = 1 :=
  ⟨reachable_example123, enumerate_begin_exactly_once example123 reachable_example123⟩

/-- C7: on the relation with the single class `{1, 2}`, `partition(2)` splits
the class into one `anteriorIt` range per member, and `anteriorIt` aborts on
the member that is not the key of the bucket. -/
theorem partition_aborts_on_split :
    ((BinaryRelation.new 0).insert 1 2).1.size.2 = 4 ∧
    (((BinaryRelation.new 0).insert 1 2).1.partition 2).2 = .error Failure.assertFailed ∧
    ((((BinaryRelation.new 0).insert 1 2).1.anteriorIt 1).2 = .error Failure.assertFailed ∨
     (((BinaryRelation.new 0).insert 1 2).1.anteriorIt 2).2 = .error Failure.assertFailed) := by
  decide

/-! ## Relations with the same content -/

theorem mem_domain_iff_contains_self (br : BinaryRelation) (x : DomainInt) :
    x ∈ br.sds.domain ↔ br.contains x x = true :=
  (SparseDisjointSet.contains_self_iff br.sds x).symm

theorem containsElement_iff_contains_self (br : BinaryRelation) (x : DomainInt) :
    br.containsElement x = true ↔ br.contains x x = true := by
  unfold containsElement
  rw [SparseDisjointSet.nodeExists_iff, mem_domain_iff_contains_self]

theorem mem_classOf (br : BinaryRelation) (x y : DomainInt) :
    y ∈ br.classOf x ↔ br.contains x y = true := by
  rw [classOf, List.mem_toFinset, List.mem_filter]
  constructor
  · exact fun h => h.2
  · exact fun h => ⟨(SparseDisjointSet.mem_domain_of_contains h).2, h⟩

theorem mem_classes (br : BinaryRelation) (C : Finset DomainInt) :
    C ∈ br.classes ↔ ∃ x, br.contains x x = true ∧ br.classOf x = C := by
  rw [classes, List.mem_toFinset, List.mem_map]
  constructor
  · rintro ⟨x, hx, hC⟩
    exact ⟨x, (mem_domain_iff_contains_self br x).1 hx, hC⟩
  · rintro ⟨x, hx, hC⟩
    exact ⟨x, (mem_domain_iff_contains_self br x).2 hx, hC⟩

/-- Two elements are related exactly when one class holds both. -/
theorem contains_iff_classes (br : BinaryRelation) (u v : DomainInt) :
    br.contains u v = true ↔ ∃ C ∈ br.classes, u ∈ C ∧ v ∈ C := by
  constructor
  · intro h
    have hu : br.contains u u = true :=
      SparseDisjointSet.contains_trans h (SparseDisjointSet.contains_symm h)
    exact ⟨br.classOf u, (mem_classes br _).2 ⟨u, hu, rfl⟩, (mem_classOf br u u).2 hu,
      (mem_classOf br u v).2 h⟩
  · rintro ⟨C, hC, hu, hv⟩
    obtain ⟨w, _, rfl⟩ := (mem_classes br C).1 hC
    rw [mem_classOf] at hu hv
    exact SparseDisjointSet.contains_trans (SparseDisjointSet.contains_symm hu) hv

theorem classOf_congr {a b : BinaryRelation} (h : ∀ x y, a.contains x y = b.contains x y)
    (x : DomainInt) : a.classOf x = b.classOf x := by
  ext y
  rw [mem_classOf, mem_classOf, h]

theorem classes_congr {a b : BinaryRelation} (h : ∀ x y, a.contains x y = b.contains x y) :
    a.classes = b.classes := by
  ext C
  rw [mem_classes, mem_classes]
  constructor
  · rintro ⟨x, hx, hC⟩
    exact ⟨x, by rw [← h]; exact hx, by rw [← classOf_congr h]; exact hC⟩
  · rintro ⟨x, hx, hC⟩
    exact ⟨x, by rw [h]; exact hx, by rw [classOf_congr h]; exact hC⟩

theorem pairs_congr {a b : BinaryRelation} (h : ∀ x y, a.contains x y = b.contains x y) :
    a.pairs = b.pairs := by
  ext ⟨x, y⟩
  rw [mem_pairs, mem_pairs, h]

theorem size_congr {a b : BinaryRelation} (ha : Inv a) (hb : Inv b)
    (h : ∀ x y, a.contains x y = b.contains x y) : a.size.2 = b.size.2 := by
  rw [← card_pairs ha, ← card_pairs hb, pairs_congr h]

/-- A relation whose related pairs are the pairs of one non-empty set has that
set as its only class. -/
theorem classes_eq_singleton {br : BinaryRelation} {T : Finset DomainInt} (hT : T.Nonempty)
    (h : ∀ u v, br.contains u v = true ↔ u ∈ T ∧ v ∈ T) : br.classes = {T} := by
  have hclass : ∀ x ∈ T, br.classOf x = T := by
    intro x hx
    ext y
    rw [mem_classOf, h]
    exact ⟨fun hh => hh.2, fun hh => ⟨hx, hh⟩⟩
  ext C
  rw [mem_classes, Finset.mem_singleton]
  constructor
  · rintro ⟨x, hx, rfl⟩
    exact hclass x ((h x x).1 hx).1
  · rintro rfl
    obtain ⟨x, hx⟩ := hT
    exact ⟨x, (h x x).2 ⟨hx, hx⟩, hclass x hx⟩

theorem reachable_exampleA : Reachable exampleA :=
  Reachable.insert 1 2 (Reachable.new 0)

theorem reachable_exampleB : Reachable exampleB :=
  Reachable.insert 10 11 (Reachable.insert 3 4 (Reachable.insert 2 3 (Reachable.new 1)))

/-! ## The contract of `insertAll` -/

/-- C8: after `A.insertAll(B)` on an empty `A`, the partition of `A` is the
one of `B`: `contains` agrees on all pairs, the classes are the same and
`size()` is the same. -/
theorem insertAll_into_empty (A B : BinaryRelation) (hA : Reachable A) (hB : Reachable B)
    (hempty : ∀ x y, A.contains x y = false) :
    (∀ x y, (A.insertAll B).1.contains x y = B.contains x y) ∧
    (A.insertAll B).1.classes = B.classes ∧
    (A.insertAll B).1.size.2 = B.size.2 := by
  have hc : ∀ x y, (A.insertAll B).1.contains x y = B.contains x y := by
    intro x y
    rw [Bool.eq_iff_iff, contains_insertAll hA.inv hB.inv]
    constructor
    · intro h
      refine PERGen.le (fun a b => B.contains a b = true)
        (fun _ _ => SparseDisjointSet.contains_symm)
        (fun _ _ _ => SparseDisjointSet.contains_trans) ?_ h
      rintro a b (hab | hab)
      · rw [hempty] at hab; cases hab
      · exact hab
    · exact fun h => PERGen.base (Or.inr h)
  exact ⟨hc, classes_congr hc, size_congr (Inv_insertAll hA.inv B) hB.inv hc⟩

/-- C8, on the example: `B` has the classes `{2, 3, 4}` and `{10, 11}`, and so
has the empty `A` after `A.insertAll(B)`. -/
theorem insertAll_into_empty_witness :
    Reachable (BinaryRelation.new 0) ∧ Reachable exampleB ∧
    (∀ x y, (BinaryRelation.new 0).contains x y = false) ∧
    exampleB.classes = {{2, 3, 4}, {10, 11}} ∧
    (∀ x y, ((BinaryRelation.new 0).insertAll exampleB).1.contains x y = exampleB.contains x y) ∧
    ((BinaryRelation.new 0).insertAll exampleB).1.classes = exampleB.classes ∧
    ((BinaryRelation.new 0).insertAll exampleB).1.size.2 = exampleB.size.2 :=
  ⟨Reachable.new 0, reachable_exampleB, fun _ _ => rfl, by decide,
    insertAll_into_empty (BinaryRelation.new 0) exampleB (Reachable.new 0) reachable_exampleB
      (fun _ _ => rfl)⟩

/-- C9: after `A.insertAll(B)` the relation of `A` is the smallest equivalence
relation on the union of the two domains that contains the previous relation
of `A` and the relation of `B`: it contains both, it is reflexive exactly on
the elements of `A` or `B`, it is symmetric and transitive, and it lies inside
every symmetric and transitive relation that contains both. -/
theorem insertAll_smallest_equivalence (A B : BinaryRelation) (hA : Reachable A)
    (hB : Reachable B) :
    (∀ x y, A.contains x y = true → (A.insertAll B).1.contains x y = true) ∧
    (∀ x y, B.contains x y = true → (A.insertAll B).1.contains x y = true) ∧
    (∀ x, (A.insertAll B).1.contains x x = true ↔
      (A.containsElement x = true ∨ B.containsElement x = true)) ∧
    (∀ x y, (A.insertAll B).1.contains x y = true → (A.insertAll B).1.contains y x = true) ∧
    (∀ x y z, (A.insertAll B).1.contains x y = true → (A.insertAll B).1.contains y z = true →
      (A.insertAll B).1.contains x z = true) ∧
    (∀ S : DomainInt → DomainInt → Prop, (∀ x y, S x y → S y x) →
      (∀ x y z, S x y → S y z → S x z) →
      (∀ x y, A.contains x y = true → S x y) → (∀ x y, B.contains x y = true → S x y) →
      ∀ x y, (A.insertAll B).1.contains x y = true → S x y) := by
  refine ⟨?_, ?_, ?_, ?_, ?_, ?_⟩
  · intro x y h
    exact (contains_insertAll hA.inv hB.inv x y).2 (PERGen.base (Or.inl h))
  · intro x y h
    exact (contains_insertAll hA.inv hB.inv x y).2 (PERGen.base (Or.inr h))
  · intro x
    rw [contains_insertAll hA.inv hB.inv, containsElement_iff_contains_self,
      containsElement_iff_contains_self]
    constructor
    · intro h
      have := PERGen.le
        (fun a b => (A.contains a a = true ∨ B.contains a a = true) ∧
          (A.contains b b = true ∨ B.contains b b = true))
        (fun _ _ hab => ⟨hab.2, hab.1⟩) (fun _ _ _ hab hbc => ⟨hab.1, hbc.2⟩) ?_ h
      · exact this.1
      · rintro a b (hab | hab)
        · exact ⟨Or.inl (SparseDisjointSet.contains_trans hab (SparseDisjointSet.contains_symm hab)),
            Or.inl (SparseDisjointSet.contains_trans (SparseDisjointSet.contains_symm hab) hab)⟩
        · exact ⟨Or.inr (SparseDisjointSet.contains_trans hab (SparseDisjointSet.contains_symm hab)),
            Or.inr (SparseDisjointSet.contains_trans (SparseDisjointSet.contains_symm hab) hab)⟩
    · rintro (h | h)
      · exact PERGen.base (Or.inl h)
      · exact PERGen.base (Or.inr h)
  · intro x y h
    exact SparseDisjointSet.contains_symm h
  · intro x y z h1 h2
    exact SparseDisjointSet.contains_trans h1 h2
  · intro S hsymm htrans hSA hSB x y h
    rw [contains_insertAll hA.inv hB.inv] at h
    refine PERGen.le S hsymm htrans ?_ h
    rintro a b (hab | hab)
    · exact hSA a b hab
    · exact hSB a b hab

/-- C9, on the example: `A` relates `1` and `2`, `B` has the classes
`{2, 3, 4}` and `{10, 11}`; afterwards `A` has the classes `{1, 2, 3, 4}` and
`{10, 11}`. -/
theorem insertAll_smallest_equivalence_witness :
    Reachable exampleA ∧ Reachable exampleB ∧
    (exampleA.insertAll exampleB).1.classes = {{1, 2, 3, 4}, {10, 11}} ∧
    (∀ x y, exampleB.contains x y = true → (exampleA.insertAll exampleB).1.contains x y = true) ∧
    (∀ S : DomainInt → DomainInt → Prop, (∀ x y, S x y → S y x) →
      (∀ x y z, S x y → S y z → S x z) →
      (∀ x y, exampleA.contains x y = true → S x y) →
      (∀ x y, exampleB.contains x y = true → S x y) →
      ∀ x y, (exampleA.insertAll exampleB).1.contains x y = true → S x y) :=
  ⟨reachable_exampleA, reachable_exampleB, by decide,
    (insertAll_smallest_equivalence exampleA exampleB reachable_exampleA reachable_exampleB).2.1,
    (insertAll_smallest_equivalence exampleA exampleB reachable_exampleA
      reachable_exampleB).2.2.2.2.2⟩

/-! ## The contract of `extend` -/

theorem mem_extendEdges (m : StatesMap) (other : SparseDisjointSet) (p q : DomainInt) :
    (p, q) ∈ extendEdges m other ↔
      ∃ kp ∈ m, kp.2.find? (fun c => other.nodeExists c) = some p ∧
        q ∈ bucketOf other (other.readOnlyFindNode p) := by
  unfold extendEdges
  rw [List.mem_flatMap]
  constructor
  · rintro ⟨kp, hkp, hmem⟩
    refine ⟨kp, hkp, ?_⟩
    cases hf : kp.2.find? (fun c => other.nodeExists c) with
    | none => rw [hf] at hmem; simp at hmem
    | some c =>
      rw [hf] at hmem
      simp only [List.mem_map, Prod.mk.injEq] at hmem
      obtain ⟨e, he, hpe, hqe⟩ := hmem
      subst hpe hqe
      exact ⟨rfl, he⟩
  · rintro ⟨kp, hkp, hf, hq⟩
    refine ⟨kp, hkp, ?_⟩
    rw [hf]
    exact List.mem_map.2 ⟨q, hq, rfl⟩

/-- The pairs along which `extend` unites, in terms of the two relations: `p`
is the first member of its class in this relation that exists in `other`, and
`q` is related to `p` in `other`. -/
theorem mem_extendEdges_cacheOf (br other : BinaryRelation) (p q : DomainInt) :
    (p, q) ∈ extendEdges (cacheOf br.sds) other.sds ↔
      (∃ k ∈ keysOf br.sds.readOnlyFindNode br.sds.domain,
        (bucketOf br.sds k).find? (fun c => other.sds.nodeExists c) = some p) ∧
      other.contains p q = true := by
  rw [mem_extendEdges, cacheOf_eq]
  constructor
  · rintro ⟨kp, hkp, hf, hq⟩
    rw [List.mem_map] at hkp
    obtain ⟨k, hk, rfl⟩ := hkp
    refine ⟨⟨k, hk, hf⟩, ?_⟩
    have hp : p ∈ other.sds.domain := by
      have := List.find?_some hf
      exact (SparseDisjointSet.nodeExists_iff _ _).1 this
    rw [mem_bucketOf] at hq
    exact (SparseDisjointSet.contains_iff_find hp hq.1).2 hq.2.symm
  · rintro ⟨⟨k, hk, hf⟩, hc⟩
    refine ⟨(k, bucketOf br.sds k), List.mem_map.2 ⟨k, hk, rfl⟩, hf, ?_⟩
    obtain ⟨hp, hq⟩ := SparseDisjointSet.mem_domain_of_contains hc
    rw [mem_bucketOf]
    exact ⟨hq, ((SparseDisjointSet.contains_iff_find hp hq).1 hc).symm⟩

/-- After `extend` the relation is the closure of the previous relation and
the pairs of `extendEdges`. -/
theorem contains_extend {br other : BinaryRelation} {r : BinaryRelation × BinaryRelation}
    (h : Inv br) (ho : Inv other) (hr : br.extend other = .ok r) (u v : DomainInt) :
    r.1.contains u v = true ↔
      PERGen (fun a b => br.contains a b = true ∨
        (a, b) ∈ extendEdges (cacheOf br.sds) other.sds) u v := by
  rw [extend_eq h ho] at hr
  simp only [Except.ok.injEq] at hr
  rw [← hr]
  exact SparseDisjointSet.contains_unionEdges h.1 _ u v

/-- The scenario of the contract: the only class of `A` is `{a, b}`, the
classes of `B` are `{b, c, d}` and `{x, y}`; `extend` unites `b` with `b`, `c`
and `d`. -/
theorem extendEdges_scenario {A B : BinaryRelation} {a b c d x y : DomainInt}
    (hab : a ≠ b) (hac : a ≠ c) (had : a ≠ d) (hax : a ≠ x) (hay : a ≠ y)
    (hbx : b ≠ x) (hby : b ≠ y)
    (hAc : ∀ u v, A.contains u v = true ↔ (u = a ∨ u = b) ∧ (v = a ∨ v = b))
    (hBc : ∀ u v, B.contains u v = true ↔
      ((u = b ∨ u = c ∨ u = d) ∧ (v = b ∨ v = c ∨ v = d)) ∨ ((u = x ∨ u = y) ∧ (v = x ∨ v = y)))
    (p q : DomainInt) :
    (p, q) ∈ extendEdges (cacheOf A.sds) B.sds ↔ p = b ∧ (q = b ∨ q = c ∨ q = d) := by
  have hfirst : ∀ k p1, (bucketOf A.sds k).find? (fun c => B.sds.nodeExists c) = some p1 →
      p1 = b := by
    intro k p1 hf
    have hB : B.contains p1 p1 = true := by
      have := List.find?_some hf
      exact (mem_domain_iff_contains_self B p1).1 ((SparseDisjointSet.nodeExists_iff _ _).1 this)
    have hA : A.contains p1 p1 = true := by
      have := List.mem_of_find?_eq_some hf
      rw [mem_bucketOf] at this
      exact (mem_domain_iff_contains_self A p1).1 this.1
    rcases ((hAc p1 p1).1 hA).1 with h1 | h1
    · subst h1
      rcases (hBc p1 p1).1 hB with ⟨h2 | h2 | h2, _⟩ | ⟨h2 | h2, _⟩
      · exact h2
      · exact absurd h2 hac
      · exact absurd h2 had
      · exact absurd h2 hax
      · exact absurd h2 hay
    · exact h1
  have hBb : ∀ q, B.contains b q = true ↔ (q = b ∨ q = c ∨ q = d) := by
    intro q
    rw [hBc]
    constructor
    · rintro (⟨_, h2⟩ | ⟨h1 | h1, _⟩)
      · exact h2
      · exact absurd h1 hbx
      · exact absurd h1 hby
    · exact fun h2 => Or.inl ⟨Or.inl rfl, h2⟩
  rw [mem_extendEdges_cacheOf]
  constructor
  · rintro ⟨⟨k, _, hf⟩, hc⟩
    have hp := hfirst k p hf
    subst hp
    exact ⟨rfl, (hBb q).1 hc⟩
  · rintro ⟨rfl, hq⟩
    refine ⟨?_, (hBb q).2 hq⟩
    have hbA : p ∈ A.sds.domain :=
      (mem_domain_iff_contains_self A p).2 ((hAc p p).2 ⟨Or.inr rfl, Or.inr rfl⟩)
    have hbB : B.sds.nodeExists p = true :=
      (SparseDisjointSet.nodeExists_iff _ _).2
        ((mem_domain_iff_contains_self B p).2 ((hBb p).2 (Or.inl rfl)))
    have hmem : p ∈ bucketOf A.sds (A.sds.readOnlyFindNode p) :=
      (mem_bucketOf _ _ _).2 ⟨hbA, rfl⟩
    have hsome : ((bucketOf A.sds (A.sds.readOnlyFindNode p)).find?
        (fun c => B.sds.nodeExists c)).isSome = true := by
      rw [List.find?_isSome]
      exact ⟨p, hmem, hbB⟩
    obtain ⟨p1, hp1⟩ := Option.isSome_iff_exists.1 hsome
    have := hfirst _ p1 hp1
    subst this
    exact ⟨_, (mem_keys_iff A.sds _).2 ⟨p1, hbA, rfl⟩, hp1⟩

/-- The relation of the scenario after `extend`: the pairs of `{a, b, c, d}`. -/
theorem contains_extend_scenario {A B : BinaryRelation} {r : BinaryRelation × BinaryRelation}
    {a b c d x y : DomainInt} (hA : Inv A) (hB : Inv B) (hr : A.extend B = .ok r)
    (hab : a ≠ b) (hac : a ≠ c) (had : a ≠ d) (hax : a ≠ x) (hay : a ≠ y)
    (hbx : b ≠ x) (hby : b ≠ y)
    (hAc : ∀ u v, A.contains u v = true ↔ (u = a ∨ u = b) ∧ (v = a ∨ v = b))
    (hBc : ∀ u v, B.contains u v = true ↔
      ((u = b ∨ u = c ∨ u = d) ∧ (v = b ∨ v = c ∨ v = d)) ∨ ((u = x ∨ u = y) ∧ (v = x ∨ v = y)))
    (u v : DomainInt) :
    r.1.contains u v = true ↔
      (u = a ∨ u = b ∨ u = c ∨ u = d) ∧ (v = a ∨ v = b ∨ v = c ∨ v = d) := by
  rw [contains_extend hA hB hr]
  have hE := extendEdges_scenario hab hac had hax hay hbx hby hAc hBc
  constructor
  · intro h
    refine PERGen.le
      (fun u v => (u = a ∨ u = b ∨ u = c ∨ u = d) ∧ (v = a ∨ v = b ∨ v = c ∨ v = d))
      (fun _ _ h1 => ⟨h1.2, h1.1⟩) (fun _ _ _ h1 h2 => ⟨h1.1, h2.2⟩) ?_ h
    rintro p q (hpq | hpq)
    · rw [hAc] at hpq
      obtain ⟨h1, h2⟩ := hpq
      constructor
      · rcases h1 with h1 | h1
        · exact Or.inl h1
        · exact Or.inr (Or.inl h1)
      · rcases h2 with h2 | h2
        · exact Or.inl h2
        · exact Or.inr (Or.inl h2)
    · rw [hE] at hpq
      exact ⟨Or.inr (Or.inl hpq.1), Or.inr hpq.2⟩
  · have hb : ∀ w, (w = a ∨ w = b ∨ w = c ∨ w = d) →
        PERGen (fun p q => A.contains p q = true ∨
          (p, q) ∈ extendEdges (cacheOf A.sds) B.sds) b w := by
      rintro w (rfl | rfl | rfl | rfl)
      · exact PERGen.base (Or.inl ((hAc _ _).2 ⟨Or.inr rfl, Or.inl rfl⟩))
      · exact PERGen.base (Or.inl ((hAc _ _).2 ⟨Or.inr rfl, Or.inr rfl⟩))
      · exact PERGen.base (Or.inr ((hE _ _).2 ⟨rfl, Or.inr (Or.inl rfl)⟩))
      · exact PERGen.base (Or.inr ((hE _ _).2 ⟨rfl, Or.inr (Or.inr rfl)⟩))
    rintro ⟨hu, hv⟩
    exact PERGen.trans (PERGen.symm (hb u hu)) (hb v hv)

/-- C10: for pairwise distinct `a, b, c, d, x, y`, if the only class of `A` is
`{a, b}` and the classes of `B` are `{b, c, d}` and `{x, y}`, then
`A.extend(B)` succeeds and afterwards `A` has the single class
`{a, b, c, d}`: any two of these are related, `size()` is 16, and `x` and `y`
are related to nothing in `A`, in particular not to each other. -/
theorem extend_scenario (A B : BinaryRelation) (a b c d x y : DomainInt)
    (hA : Reachable A) (hB : Reachable B) (hnd : [a, b, c, d, x, y].Nodup)
    (hAcl : A.classes = {{a, b}}) (hBcl : B.classes = {{b, c, d}, {x, y}}) :
    ∃ r, A.extend B = .ok r ∧
      r.1.classes = {{a, b, c, d}} ∧
      (∀ u ∈ ({a, b, c, d} : Finset DomainInt), ∀ v ∈ ({a, b, c, d} : Finset DomainInt),
        r.1.contains u v = true) ∧
      r.1.size.2 = 16 ∧
      r.1.contains x y = false ∧
      (∀ u, r.1.contains x u = false ∧ r.1.contains u x = false ∧
        r.1.contains y u = false ∧ r.1.contains u y = false) := by
  simp only [List.nodup_cons, List.mem_cons, List.mem_singleton, List.not_mem_nil, or_false,
    not_or, not_false_eq_true, List.nodup_nil, and_true] at hnd
  obtain ⟨⟨hab, hac, had, hax, hay⟩, ⟨hbc, hbd, hbx, hby⟩, ⟨hcd, hcx, hcy⟩, ⟨hdx, hdy⟩, _⟩ := hnd
  have hAc : ∀ u v, A.contains u v = true ↔ (u = a ∨ u = b) ∧ (v = a ∨ v = b) := by
    intro u v
    rw [contains_iff_classes, hAcl]
    simp
  have hBc : ∀ u v, B.contains u v = true ↔
      ((u = b ∨ u = c ∨ u = d) ∧ (v = b ∨ v = c ∨ v = d)) ∨
        ((u = x ∨ u = y) ∧ (v = x ∨ v = y)) := by
    intro u v
    rw [contains_iff_classes, hBcl]
    simp
  obtain ⟨r, hr⟩ : ∃ r, A.extend B = .ok r := ⟨_, extend_eq hA.inv hB.inv⟩
  refine ⟨r, hr, ?_⟩
  have hchar := contains_extend_scenario hA.inv hB.inv hr hab hac had hax hay hbx hby hAc hBc
  have hInv := Inv_extend hA.inv hr
  have hcharT : ∀ u v, r.1.contains u v = true ↔
      u ∈ ({a, b, c, d} : Finset DomainInt) ∧ v ∈ ({a, b, c, d} : Finset DomainInt) := by
    intro u v
    rw [hchar u v]
    simp
  have hnotx : ¬ x ∈ ({a, b, c, d} : Finset DomainInt) := by
    intro hx
    simp only [Finset.mem_insert, Finset.mem_singleton] at hx
    rcases hx with h | h | h | h
    · exact hax h.symm
    · exact hbx h.symm
    · exact hcx h.symm
    · exact hdx h.symm
  have hnoty : ¬ y ∈ ({a, b, c, d} : Finset DomainInt) := by
    intro hy
    simp only [Finset.mem_insert, Finset.mem_singleton] at hy
    rcases hy with h | h | h | h
    · exact hay h.symm
    · exact hby h.symm
    · exact hcy h.symm
    · exact hdy h.symm
  refine ⟨?_, ?_, ?_, ?_, ?_⟩
  · exact classes_eq_singleton ⟨a, by simp⟩ hcharT
  · intro u hu v hv
    exact (hcharT u v).2 ⟨hu, hv⟩
  · rw [← card_pairs hInv]
    have hpairs : r.1.pairs =
        ({a, b, c, d} : Finset DomainInt) ×ˢ ({a, b, c, d} : Finset DomainInt) := by
      ext ⟨u, v⟩
      rw [mem_pairs, hcharT, Finset.mem_product]
    have hcard : ({a, b, c, d} : Finset DomainInt).card = 4 := by
      rw [Finset.card_insert_of_not_mem, Finset.card_insert_of_not_mem,
        Finset.card_insert_of_not_mem, Finset.card_singleton]
      · simpa using hcd
      · simp only [Finset.mem_insert, Finset.mem_singleton, not_or]
        exact ⟨hbc, hbd⟩
      · simp only [Finset.mem_insert, Finset.mem_singleton, not_or]
        exact ⟨hab, hac, had⟩
    rw [hpairs, Finset.card_product, hcard]
  · rw [Bool.eq_false_iff]
    intro hc
    exact hnotx ((hcharT x y).1 hc).1
  · intro u
    refine ⟨?_, ?_, ?_, ?_⟩ <;> rw [Bool.eq_false_iff] <;> intro hc
    · exact hnotx ((hcharT x u).1 hc).1
    · exact hnotx ((hcharT u x).1 hc).2
    · exact hnoty ((hcharT y u).1 hc).1
    · exact hnoty ((hcharT u y).1 hc).2

/-- C10, on the example `a, b, c, d, x, y = 1, 2, 3, 4, 10, 11`. -/
theorem extend_scenario_witness :
    Reachable exampleA ∧ Reachable exampleB ∧ [(1 : DomainInt), 2, 3, 4, 10, 11].Nodup ∧
    exampleA.classes = {{1, 2}} ∧ exampleB.classes = {{2, 3, 4}, {10, 11}} ∧
    ∃ r, exampleA.extend exampleB = .ok r ∧
      r.1.classes = {{1, 2, 3, 4}} ∧
      (∀ u ∈ ({1, 2, 3, 4} : Finset DomainInt), ∀ v ∈ ({1, 2, 3, 4} : Finset DomainInt),
        r.1.contains u v = true) ∧
      r.1.size.2 = 16 ∧
      r.1.contains 10 11 = false ∧
      (∀ u, r.1.contains 10 u = false ∧ r.1.contains u 10 = false ∧
        r.1.contains 11 u = false ∧ r.1.contains u 11 = false) :=
  ⟨reachable_exampleA, reachable_exampleB, by decide, by decide, by decide,
    extend_scenario exampleA exampleB 1 2 3 4 10 11 reachable_exampleA reachable_exampleB
      (by decide) (by decide) (by decide)⟩

/-! ## `extend` against `insertAll` -/

theorem reachable_exampleC : Reachable exampleC :=
  Reachable.insert 2 4 (Reachable.insert 1 3 (Reachable.new 1))

/-- The first member found in a bucket of this relation is an element of it. -/
theorem contains_self_of_mem_extendEdges {br other : BinaryRelation} {p q : DomainInt}
    (h : (p, q) ∈ extendEdges (cacheOf br.sds) other.sds) :
    br.contains p p = true ∧ other.contains p q = true := by
  rw [mem_extendEdges_cacheOf] at h
  obtain ⟨⟨k, _, hf⟩, hc⟩ := h
  have := List.mem_of_find?_eq_some hf
  rw [mem_bucketOf] at this
  exact ⟨(mem_domain_iff_contains_self br p).1 this.1, hc⟩

/-- C11: with `A` holding the class `{1, 2}` and `B` the classes `{1, 3}` and
`{2, 4}`, both `1` and `2` are shared; `A.extend(B)` imports the class of `1`
and stops scanning, so `4`, which is alongside `2` in `B`, is not related to
`2` in `A` afterwards. -/
theorem extend_stops_at_first_shared :
    exampleA.containsElement 2 = true ∧ exampleC.containsElement 2 = true ∧
    exampleC.contains 2 4 = true ∧
    ∃ r, exampleA.extend exampleC = .ok r ∧ r.1.contains 1 3 = true ∧
      r.1.contains 2 4 = false := by
  refine ⟨by decide, by decide, by decide, ?_⟩
  exact ⟨_, rfl, by decide, by decide⟩

/-- C12: `A.extend(B)` succeeds, and a class of `B` without an element of `A`
is not imported: none of its elements exists in `A` afterwards and `contains`
is false for every pair with one of them; extending an empty `A` leaves it
empty, with `size()` zero. -/
theorem extend_leaves_foreign_class (A B : BinaryRelation) (hA : Reachable A)
    (hB : Reachable B) :
    ∃ r, A.extend B = .ok r ∧
      (∀ e, B.containsElement e = true →
        (∀ z, B.contains e z = true → A.containsElement z = false) →
        r.1.containsElement e = false ∧
          ∀ u, r.1.contains e u = false ∧ r.1.contains u e = false) ∧
      ((∀ x y, A.contains x y = false) →
        (∀ x y, r.1.contains x y = false) ∧ r.1.size.2 = 0) := by
  obtain ⟨r, hr⟩ : ∃ r, A.extend B = .ok r := ⟨_, extend_eq hA.inv hB.inv⟩
  have hgood : ∀ u v, r.1.contains u v = true →
      (A.contains u u = true ∨ ∃ c, A.contains c c = true ∧ B.contains c u = true) ∧
      (A.contains v v = true ∨ ∃ c, A.contains c c = true ∧ B.contains c v = true) := by
    intro u v huv
    rw [contains_extend hA.inv hB.inv hr] at huv
    refine PERGen.le
      (fun u v =>
        (A.contains u u = true ∨ ∃ c, A.contains c c = true ∧ B.contains c u = true) ∧
        (A.contains v v = true ∨ ∃ c, A.contains c c = true ∧ B.contains c v = true))
      (fun _ _ h1 => ⟨h1.2, h1.1⟩) (fun _ _ _ h1 h2 => ⟨h1.1, h2.2⟩) ?_ huv
    rintro p q (hpq | hpq)
    · exact ⟨Or.inl (SparseDisjointSet.contains_trans hpq (SparseDisjointSet.contains_symm hpq)),
        Or.inl (SparseDisjointSet.contains_trans (SparseDisjointSet.contains_symm hpq) hpq)⟩
    · obtain ⟨hp, hc⟩ := contains_self_of_mem_extendEdges hpq
      exact ⟨Or.inl hp, Or.inr ⟨p, hp, hc⟩⟩
  refine ⟨r, hr, ?_, ?_⟩
  · intro e he hclass
    have hee : B.contains e e = true := (containsElement_iff_contains_self B e).1 he
    have hnot : ¬ (A.contains e e = true ∨ ∃ c, A.contains c c = true ∧ B.contains c e = true) := by
      rintro (h | ⟨c, hc, hce⟩)
      · have := hclass e hee
        rw [(containsElement_iff_contains_self A e).2 h] at this
        cases this
      · have := hclass c (SparseDisjointSet.contains_symm hce)
        rw [(containsElement_iff_contains_self A c).2 hc] at this
        cases this
    refine ⟨?_, ?_⟩
    · rw [Bool.eq_false_iff]
      intro hc
      exact hnot (hgood e e ((containsElement_iff_contains_self r.1 e).1 hc)).1
    · intro u
      constructor <;> rw [Bool.eq_false_iff] <;> intro hc
      · exact hnot (hgood e u hc).1
      · exact hnot (hgood u e hc).2
  · intro hempty
    have hnone : ∀ x y, r.1.contains x y = false := by
      intro x y
      rw [Bool.eq_false_iff]
      intro hc
      rcases (hgood x y hc).1 with h | ⟨c, h, _⟩
      · rw [hempty] at h; cases h
      · rw [hempty] at h; cases h
    refine ⟨hnone, ?_⟩
    rw [← card_pairs (Inv_extend hA.inv hr), Finset.card_eq_zero]
    ext ⟨x, y⟩
    rw [mem_pairs, hnone]
    simp

/-- C12, on the example: `A` has the class `{1, 2}`, `B` the classes
`{2, 3, 4}` and `{10, 11}`; the class `{10, 11}` is not imported. -/
theorem extend_leaves_foreign_class_witness :
    Reachable exampleA ∧ Reachable exampleB ∧
    exampleB.containsElement 10 = true ∧ exampleA.containsElement 10 = false ∧
    exampleA.containsElement 11 = false ∧
    ∃ r, exampleA.extend exampleB = .ok r ∧
      (∀ e, exampleB.containsElement e = true →
        (∀ z, exampleB.contains e z = true → exampleA.containsElement z = false) →
        r.1.containsElement e = false ∧
          ∀ u, r.1.contains e u = false ∧ r.1.contains u e = false) ∧
      ((∀ x y, exampleA.contains x y = false) →
        (∀ x y, r.1.contains x y = false) ∧ r.1.size.2 = 0) :=
  ⟨reachable_exampleA, reachable_exampleB, by decide, by decide, by decide,
    extend_leaves_foreign_class exampleA exampleB reachable_exampleA reachable_exampleB⟩

/-- C13: `extend` is weaker than `insertAll`: from the same starting state,
every pair related after `A.extend(B)` is related after `A.insertAll(B)`; and
the converse fails, for the empty `A` and the `B` with the classes
`{2, 3, 4}` and `{10, 11}`. -/
theorem extend_weaker_than_insertAll (A B : BinaryRelation) (hA : Reachable A)
    (hB : Reachable B) :
    (∃ r, A.extend B = .ok r ∧
      ∀ x y, r.1.contains x y = true → (A.insertAll B).1.contains x y = true) ∧
    (∃ A0 B0 r0 x y, Reachable A0 ∧ Reachable B0 ∧ A0.extend B0 = .ok r0 ∧
      (A0.insertAll B0).1.contains x y = true ∧ r0.1.contains x y = false) := by
  constructor
  · obtain ⟨r, hr⟩ : ∃ r, A.extend B = .ok r := ⟨_, extend_eq hA.inv hB.inv⟩
    refine ⟨r, hr, ?_⟩
    intro x y h
    rw [contains_extend hA.inv hB.inv hr] at h
    rw [contains_insertAll hA.inv hB.inv]
    refine PERGen.mono ?_ h
    rintro p q (hpq | hpq)
    · exact Or.inl hpq
    · exact Or.inr (contains_self_of_mem_extendEdges hpq).2
  · exact ⟨BinaryRelation.new 0, exampleB, _, 10, 11, Reachable.new 0, reachable_exampleB, rfl,
      by decide, by decide⟩

/-- C13, on the example `A = {1, 2}`, `B = {2, 3, 4}, {10, 11}`. -/
theorem extend_weaker_than_insertAll_witness :
    Reachable exampleA ∧ Reachable exampleB ∧
    (∃ r, exampleA.extend exampleB = .ok r ∧
      ∀ x y, r.1.contains x y = true → (exampleA.insertAll exampleB).1.contains x y = true) ∧
    (∃ r, exampleA.extend exampleB = .ok r ∧ r.1.contains 10 11 = false) ∧
    (exampleA.insertAll exampleB).1.contains 10 11 = true :=
  ⟨reachable_exampleA, reachable_exampleB,
    (extend_weaker_than_insertAll exampleA exampleB reachable_exampleA reachable_exampleB).1,
    ⟨_, rfl, by decide⟩, by decide⟩

/-! ## Idempotence of `insert` -/

theorem contains_unionNodes_self (s : SparseDisjointSet) (x y : DomainInt) :
    (s.unionNodes x y).contains x y = true := by
  rw [SparseDisjointSet.contains_unionNodes_aux]
  right; left
  constructor
  · rw [SparseDisjointSet.contains_self_iff, SparseDisjointSet.mem_domain_makeNode,
      SparseDisjointSet.mem_domain_makeNode]
    exact Or.inl (Or.inr rfl)
  · rw [SparseDisjointSet.contains_self_iff, SparseDisjointSet.mem_domain_makeNode]
    exact Or.inr rfl

theorem unionNodes_of_contains {s : SparseDisjointSet} {x y : DomainInt}
    (h : s.contains x y = true) : s.unionNodes x y = s := by
  unfold SparseDisjointSet.contains at h
  simp only [Bool.and_eq_true] at h
  obtain ⟨⟨hx, hy⟩, hsame⟩ := h
  have h1 : s.makeNode x = s := by unfold SparseDisjointSet.makeNode; rw [if_pos hx]
  have h2 : s.makeNode y = s := by unfold SparseDisjointSet.makeNode; rw [if_pos hy]
  unfold SparseDisjointSet.unionNodes
  simp only [h1, h2]
  unfold SparseDisjointSet.sameSet at hsame
  rw [if_pos hsame]

/-- C14: a second `insert(x, y)` leaves the object as the first call left it,
so `size()` and every `contains(u, v)` are what they were after the first
call. -/
theorem insert_twice (br : BinaryRelation) (x y : DomainInt) :
    ((br.insert x y).1.insert x y).1 = (br.insert x y).1 ∧
    ((br.insert x y).1.insert x y).1.size.2 = (br.insert x y).1.size.2 ∧
    ∀ u v, ((br.insert x y).1.insert x y).1.contains u v = (br.insert x y).1.contains u v := by
  have h : ((br.insert x y).1.insert x y).1 = (br.insert x y).1 := by
    have hc := contains_unionNodes_self br.sds x y
    unfold insert
    simp only
    rw [unionNodes_of_contains hc]
  exact ⟨h, by rw [h], fun u v => by rw [h]⟩

end BinaryRelation

namespace iterator

/-! ## Failures of the iterator -/

theorem updatePosterior_error {it : iterator} {f : Failure}
    (h : it.updatePosterior = .error f) : f = Failure.outOfRange := by
  unfold updatePosterior get at h
  cases hg : it.djSetList[it.cPosteriorIndex]? with
  | none => rw [hg] at h; simp only [Except.error.injEq] at h; exact h.symm
  | some v => rw [hg] at h; cases h

theorem updateAnterior_error {it : iterator} {f : Failure}
    (h : it.updateAnterior = .error f) : f = Failure.outOfRange := by
  unfold updateAnterior get at h
  cases hg : it.djSetList[it.cAnteriorIndex]? with
  | none => rw [hg] at h; simp only [Except.error.injEq] at h; exact h.symm
  | some v => rw [hg] at h; cases h

theorem bind_error {α β : Type} {x : Except Failure α} {g : α → Except Failure β} {f : Failure}
    (h : (x >>= g) = .error f) : x = .error f ∨ ∃ a, x = .ok a ∧ g a = .error f := by
  cases x with
  | error e =>
    left
    simp only [bind, Except.bind, Except.error.injEq] at h
    rw [h]
  | ok a => exact Or.inr ⟨a, rfl, h⟩

theorem movedAnterior_error {it : iterator} {f : Failure}
    (h : it.movedAnterior = .error f) : f = Failure.outOfRange := by
  unfold movedAnterior at h
  rcases bind_error h with h1 | ⟨it1, _, h1⟩
  · exact updateAnterior_error h1
  · rcases bind_error h1 with h2 | ⟨it2, _, h2⟩
    · exact updatePosterior_error h2
    · exact updatePosterior_error h2

theorem nextALL_error {it : iterator} {f : Failure} (h : it.nextALL = .error f) :
    f = Failure.outOfRange ∨ f = Failure.zeroSizeDjset := by
  unfold nextALL at h
  simp only at h
  split at h
  · split at h
    · split at h
      · cases h
      · split at h
        · simp only [Except.error.injEq] at h
          exact Or.inr h.symm
        · left
          rcases bind_error h with h1 | ⟨it1, _, h1⟩
          · rcases bind_error h1 with h2 | ⟨it2, _, h2⟩
            · exact updateAnterior_error h2
            · exact updatePosterior_error h2
          · exact movedAnterior_error h1
    · exact Or.inl (movedAnterior_error h)
  · exact Or.inl (updatePosterior_error h)

theorem nextANTERIOR_error {it : iterator} {f : Failure} (h : it.nextANTERIOR = .error f) :
    f = Failure.outOfRange := by
  unfold nextANTERIOR at h
  simp only at h
  split at h
  · cases h
  · exact updatePosterior_error h

theorem nextWITHIN_error {it : iterator} {f : Failure} (h : it.nextWITHIN = .error f) :
    f = Failure.outOfRange := by
  unfold nextWITHIN at h
  simp only at h
  split at h
  · split at h
    · cases h
    · exact movedAnterior_error h
  · exact updatePosterior_error h

/-- C19: `operator++` raises the out-of-range-increment error exactly on an
iterator that is at end, whatever its mode. -/
theorem next_incrementEnd_iff (it : iterator) :
    it.next = .error Failure.incrementEnd ↔ it.isEndVal = true := by
  constructor
  · intro h
    by_contra hne
    unfold next at h
    rw [if_neg hne] at h
    cases hm : it.ityp with
    | ALL =>
      rw [hm] at h
      rcases nextALL_error h with h1 | h1 <;> cases h1
    | ANTERIOR =>
      rw [hm] at h
      cases nextANTERIOR_error h
    | ANTPOST => rw [hm] at h; cases h
    | WITHIN =>
      rw [hm] at h
      cases nextWITHIN_error h
  · intro h
    unfold next
    rw [if_pos h]

/-- C20: `operator==` holds exactly when both iterators are at end and belong
to the same relation, or neither is at end and the current pairs are equal;
mode and cursors play no part, and `operator!=` is the negation. -/
theorem eq_iff (a b : iterator) :
    (a.eq b = true ↔
      (a.isEndVal = true ∧ b.isEndVal = true ∧ a.br = b.br) ∨
      (a.isEndVal = false ∧ b.isEndVal = false ∧ a.cPair = b.cPair)) ∧
    a.ne b = !a.eq b := by
  refine ⟨?_, rfl⟩
  unfold eq
  cases ha : a.isEndVal <;> cases hb : b.isEndVal <;> simp

end iterator

namespace BinaryRelation

/-! ## `getBoundaries` -/

/-- C15: on the relation with the single class `{1, 2}`, both elements exist,
and `getBoundaries<1>` aborts for the element `1`, which is not the key of its
bucket; for the key `2` it yields `(2, 1)` and `(2, 2)`. -/
theorem getBoundaries_one_aborts_off_key :
    exampleA.containsElement 1 = true ∧ exampleA.containsElement 2 = true ∧
    (exampleA.getBoundaries 1 (1, 0)).2 = .error Failure.assertFailed ∧
    (exampleA.anteriorIt 1).2 = .error Failure.assertFailed ∧
    (∃ r, (exampleA.getBoundaries 1 (2, 0)).2 = .ok r ∧
      enumerate 3 r.1 r.2 = .ok [(2, 1), (2, 2)]) := by
  refine ⟨by decide, by decide, by decide, by decide, ?_⟩
  exact ⟨_, rfl, by decide⟩

/-- C16: on the relation with the single class `{1, 2}`, `contains(2, 1)` and
`contains(1, 1)` hold, and `getBoundaries<2>` aborts for the patterns `(2, 1)`
and `(1, 1)`, whose second element is not the key of its bucket; for `(1, 2)`
it yields the single pair. -/
theorem getBoundaries_two_aborts_off_key :
    exampleA.contains 2 1 = true ∧ exampleA.contains 1 1 = true ∧
    (exampleA.getBoundaries 2 (2, 1)).2 = .error Failure.assertFailed ∧
    (exampleA.getBoundaries 2 (1, 1)).2 = .error Failure.assertFailed ∧
    (exampleA.antpostit 2 1).2 = .error Failure.assertFailed ∧
    (∃ r, (exampleA.getBoundaries 2 (1, 2)).2 = .ok r ∧
      enumerate 2 r.1 r.2 = .ok [(1, 2)]) := by
  refine ⟨by decide, by decide, by decide, by decide, by decide, ?_⟩
  exact ⟨_, rfl, by decide⟩

/-- C17: for an element that does not exist, `getBoundaries<1>` leaves the
object as it is (the element still does not exist) and returns the range from
`end()` to `end()`: its two ends compare equal and it yields nothing. -/
theorem getBoundaries_one_absent (br : BinaryRelation) (entry : TupleType)
    (h : br.containsElement entry.1 = false) :
    br.getBoundaries 1 entry = (br, .ok (make_range br.end br.end)) ∧
    (br.getBoundaries 1 entry).1.containsElement entry.1 = false ∧
    br.end.eq br.end = true ∧
    ∀ fuel, enumerate (fuel + 1) br.end br.end = .ok [] := by
  have hget : br.getBoundaries 1 entry = (br, .ok (make_range br.end br.end)) := by
    unfold getBoundaries
    unfold containsElement at h
    simp [h]
  refine ⟨hget, by rw [hget]; exact h, ?_, ?_⟩
  · simp [iterator.eq, BinaryRelation.end, iterator.mkEnd]
  · intro fuel
    exact enumerate_end fuel br.end rfl

/-- C17, on the example: the element `7` does not exist in the relation with
the class `{1, 2}`. -/
theorem getBoundaries_one_absent_witness :
    exampleA.containsElement 7 = false ∧
    exampleA.getBoundaries 1 (7, 0) = (exampleA, .ok (make_range exampleA.end exampleA.end)) ∧
    (exampleA.getBoundaries 1 (7, 0)).1.containsElement 7 = false ∧
    exampleA.end.eq exampleA.end = true ∧
    ∀ fuel, enumerate (fuel + 1) exampleA.end exampleA.end = .ok [] :=
  ⟨by decide, getBoundaries_one_absent exampleA (7, 0) (by decide)⟩

/-- C18: with more than two levels `getBoundaries` raises the invalid-state
error, whatever the pattern and the state, and returns no range. -/
theorem getBoundaries_invalid_levels (br : BinaryRelation) (levels : Nat) (entry : TupleType)
    (h : 2 < levels) :
    br.getBoundaries levels entry = (br, .error Failure.invalidLevels) := by
  unfold getBoundaries
  have h0 : ¬ levels = 0 := by omega
  have h1 : ¬ levels = 1 := by omega
  have h2 : ¬ levels = 2 := by omega
  simp [h0, h1, h2]

/-- C18, on the example: three levels on the relation with the class `{1, 2}`. -/
theorem getBoundaries_invalid_levels_witness :
    2 < 3 ∧ exampleA.getBoundaries 3 (1, 2) = (exampleA, .error Failure.invalidLevels) :=
  ⟨by decide, getBoundaries_invalid_levels exampleA 3 (1, 2) (by decide)⟩

/-! ## Queries on elements that do not exist -/

/-- C21: when `x` or `y` does not exist, `contains(x, y)` is false, also for
`contains(x, x)`; the query returns a truth value only and leaves the domain
as it is. -/
theorem contains_absent (br : BinaryRelation) (x y : DomainInt)
    (h : br.containsElement x = false ∨ br.containsElement y = false) :
    br.contains x y = false := by
  unfold containsElement at h
  unfold contains SparseDisjointSet.contains
  rcases h with h | h <;> simp [h]

/-- C21, on the example: `7` does not exist in the relation with the class
`{1, 2}`. -/
theorem contains_absent_witness :
    exampleA.containsElement 7 = false ∧ exampleA.contains 7 7 = false ∧
    exampleA.contains 1 7 = false ∧ exampleA.contains 7 1 = false :=
  ⟨by decide, contains_absent exampleA 7 7 (Or.inl (by decide)),
    contains_absent exampleA 1 7 (Or.inr (by decide)),
    contains_absent exampleA 7 1 (Or.inl (by decide))⟩

/-! ## The first two exits of `partition` -/

theorem begin_gen (br : BinaryRelation) : br.genAllDisjointSetLists.begin = br.begin := by
  unfold begin
  simp only [gen_gen]

theorem partition_fst (br : BinaryRelation) (k : Nat) :
    (br.partition k).1 = br.genAllDisjointSetLists := by
  unfold partition
  simp only
  split
  · rfl
  · split
    · rfl
    · split <;> rfl

theorem partition_of_size_zero {br : BinaryRelation} (k : Nat) (h : br.size.2 = 0) :
    (br.partition k).2 = .ok [] := by
  unfold partition
  simp only [size_gen, h, beq_self_eq_true, if_true]

theorem partition_of_small {br : BinaryRelation} {k : Nat} (h0 : br.size.2 ≠ 0)
    (h : br.size.2 = 1 ∨ k ≤ 1) :
    (br.partition k).2 =
      br.begin.2 >>= fun it => .ok [make_range it br.begin.1.end] := by
  unfold partition
  have hne : (br.size.2 == 0) = false := by simpa using h0
  have hor : (br.size.2 == 1 || decide (k ≤ 1)) = true := by
    rcases h with h | h
    · simp [h]
    · simp [h]
  simp only [size_gen, hne, hor, begin_gen, Bool.false_eq_true, if_false, if_true]
  rfl

/-- C22: `partition(k)` returns no range when `size()` is 0, and when `size()`
is 1 or `k ≤ 1` (with `size() > 0`) it returns exactly one range, the one from
`begin()` to `end()`. -/
theorem partition_small_cases (br : BinaryRelation) (k : Nat) (h : Reachable br) :
    (br.size.2 = 0 → (br.partition k).2 = .ok []) ∧
    (0 < br.size.2 → (br.size.2 = 1 ∨ k ≤ 1) →
      ∃ it, br.begin.2 = .ok it ∧
        (br.partition k).2 = .ok [make_range it br.begin.1.end]) := by
  refine ⟨partition_of_size_zero k, ?_⟩
  intro hpos hk
  obtain ⟨it, hit, _⟩ := enumerate_begin h.inv
  refine ⟨it, hit, ?_⟩
  rw [partition_of_small (Nat.pos_iff_ne_zero.1 hpos) hk, hit]
  rfl

/-- C22, on the examples: the new relation has no range, the relation with
the class `{1, 2}` and `k = 1` has the one range from `begin()` to `end()`. -/
theorem partition_small_cases_witness :
    Reachable (BinaryRelation.new 0) ∧ Reachable exampleA ∧
    ((BinaryRelation.new 0).partition 5).2 = .ok [] ∧
    ∃ it, exampleA.begin.2 = .ok it ∧
      (exampleA.partition 1).2 = .ok [make_range it exampleA.begin.1.end] :=
  ⟨Reachable.new 0, reachable_exampleA,
    (partition_small_cases (BinaryRelation.new 0) 5 (Reachable.new 0)).1 (by decide),
    (partition_small_cases exampleA 1 reachable_exampleA).2 (by decide) (Or.inr (by decide))⟩

/-! ## `clear` -/

theorem orderedStates_gen_clear (br : BinaryRelation) :
    br.clear.genAllDisjointSetLists.orderedStates = [] := by
  unfold genAllDisjointSetLists clear
  cases br.statesMapStale <;>
    simp [SparseDisjointSet.clear, SparseDisjointSet.empty, SparseDisjointSet.denseSlotCount]

theorem size_clear (br : BinaryRelation) : br.clear.size.2 = 0 := by
  unfold size
  simp only [orderedStates_gen_clear, List.foldl_nil]

/-- C23: after `clear()`, whatever the state and its flag were, `contains` is
false on every pair, `size()` is 0, `begin()` succeeds and equals `end()`, and
`partition(k)` returns no range. -/
theorem clear_empties (br : BinaryRelation) :
    (∀ x y, br.clear.contains x y = false) ∧
    br.clear.size.2 = 0 ∧
    (∃ it, br.clear.begin.2 = .ok it ∧ it.eq br.clear.begin.1.end = true) ∧
    ∀ k, (br.clear.partition k).2 = .ok [] := by
  refine ⟨fun _ _ => rfl, size_clear br, ?_, fun k => partition_of_size_zero k (size_clear br)⟩
  refine ⟨{ iterator.init br.clear.genAllDisjointSetLists.addr IterType.ALL [] [] with
    isEndVal := true }, ?_, ?_⟩
  · unfold begin
    simp only [orderedStates_gen_clear]
    rfl
  · simp [iterator.eq, BinaryRelation.end, iterator.mkEnd, iterator.init, begin]

/-! ## The cache against the partition -/

theorem keys_cacheOf (s : SparseDisjointSet) :
    (cacheOf s).map Prod.fst = keysOf s.readOnlyFindNode s.domain := by
  rw [cacheOf_eq, List.map_map]
  exact List.map_id _

/-- What a fresh cache holds: one bucket per representative of an existing
element, and in the bucket of a representative the elements it represents,
each once. -/
theorem cacheOf_spec {s : SparseDisjointSet} (h : s.WF) :
    ((cacheOf s).map Prod.fst).Nodup ∧
    (∀ k, k ∈ (cacheOf s).map Prod.fst ↔
      ∃ v, s.nodeExists v = true ∧ s.readOnlyFindNode v = k) ∧
    (∀ kp ∈ cacheOf s, kp.2.Nodup ∧
      ∀ v, v ∈ kp.2 ↔ s.nodeExists v = true ∧ s.readOnlyFindNode v = kp.1) := by
  refine ⟨?_, ?_, ?_⟩
  · rw [keys_cacheOf]; exact nodup_keysOf _ _
  · intro k
    rw [keys_cacheOf, mem_keys_iff]
    constructor
    · rintro ⟨v, hv, hk⟩
      exact ⟨v, (SparseDisjointSet.nodeExists_iff s v).2 hv, hk⟩
    · rintro ⟨v, hv, hk⟩
      exact ⟨v, (SparseDisjointSet.nodeExists_iff s v).1 hv, hk⟩
  · intro kp hkp
    rw [cacheOf_eq, List.mem_map] at hkp
    obtain ⟨k, _, rfl⟩ := hkp
    refine ⟨nodup_bucketOf h k, ?_⟩
    intro v
    rw [mem_bucketOf, SparseDisjointSet.nodeExists_iff]

theorem stale_insertAll (br other : BinaryRelation) :
    (br.insertAll other).1.statesMapStale = true := rfl

theorem stale_insert (br : BinaryRelation) (x y : DomainInt) :
    (br.insert x y).1.statesMapStale = true := rfl

theorem stale_extend {br other : BinaryRelation} {r : BinaryRelation × BinaryRelation}
    (h : br.extend other = .ok r) : r.1.statesMapStale = true := by
  obtain ⟨s1, _, rfl⟩ := extend_ok h
  rfl

/-- C24: in every state reachable from a new relation through `insert`,
`insertAll`, `extend`, `clear` and the queries, a clear flag means that the
map is the partition of the union-find: its keys, without repetition, are the
representatives of the existing elements, and each bucket holds, each once,
the elements its key represents; and `insert`, `insertAll` and `extend` leave
the flag set. -/
theorem cache_fresh_invariant (br : BinaryRelation) (h : Reachable br) :
    (br.statesMapStale = false →
      br.orderedStates = cacheOf br.sds ∧
      (br.orderedStates.map Prod.fst).Nodup ∧
      (∀ k, k ∈ br.orderedStates.map Prod.fst ↔
        ∃ v, br.containsElement v = true ∧ br.sds.readOnlyFindNode v = k) ∧
      (∀ kp ∈ br.orderedStates, kp.2.Nodup ∧
        ∀ v, v ∈ kp.2 ↔ br.containsElement v = true ∧ br.sds.readOnlyFindNode v = kp.1)) ∧
    (∀ x y, (br.insert x y).1.statesMapStale = true) ∧
    (∀ other, (br.insertAll other).1.statesMapStale = true) ∧
    (∀ other r, br.extend other = .ok r → r.1.statesMapStale = true) := by
  refine ⟨?_, stale_insert br, stale_insertAll br, fun _ _ hr => stale_extend hr⟩
  intro hfresh
  have hm := h.inv.2 hfresh
  rw [hm]
  exact ⟨rfl, cacheOf_spec h.inv.1⟩

/-- C24, on the example: the relation with the classes `{2, 3, 4}` and
`{10, 11}` after a refresh. -/
theorem cache_fresh_invariant_witness :
    Reachable exampleB.genAllDisjointSetLists ∧
    exampleB.genAllDisjointSetLists.statesMapStale = false ∧
    exampleB.genAllDisjointSetLists.orderedStates = [(4, [2, 3, 4]), (11, [10, 11])] ∧
    (exampleB.genAllDisjointSetLists.orderedStates.map Prod.fst).Nodup ∧
    (∀ x y, (exampleB.genAllDisjointSetLists.insert x y).1.statesMapStale = true) := by
  have h := cache_fresh_invariant exampleB.genAllDisjointSetLists
    (Reachable.refresh reachable_exampleB)
  exact ⟨Reachable.refresh reachable_exampleB, by decide, by decide, (h.1 (by decide)).2.1,
    h.2.1⟩

/-! ## The queries leave the content alone -/

theorem SameContent_of_sds_eq {a b : BinaryRelation} (h : a.sds = b.sds) : SameContent a b := by
  unfold SameContent contains containsElement
  rw [h]
  exact ⟨fun _ _ => rfl, fun _ => rfl, rfl⟩

theorem sds_antpostit (br : BinaryRelation) (a b : DomainInt) :
    (br.antpostit a b).1.sds = br.sds := by
  unfold antpostit
  split
  · rfl
  · exact sds_gen br

theorem sds_getBoundaries (br : BinaryRelation) (levels : Nat) (entry : TupleType) :
    (br.getBoundaries levels entry).1.sds = br.sds := by
  unfold getBoundaries
  split
  · exact sds_gen br
  · split
    · split
      · rfl
      · exact sds_gen br
    · split
      · split
        · rfl
        · exact sds_antpostit br _ _
      · rfl

/-- C25: `size()`, `begin()`, `getBoundaries` and `partition(k)` return the
object with the same union-find: `contains` answers the same on every pair
and the same elements exist (`end()` and `contains` return no object at
all). -/
theorem queries_keep_content (br : BinaryRelation) :
    SameContent br.size.1 br ∧ SameContent br.begin.1 br ∧
    (∀ levels entry, SameContent (br.getBoundaries levels entry).1 br) ∧
    (∀ k, SameContent (br.partition k).1 br) ∧
    (∀ a, SameContent (br.anteriorIt a).1 br) ∧
    (∀ a b, SameContent (br.antpostit a b).1 br) ∧
    (∀ rep, SameContent (br.closure rep).1 br) :=
  ⟨SameContent_of_sds_eq (sds_gen br), SameContent_of_sds_eq (sds_gen br),
    fun levels entry => SameContent_of_sds_eq (sds_getBoundaries br levels entry),
    fun k => SameContent_of_sds_eq (by rw [partition_fst]; exact sds_gen br),
    fun _ => SameContent_of_sds_eq (sds_gen br),
    fun a b => SameContent_of_sds_eq (sds_antpostit br a b),
    fun _ => SameContent_of_sds_eq (sds_gen br)⟩

/-! ## Order of the inserts -/

theorem sds_insertList (br : BinaryRelation) (l : List TupleType) :
    (insertList br l).sds = br.sds.unionEdges l := by
  induction l generalizing br with
  | nil => rfl
  | cons p l ih =>
    unfold insertList SparseDisjointSet.unionEdges at ih ⊢
    rw [List.foldl_cons, List.foldl_cons, ih]
    rfl

theorem reachable_insertList {br : BinaryRelation} (h : Reachable br) (l : List TupleType) :
    Reachable (insertList br l) := by
  induction l generalizing br with
  | nil => exact h
  | cons p l ih => exact ih (Reachable.insert p.1 p.2 h)

theorem contains_insertList {br : BinaryRelation} (h : Inv br) (l : List TupleType)
    (u v : DomainInt) :
    (insertList br l).contains u v = true ↔
      PERGen (fun a b => br.contains a b = true ∨ (a, b) ∈ l) u v := by
  unfold contains
  rw [sds_insertList]
  exact SparseDisjointSet.contains_unionEdges h.1 l u v

/-- C26: inserting the pairs of a list, or of any permutation of it, into an
empty relation gives the same partition: `contains` agrees on every pair, the
classes are the same and `size()` is the same. -/
theorem insertList_perm (a1 a2 : Nat) (l1 l2 : List TupleType) (h : l1.Perm l2) :
    (∀ u v, (insertList (BinaryRelation.new a1) l1).contains u v =
      (insertList (BinaryRelation.new a2) l2).contains u v) ∧
    (insertList (BinaryRelation.new a1) l1).classes =
      (insertList (BinaryRelation.new a2) l2).classes ∧
    (insertList (BinaryRelation.new a1) l1).size.2 =
      (insertList (BinaryRelation.new a2) l2).size.2 := by
  have hc : ∀ u v, (insertList (BinaryRelation.new a1) l1).contains u v =
      (insertList (BinaryRelation.new a2) l2).contains u v := by
    intro u v
    rw [Bool.eq_iff_iff, contains_insertList (Inv_new a1), contains_insertList (Inv_new a2)]
    apply PERGen.congr
    intro a b
    exact or_congr Iff.rfl h.mem_iff
  exact ⟨hc, classes_congr hc,
    size_congr (reachable_insertList (Reachable.new a1) l1).inv
      (reachable_insertList (Reachable.new a2) l2).inv hc⟩

/-- C26, on the example: `(1, 2), (2, 3), (10, 11)` and the same pairs in
another order. -/
theorem insertList_perm_witness :
    List.Perm [((1 : DomainInt), (2 : DomainInt)), (2, 3), (10, 11)] [(10, 11), (1, 2), (2, 3)] ∧
    (insertList (BinaryRelation.new 0) [(1, 2), (2, 3), (10, 11)]).classes =
      {{1, 2, 3}, {10, 11}} ∧
    (∀ u v, (insertList (BinaryRelation.new 0) [(1, 2), (2, 3), (10, 11)]).contains u v =
      (insertList (BinaryRelation.new 1) [(10, 11), (1, 2), (2, 3)]).contains u v) ∧
    (insertList (BinaryRelation.new 0) [(1, 2), (2, 3), (10, 11)]).classes =
      (insertList (BinaryRelation.new 1) [(10, 11), (1, 2), (2, 3)]).classes ∧
    (insertList (BinaryRelation.new 0) [(1, 2), (2, 3), (10, 11)]).size.2 =
      (insertList (BinaryRelation.new 1) [(10, 11), (1, 2), (2, 3)]).size.2 :=
  ⟨by decide, by decide,
    insertList_perm 0 1 [(1, 2), (2, 3), (10, 11)] [(10, 11), (1, 2), (2, 3)] (by decide)⟩

end BinaryRelation

theorem enumerate_error_mono (last : iterator) (n : Nat) :
    ∀ (it : iterator) (f : Failure), enumerate n it last = .error f → f ≠ Failure.outOfFuel →
      ∀ m, n ≤ m → enumerate m it last = .error f := by
  induction n with
  | zero =>
    intro it f h hf
    simp only [enumerate, Except.error.injEq] at h
    exact absurd h.symm hf
  | succ n ih =>
    intro it f h hf m hm
    obtain ⟨m1, rfl⟩ : ∃ m1, m = m1 + 1 := ⟨m - 1, by omega⟩
    unfold enumerate at h ⊢
    by_cases hne : it.ne last = true
    · rw [if_pos hne] at h ⊢
      cases hnext : it.next with
      | error e =>
        rw [hnext] at h
        exact h
      | ok it1 =>
        rw [hnext] at h
        simp only at h ⊢
        cases hrec : enumerate n it1 last with
        | ok rest => rw [hrec] at h; cases h
        | error e =>
          rw [hrec] at h
          simp only [Except.error.injEq] at h
          subst h
          rw [ih it1 e hrec hf m1 (by omega)]
    · rw [if_neg hne] at h
      cases h

namespace BinaryRelation

/-! ## Regeneration -/

theorem mem_bucket_iff_contains {s : SparseDisjointSet} (h : s.WF)
    {kp : DomainInt × StatesBucket} (hkp : kp ∈ cacheOf s) (v : DomainInt) :
    v ∈ kp.2 ↔ s.contains kp.1 v = true := by
  rw [cacheOf_eq, List.mem_map] at hkp
  obtain ⟨k, hk, rfl⟩ := hkp
  obtain ⟨w, hw, rfl⟩ := (mem_keys_iff s k).1 hk
  simp only
  rw [mem_bucketOf]
  constructor
  · rintro ⟨hv, hfind⟩
    rw [SparseDisjointSet.contains_iff_find (SparseDisjointSet.find_mem_domain h hw) hv,
      SparseDisjointSet.find_find h hw, hfind]
  · intro hc
    have hv := (SparseDisjointSet.mem_domain_of_contains hc).2
    refine ⟨hv, ?_⟩
    rw [SparseDisjointSet.contains_iff_find (SparseDisjointSet.find_mem_domain h hw) hv,
      SparseDisjointSet.find_find h hw] at hc
    exact hc.symm

/-- C28: on a state with a well-formed union-find and the flag set,
`genAllDisjointSetLists()` clears the flag and leaves the union-find alone;
the keys of the map, without repetition, are exactly the representatives of
the existing elements, and the bucket under a key holds exactly the members
of the class of the key, each once. -/
theorem regeneration_correct (br : BinaryRelation) (hwf : br.sds.WF)
    (hstale : br.statesMapStale = true) :
    br.genAllDisjointSetLists.statesMapStale = false ∧
    br.genAllDisjointSetLists.sds = br.sds ∧
    (br.genAllDisjointSetLists.orderedStates.map Prod.fst).Nodup ∧
    (∀ k, k ∈ br.genAllDisjointSetLists.orderedStates.map Prod.fst ↔
      ∃ v, br.containsElement v = true ∧ br.sds.readOnlyFindNode v = k) ∧
    (∀ kp ∈ br.genAllDisjointSetLists.orderedStates, kp.2.Nodup ∧
      (∀ v, v ∈ kp.2 ↔ br.containsElement v = true ∧ br.sds.readOnlyFindNode v = kp.1) ∧
      (∀ v, v ∈ kp.2 ↔ br.contains kp.1 v = true)) := by
  rw [orderedStates_gen_of_stale hstale]
  obtain ⟨h1, h2, h3⟩ := cacheOf_spec hwf
  refine ⟨stale_gen br, sds_gen br, h1, h2, ?_⟩
  intro kp hkp
  exact ⟨(h3 kp hkp).1, (h3 kp hkp).2, mem_bucket_iff_contains hwf hkp⟩

/-- C28, on the example: the relation with the classes `{2, 3, 4}` and
`{10, 11}`, whose flag the inserts have set. -/
theorem regeneration_correct_witness :
    exampleB.sds.WF ∧ exampleB.statesMapStale = true ∧
    exampleB.genAllDisjointSetLists.orderedStates = [(4, [2, 3, 4]), (11, [10, 11])] ∧
    exampleB.genAllDisjointSetLists.statesMapStale = false ∧
    (∀ kp ∈ exampleB.genAllDisjointSetLists.orderedStates, kp.2.Nodup ∧
      (∀ v, v ∈ kp.2 ↔
        exampleB.containsElement v = true ∧ exampleB.sds.readOnlyFindNode v = kp.1) ∧
      (∀ v, v ∈ kp.2 ↔ exampleB.contains kp.1 v = true)) := by
  have h := regeneration_correct exampleB reachable_exampleB.inv.1 (by decide)
  exact ⟨reachable_exampleB.inv.1, by decide, by decide, h.1, h.2.2.2.2⟩

/-! ## No failure while iterating -/

/-- C29: in every reachable state no bucket of the refreshed map is empty,
`begin()` succeeds, and the loop up to `end()` never fails: whatever its
budget, the only way not to finish is to run out of budget, so neither the
zero-size failure nor a read past the end of a bucket occurs. -/
theorem iteration_never_fails (br : BinaryRelation) (h : Reachable br) :
    (∀ kp ∈ br.genAllDisjointSetLists.orderedStates, 0 < kp.2.length) ∧
    ∃ it, br.begin.2 = .ok it ∧
      ∀ fuel f, enumerate fuel it br.begin.1.end = .error f → f = Failure.outOfFuel := by
  constructor
  · intro kp hkp
    rw [orderedStates_gen h.inv] at hkp
    exact List.length_pos.2 (bucket_ne_nil_of_mem_cacheOf hkp)
  · obtain ⟨it, hit, hen⟩ := enumerate_begin h.inv
    refine ⟨it, hit, ?_⟩
    intro fuel f hf
    by_contra hne
    have h1 := enumerate_error_mono br.begin.1.end fuel it f hf hne (max fuel (br.size.2 + 1))
      (le_max_left _ _)
    have h2 := hen (max fuel (br.size.2 + 1)) (by
      have := le_max_right fuel (br.size.2 + 1)
      omega)
    rw [h1] at h2
    cases h2

/-- C29, on the example with the classes `{2, 3, 4}` and `{10, 11}`. -/
theorem iteration_never_fails_witness :
    Reachable exampleB ∧
    (∀ kp ∈ exampleB.genAllDisjointSetLists.orderedStates, 0 < kp.2.length) ∧
    ∃ it, exampleB.begin.2 = .ok it ∧
      ∀ fuel f, enumerate fuel it exampleB.begin.1.end = .error f → f = Failure.outOfFuel :=
  ⟨reachable_exampleB, iteration_never_fails exampleB reachable_exampleB⟩

end BinaryRelation

namespace iterator

/-! ## The WITHIN iterator -/

/-- WITHIN: the posterior index moves within the bucket. -/
theorem next_WITHIN_posterior (addr : Nat) (a p : DomainInt) {q : DomainInt} {b : StatesBucket}
    (m : StatesMap) (i : Nat) {j : Nat} (hj : j + 1 < b.length) (hq : b[j + 1]? = some q) :
    next ⟨addr, false, IterType.WITHIN, (a, p), b, m, i, j⟩ =
      .ok ⟨addr, false, IterType.WITHIN, (a, q), b, m, i, j + 1⟩ := by
  have hne : ¬ j + 1 = b.length := Nat.ne_of_lt hj
  simp [next, nextWITHIN, hne, updatePosterior, get_eq_ok hq, setPosterior]

/-- WITHIN: the posterior index wraps and the anterior index moves. -/
theorem next_WITHIN_anterior (addr : Nat) (a p : DomainInt) {a1 h : DomainInt} {b : StatesBucket}
    (m : StatesMap) {i j : Nat} (hj : j + 1 = b.length) (hi : i + 1 < b.length)
    (ha1 : b[i + 1]? = some a1) (hh : b[0]? = some h) :
    next ⟨addr, false, IterType.WITHIN, (a, p), b, m, i, j⟩ =
      .ok ⟨addr, false, IterType.WITHIN, (a1, h), b, m, i + 1, 0⟩ := by
  have hne : ¬ i + 1 = b.length := Nat.ne_of_lt hi
  simp [next, nextWITHIN, hj, hne, movedAnterior, updateAnterior, updatePosterior, get_eq_ok ha1,
    get_eq_ok hh, setAnterior, setPosterior, bind, Except.bind]

/-- WITHIN: both indices wrap and the iterator is at end. -/
theorem next_WITHIN_end (addr : Nat) (a p : DomainInt) {b : StatesBucket} (m : StatesMap)
    {i j : Nat} (hj : j + 1 = b.length) (hi : i + 1 = b.length) :
    next ⟨addr, false, IterType.WITHIN, (a, p), b, m, i, j⟩ =
      .ok ⟨addr, true, IterType.WITHIN, (a, p), b, m, i + 1, j + 1⟩ := by
  simp [next, nextWITHIN, hj, hi]

theorem mkWithin_cons (addr : Nat) (h : DomainInt) (t : StatesBucket) :
    mkWithin addr (h :: t) = .ok ⟨addr, false, IterType.WITHIN, (h, h), h :: t, [], 0, 0⟩ := by
  simp [mkWithin, init, updateAnterior, updatePosterior, get, setAnterior, setPosterior, bind,
    Except.bind]

end iterator

/-- From any cursor position the WITHIN iterator yields the rest of the
current row and the remaining rows of its bucket. -/
theorem enumerate_WITHIN (addr : Nat) (fuel : Nat) :
    ∀ (b pre post pre1 post1 : List DomainInt) (a p : DomainInt),
      b = pre ++ a :: post → b = pre1 ++ p :: post1 →
      ((a, p) :: post1.map (fun q => (a, q)) ++
          post.flatMap (fun a1 => b.map (fun q => (a1, q)))).length < fuel →
      enumerate fuel ⟨addr, false, IterType.WITHIN, (a, p), b, [], pre.length, pre1.length⟩
          (iterator.mkEnd addr) =
        .ok ((a, p) :: post1.map (fun q => (a, q)) ++
          post.flatMap (fun a1 => b.map (fun q => (a1, q)))) := by
  induction fuel with
  | zero => intro _ _ _ _ _ _ _ _ _ h; simp at h
  | succ n ih =>
    intro b pre post pre1 post1 a p hb hb1 hlen
    cases post1 with
    | cons q post2 =>
      have hb2 : b = (pre1 ++ [p]) ++ q :: post2 := by rw [hb1]; simp
      have hj : pre1.length + 1 < b.length := by rw [hb1]; simp
      have hq : b[pre1.length + 1]? = some q := by
        have := iterator.getElem?_append_cons_length (pre1 ++ [p]) q post2
        rw [← hb2] at this
        simpa using this
      have hstep := iterator.next_WITHIN_posterior addr a p [] pre.length hj hq
      have hrec := ih b pre post (pre1 ++ [p]) post2 a q hb hb2 (by simp at hlen ⊢; omega)
      rw [List.length_append, List.length_singleton] at hrec
      have := enumerate_step rfl hstep hrec
      simpa using this
    | nil =>
      have hj : pre1.length + 1 = b.length := by rw [hb1]; simp
      cases post with
      | cons a1 post2 =>
        have hb2 : b = (pre ++ [a]) ++ a1 :: post2 := by rw [hb]; simp
        have hi : pre.length + 1 < b.length := by rw [hb]; simp
        have ha1 : b[pre.length + 1]? = some a1 := by
          have := iterator.getElem?_append_cons_length (pre ++ [a]) a1 post2
          rw [← hb2] at this
          simpa using this
        obtain ⟨h, t, hbt⟩ : ∃ h t, b = h :: t := by
          cases hbt : b with
          | nil => rw [hbt] at hb; simp at hb
          | cons h t => exact ⟨h, t, rfl⟩
        have hh : b[0]? = some h := by rw [hbt]; simp
        have hstep := iterator.next_WITHIN_anterior addr a p [] hj hi ha1 hh
        have hrec := ih b (pre ++ [a]) post2 [] t a1 h hb2 (by rw [hbt]; rfl)
          (by simp [hbt] at hlen ⊢; omega)
        rw [List.length_append, List.length_singleton, List.length_nil] at hrec
        have := enumerate_step rfl hstep hrec
        rw [this]
        simp [hbt]
      | nil =>
        have hi : pre.length + 1 = b.length := by rw [hb]; simp
        have hstep := iterator.next_WITHIN_end addr a p [] hj hi
        cases n with
        | zero => simp at hlen
        | succ n1 =>
          have hend := enumerate_end n1
            ⟨addr, true, IterType.WITHIN, (a, p), b, [], pre.length + 1, pre1.length + 1⟩ rfl
          have := enumerate_step rfl hstep hend
          simpa using this

theorem getElem?_flatMap_map (row : List DomainInt) (b : List DomainInt) :
    ∀ (i j : Nat) (hi : i < b.length) (hj : j < row.length),
      (b.flatMap (fun a => row.map (fun q => (a, q))))[i * row.length + j]? =
        some (b[i], row[j]) := by
  induction b with
  | nil => intro i j hi; simp at hi
  | cons a b ih =>
    intro i j hi hj
    rw [List.flatMap_cons]
    cases i with
    | zero =>
      rw [Nat.zero_mul, Nat.zero_add, List.getElem?_append_left (by simpa using hj)]
      simp [hj]
    | succ i1 =>
      have hi1 : i1 < b.length := by simpa using hi
      have hidx : (i1 + 1) * row.length + j = (row.map (fun q => (a, q))).length +
          (i1 * row.length + j) := by
        rw [List.length_map, Nat.add_mul, Nat.one_mul]; omega
      rw [hidx, List.getElem?_append_right (Nat.le_add_right _ _), Nat.add_sub_cancel_left,
        ih i1 j hi1 hj]
      simp

/-- C30: over a non-empty bucket `b` of length `n` the WITHIN iterator is
built, and the loop up to the end iterator terminates after yielding the
`n ^ 2` pairs `(b[i], b[j])` in row-major order: the pair at position
`i * n + j` is `(b[i], b[j])`. -/
theorem within_yields_square (addr : Nat) (b : StatesBucket) (hb : b ≠ []) :
    ∃ it l, iterator.mkWithin addr b = .ok it ∧
      (∀ fuel, b.length * b.length < fuel → enumerate fuel it (iterator.mkEnd addr) = .ok l) ∧
      l = b.flatMap (fun a => b.map (fun q => (a, q))) ∧
      l.length = b.length ^ 2 ∧
      ∀ (i j : Nat) (hi : i < b.length) (hj : j < b.length),
        l[i * b.length + j]? = some (b[i], b[j]) := by
  obtain ⟨h, t, rfl⟩ : ∃ h t, b = h :: t := by
    cases b with
    | nil => exact absurd rfl hb
    | cons h t => exact ⟨h, t, rfl⟩
  have hlen : ((h :: t).flatMap (fun a => (h :: t).map (fun q => (a, q)))).length =
      (h :: t).length * (h :: t).length := by
    rw [List.length_flatMap]
    have : (List.length ∘ fun a : DomainInt => List.map (fun q : DomainInt => (a, q)) (h :: t)) =
        fun _ => (h :: t).length := by
      funext a; simp
    rw [this]
    simp
    ring
  refine ⟨_, _, iterator.mkWithin_cons addr h t, ?_, rfl, ?_, ?_⟩
  · intro fuel hfuel
    have := enumerate_WITHIN addr fuel (h :: t) [] t [] t h h rfl rfl
      (by rw [← hlen] at hfuel; simpa using hfuel)
    simp only [List.length_nil] at this
    rw [this]
    simp
  · rw [hlen, sq]
  · intro i j hi hj
    exact getElem?_flatMap_map (h :: t) (h :: t) i j hi hj

/-- C30, on the bucket `[2, 3, 4]`: nine pairs, row by row. -/
theorem within_yields_square_witness :
    ([2, 3, 4] : StatesBucket) ≠ [] ∧
    ∃ it l, iterator.mkWithin 0 [2, 3, 4] = .ok it ∧
      (∀ fuel, 3 * 3 < fuel → enumerate fuel it (iterator.mkEnd 0) = .ok l) ∧
      l = [(2, 2), (2, 3), (2, 4), (3, 2), (3, 3), (3, 4), (4, 2), (4, 3), (4, 4)] ∧
      l.length = 3 ^ 2 := by
  obtain ⟨it, l, h1, h2, h3, h4, _⟩ := within_yields_square 0 [2, 3, 4] (by decide)
  exact ⟨by decide, it, l, h1, h2, h3, h4⟩

/-! ## The ANTERIOR iterator -/

namespace iterator

/-- ANTERIOR: the posterior index moves within the bucket. -/
theorem next_ANTERIOR_posterior (addr : Nat) (a p : DomainInt) {q : DomainInt} {b : StatesBucket}
    (m : StatesMap) (i : Nat) {j : Nat} (hj : j + 1 < b.length) (hq : b[j + 1]? = some q) :
    next ⟨addr, false, IterType.ANTERIOR, (a, p), b, m, i, j⟩ =
      .ok ⟨addr, false, IterType.ANTERIOR, (a, q), b, m, i, j + 1⟩ := by
  have hne : ¬ j + 1 = b.length := Nat.ne_of_lt hj
  simp [next, nextANTERIOR, hne, updatePosterior, get_eq_ok hq, setPosterior]

/-- ANTERIOR: the posterior index leaves the bucket and the iterator is at end. -/
theorem next_ANTERIOR_end (addr : Nat) (a p : DomainInt) {b : StatesBucket} (m : StatesMap)
    (i : Nat) {j : Nat} (hj : j + 1 = b.length) :
    next ⟨addr, false, IterType.ANTERIOR, (a, p), b, m, i, j⟩ =
      .ok ⟨addr, true, IterType.ANTERIOR, (a, p), b, m, i, j + 1⟩ := by
  simp [next, nextANTERIOR, hj]

theorem mkAnterior_cons (addr : Nat) (a h : DomainInt) (t : StatesBucket) :
    mkAnterior addr a (h :: t) =
      .ok ⟨addr, false, IterType.ANTERIOR, (a, h), h :: t, [], 0, 0⟩ := by
  simp [mkAnterior, init, updatePosterior, get, setAnterior, setPosterior]

end iterator

/-- From any cursor position the ANTERIOR iterator yields the rest of its row. -/
theorem enumerate_ANTERIOR (addr : Nat) (a : DomainInt) (fuel : Nat) :
    ∀ (b pre1 post1 : List DomainInt) (p : DomainInt),
      b = pre1 ++ p :: post1 → post1.length + 1 < fuel →
      enumerate fuel ⟨addr, false, IterType.ANTERIOR, (a, p), b, [], 0, pre1.length⟩
          (iterator.mkEnd addr) =
        .ok ((a, p) :: post1.map (fun q => (a, q))) := by
  induction fuel with
  | zero => intro _ _ _ _ _ h; simp at h
  | succ n ih =>
    intro b pre1 post1 p hb1 hlen
    cases post1 with
    | cons q post2 =>
      have hb2 : b = (pre1 ++ [p]) ++ q :: post2 := by rw [hb1]; simp
      have hj : pre1.length + 1 < b.length := by rw [hb1]; simp
      have hq : b[pre1.length + 1]? = some q := by
        have := iterator.getElem?_append_cons_length (pre1 ++ [p]) q post2
        rw [← hb2] at this
        simpa using this
      have hstep := iterator.next_ANTERIOR_posterior addr a p [] 0 hj hq
      have hrec := ih b (pre1 ++ [p]) post2 q hb2 (by simp at hlen ⊢; omega)
      rw [List.length_append, List.length_singleton] at hrec
      have := enumerate_step rfl hstep hrec
      simpa using this
    | nil =>
      have hj : pre1.length + 1 = b.length := by rw [hb1]; simp
      have hstep := iterator.next_ANTERIOR_end addr a p [] 0 hj
      cases n with
      | zero => simp at hlen
      | succ n1 =>
        have hend := enumerate_end n1
          ⟨addr, true, IterType.ANTERIOR, (a, p), b, [], 0, pre1.length + 1⟩ rfl
        have := enumerate_step rfl hstep hend
        simpa using this

/-- C32: over a non-empty bucket `b` of length `n` and for any value `a`, the
ANTERIOR iterator is built, and the loop up to the end iterator terminates
after yielding the `n` pairs `(a, b[0]), ..., (a, b[n-1])` in this order. -/
theorem anterior_yields_row (addr : Nat) (a : DomainInt) (b : StatesBucket) (hb : b ≠ []) :
    ∃ it l, iterator.mkAnterior addr a b = .ok it ∧
      (∀ fuel, b.length < fuel → enumerate fuel it (iterator.mkEnd addr) = .ok l) ∧
      l = b.map (fun q => (a, q)) ∧
      l.length = b.length ∧
      (∀ p ∈ l, p.1 = a) ∧
      ∀ (j : Nat) (hj : j < b.length), l[j]? = some (a, b[j]) := by
  obtain ⟨h, t, rfl⟩ : ∃ h t, b = h :: t := by
    cases b with
    | nil => exact absurd rfl hb
    | cons h t => exact ⟨h, t, rfl⟩
  refine ⟨_, _, iterator.mkAnterior_cons addr a h t, ?_, rfl, by simp, ?_, ?_⟩
  · intro fuel hfuel
    have := enumerate_ANTERIOR addr a fuel (h :: t) [] t h rfl (by simpa using hfuel)
    simp only [List.length_nil] at this
    rw [this]
    simp
  · intro p hp
    rw [List.mem_map] at hp
    obtain ⟨q, _, rfl⟩ := hp
    rfl
  · intro j hj
    rw [List.getElem?_map, List.getElem?_eq_getElem hj]
    rfl

/-- C32, on the bucket `[2, 3, 4]` with the value `3`. -/
theorem anterior_yields_row_witness :
    ([2, 3, 4] : StatesBucket) ≠ [] ∧
    ∃ it l, iterator.mkAnterior 0 3 [2, 3, 4] = .ok it ∧
      (∀ fuel, 3 < fuel → enumerate fuel it (iterator.mkEnd 0) = .ok l) ∧
      l = [(3, 2), (3, 3), (3, 4)] := by
  obtain ⟨it, l, h1, h2, h3, _⟩ := anterior_yields_row 0 3 [2, 3, 4] (by decide)
  exact ⟨by decide, it, l, h1, h2, h3⟩

/-! ## The ALL traversal against the WITHIN traversals -/

/-- Over a non-empty bucket the WITHIN iterator is built and yields every pair
of the bucket, row by row. -/
theorem enumerate_mkWithin (addr : Nat) (b : StatesBucket) (hb : b ≠ []) :
    ∃ it, iterator.mkWithin addr b = .ok it ∧ it.ityp = IterType.WITHIN ∧
      ∀ fuel, b.length * b.length < fuel →
        enumerate fuel it (iterator.mkEnd addr) =
          .ok (b.flatMap (fun a => b.map (fun q => (a, q)))) := by
  obtain ⟨h, t, rfl⟩ : ∃ h t, b = h :: t := by
    cases b with
    | nil => exact absurd rfl hb
    | cons h t => exact ⟨h, t, rfl⟩
  have hlen : ((h :: t).flatMap (fun a => (h :: t).map (fun q => (a, q)))).length =
      (h :: t).length * (h :: t).length := by
    rw [List.length_flatMap]
    have : (List.length ∘ fun a : DomainInt => List.map (fun q : DomainInt => (a, q)) (h :: t)) =
        fun _ => (h :: t).length := by
      funext a; simp
    rw [this]
    simp
    ring
  refine ⟨_, iterator.mkWithin_cons addr h t, rfl, ?_⟩
  intro fuel hfuel
  have := enumerate_WITHIN addr fuel (h :: t) [] t [] t h h rfl rfl
    (by rw [← hlen] at hfuel; simpa using hfuel)
  simp only [List.length_nil] at this
  rw [this]
  simp

namespace BinaryRelation

theorem lookup_bucket_of_mem {m : StatesMap} (hnd : (m.map Prod.fst).Nodup)
    {kp : DomainInt × StatesBucket} (h : kp ∈ m) : List.lookup kp.1 m = some kp.2 := by
  induction m with
  | nil => simp at h
  | cons q m ih =>
    obtain ⟨k, b⟩ := q
    simp only [List.map_cons, List.nodup_cons] at hnd
    rw [List.lookup_cons]
    rcases List.mem_cons.1 h with h1 | h1
    · subst h1; simp
    · have hne : ¬ kp.1 = k := by
        intro hc
        exact hnd.1 (hc ▸ List.mem_map.2 ⟨kp, h1, rfl⟩)
      have : (kp.1 == k) = false := by simpa using hne
      rw [this]
      exact ih hnd.2 h1

theorem findBucket_of_mem {m : StatesMap} (hnd : (m.map Prod.fst).Nodup)
    {kp : DomainInt × StatesBucket} (h : kp ∈ m) : findBucket m kp.1 = .ok kp.2 := by
  unfold findBucket
  rw [lookup_bucket_of_mem hnd h]

theorem closure_of_fresh {br : BinaryRelation} (hfresh : br.statesMapStale = false)
    (rep : DomainInt) :
    (br.closure rep).2 = findBucket br.orderedStates rep >>= iterator.mkWithin br.addr := by
  unfold closure
  simp only [gen_of_fresh hfresh]

theorem size_of_fresh {br : BinaryRelation} (hfresh : br.statesMapStale = false) :
    br.size.2 = (allPairs br.orderedStates).length := by
  rw [length_allPairs]
  unfold size
  simp only [gen_of_fresh hfresh]
  rw [foldl_add_eq_sum (fun x : DomainInt × StatesBucket => x.2.length * x.2.length),
    Nat.zero_add]

theorem allPairs_eq_flatten (m : StatesMap) :
    allPairs m =
      (m.map (fun kp => kp.2.flatMap (fun a => kp.2.map (fun q => (a, q))))).flatten := by
  unfold allPairs
  rw [List.flatMap_def]

/-- The WITHIN range of every bucket of a fresh map with distinct keys and no
empty bucket. -/
theorem closure_buckets {br : BinaryRelation} (hfresh : br.statesMapStale = false)
    (hkeys : (br.orderedStates.map Prod.fst).Nodup) (hne : ∀ kp ∈ br.orderedStates, kp.2 ≠ [])
    {kp : DomainInt × StatesBucket} (hkp : kp ∈ br.orderedStates) :
    ∃ itw, (br.closure kp.1).2 = .ok itw ∧ iterator.mkWithin br.addr kp.2 = .ok itw ∧
      itw.ityp = IterType.WITHIN ∧
      ∀ fuel, kp.2.length * kp.2.length < fuel →
        enumerate fuel itw br.end =
          .ok (kp.2.flatMap (fun a => kp.2.map (fun q => (a, q)))) := by
  obtain ⟨itw, hit, hty, hen⟩ := enumerate_mkWithin br.addr kp.2 (hne kp hkp)
  refine ⟨itw, ?_, hit, hty, hen⟩
  rw [closure_of_fresh hfresh, findBucket_of_mem hkeys hkp]
  exact hit

/-- C31: on a fresh map with distinct keys and no empty bucket, `begin()`
succeeds and the sequence yielded up to `end()` is the concatenation, in map
order, of the sequences yielded by the WITHIN iterators `closure(key)` of the
buckets. -/
theorem all_eq_concat_within (br : BinaryRelation) (hfresh : br.statesMapStale = false)
    (hkeys : (br.orderedStates.map Prod.fst).Nodup)
    (hne : ∀ kp ∈ br.orderedStates, kp.2 ≠ []) :
    ∃ it l, br.begin.2 = .ok it ∧
      (∀ fuel, br.size.2 < fuel → enumerate fuel it br.end = .ok l) ∧
      ∃ ls, List.Forall₂
          (fun kp lw => ∃ itw, (br.closure kp.1).2 = .ok itw ∧
            ∀ fuel, kp.2.length * kp.2.length < fuel → enumerate fuel itw br.end = .ok lw)
          br.orderedStates ls ∧
        l = ls.flatten := by
  obtain ⟨it, hit, hen⟩ := enumerate_mkAll br.addr br.orderedStates hne
  refine ⟨it, allPairs br.orderedStates, ?_, ?_, ?_⟩
  · unfold begin
    simp only [gen_of_fresh hfresh]
    exact hit
  · intro fuel hfuel
    rw [size_of_fresh hfresh] at hfuel
    exact hen fuel hfuel
  · refine ⟨br.orderedStates.map
      (fun kp => kp.2.flatMap (fun a => kp.2.map (fun q => (a, q)))), ?_,
      allPairs_eq_flatten _⟩
    rw [List.forall₂_map_right_iff, List.forall₂_same]
    intro kp hkp
    obtain ⟨itw, h1, _, _, h3⟩ := closure_buckets hfresh hkeys hne hkp
    exact ⟨itw, h1, h3⟩

/-- C31, on the example with the classes `{2, 3, 4}` and `{10, 11}`, after a
refresh. -/
theorem all_eq_concat_within_witness :
    exampleB.genAllDisjointSetLists.statesMapStale = false ∧
    exampleB.genAllDisjointSetLists.orderedStates = [(4, [2, 3, 4]), (11, [10, 11])] ∧
    ∃ it l, exampleB.genAllDisjointSetLists.begin.2 = .ok it ∧
      (∀ fuel, exampleB.genAllDisjointSetLists.size.2 < fuel →
        enumerate fuel it exampleB.genAllDisjointSetLists.end = .ok l) ∧
      ∃ ls, List.Forall₂
          (fun kp lw => ∃ itw, (exampleB.genAllDisjointSetLists.closure kp.1).2 = .ok itw ∧
            ∀ fuel, kp.2.length * kp.2.length < fuel →
              enumerate fuel itw exampleB.genAllDisjointSetLists.end = .ok lw)
          exampleB.genAllDisjointSetLists.orderedStates ls ∧
        l = ls.flatten :=
  ⟨by decide, by decide,
    all_eq_concat_within exampleB.genAllDisjointSetLists (by decide) (by decide) (by decide)⟩

/-! ## The two loops of `partition` -/

theorem length_bucketPairs (b b2 : StatesBucket) :
    (b.flatMap (fun a => b2.map (fun q => (a, q)))).length = b.length * b2.length := by
  induction b with
  | nil => simp
  | cons h t ih =>
    rw [List.flatMap_cons, List.length_append, ih, List.length_map, List.length_cons,
      Nat.succ_mul, Nat.add_comm]

theorem end_gen (br : BinaryRelation) : br.genAllDisjointSetLists.end = br.end := by
  unfold «end»
  rw [addr_gen]

/-- The first loop of `partition` over a fresh map with distinct keys and no
empty bucket: one WITHIN range per bucket, each yielding the square of its
bucket. -/
theorem partitionPerBucket_ok {br : BinaryRelation} (hfresh : br.statesMapStale = false)
    (hkeys : (br.orderedStates.map Prod.fst).Nodup)
    (hne : ∀ kp ∈ br.orderedStates, kp.2 ≠ []) :
    ∀ m : StatesMap, (∀ kp ∈ m, kp ∈ br.orderedStates) →
      ∃ rs, partitionPerBucket br m = .ok rs ∧
        List.Forall₂
          (fun kp r => iterator.mkWithin br.addr kp.2 = .ok r.1 ∧
            r.1.ityp = IterType.WITHIN ∧ r.2 = br.end ∧
            ∀ fuel, kp.2.length * kp.2.length < fuel →
              pairsOf fuel r = .ok (kp.2.flatMap (fun a => kp.2.map (fun q => (a, q)))))
          m rs := by
  intro m
  induction m with
  | nil => intro _; exact ⟨[], rfl, List.Forall₂.nil⟩
  | cons kp m ih =>
    intro hsub
    obtain ⟨rs, hrs, hall⟩ := ih (fun q hq => hsub q (List.mem_cons_of_mem _ hq))
    obtain ⟨itw, h1, h2, h3, h4⟩ :=
      closure_buckets hfresh hkeys hne (hsub kp (List.mem_cons_self _ _))
    refine ⟨make_range itw br.end :: rs, ?_, List.Forall₂.cons ⟨h2, h3, rfl, h4⟩ hall⟩
    rw [partitionPerBucket, h1, hrs]
    rfl

/-- There are as many buckets in a fresh cache as the relation has classes. -/
theorem card_classes (br : BinaryRelation) : br.classes.card = (cacheOf br.sds).length := by
  rw [classes_eq, Finset.card_image_of_injOn, List.toFinset_card_of_nodup (nodup_keysOf _ _),
    cacheOf_eq, List.length_map]
  intro k hk k2 _ heq
  rw [Finset.mem_coe, List.mem_toFinset, mem_keys_iff] at hk
  obtain ⟨v, hv, hvk⟩ := hk
  have hmem : v ∈ (bucketOf br.sds k).toFinset :=
    List.mem_toFinset.2 ((mem_bucketOf _ _ _).2 ⟨hv, hvk⟩)
  simp only at heq
  rw [heq, List.mem_toFinset, mem_bucketOf] at hmem
  rw [← hvk, ← hmem.2]

/-- C34: in a reachable state with `size() ≥ 2` and `2 ≤ k ≤` number of
buckets, `partition(k)` succeeds with exactly one range per bucket (as many
as there are classes), in map order, each from the WITHIN iterator of the
bucket to `end()`; and the
concatenation of what the ranges yield, in order, is what the loop from
`begin()` to `end()` yields. -/
theorem partition_one_range_per_bucket (br : BinaryRelation) (k : Nat) (h : Reachable br)
    (hsize : 2 ≤ br.size.2) (hk : 2 ≤ k)
    (hkb : k ≤ br.genAllDisjointSetLists.orderedStates.length) :
    ∃ rs, (br.partition k).2 = .ok rs ∧
      rs.length = br.genAllDisjointSetLists.orderedStates.length ∧
      rs.length = br.classes.card ∧
      List.Forall₂
        (fun kp r => iterator.mkWithin br.addr kp.2 = .ok r.1 ∧
          r.1.ityp = IterType.WITHIN ∧ r.2 = br.end)
        br.genAllDisjointSetLists.orderedStates rs ∧
      ∃ it l ls, br.begin.2 = .ok it ∧
        (∀ fuel, br.size.2 < fuel → enumerate fuel it br.end = .ok l) ∧
        List.Forall₂ (fun r lw => ∀ fuel, lw.length < fuel → pairsOf fuel r = .ok lw) rs ls ∧
        l = ls.flatten := by
  have hinv : Inv br := h.inv
  have hfresh1 := stale_gen br
  have hos := orderedStates_gen hinv
  have hkeys : (br.genAllDisjointSetLists.orderedStates.map Prod.fst).Nodup := by
    rw [hos]; exact (cacheOf_spec hinv.1).1
  have hne : ∀ kp ∈ br.genAllDisjointSetLists.orderedStates, kp.2 ≠ [] := by
    rw [hos]; exact fun kp hkp => bucket_ne_nil_of_mem_cacheOf hkp
  obtain ⟨rs, hrs, hall⟩ := partitionPerBucket_ok hfresh1 hkeys hne
    br.genAllDisjointSetLists.orderedStates (fun _ hq => hq)
  rw [addr_gen, end_gen] at hall
  have hne0 : (br.size.2 == 0) = false := by
    have : br.size.2 ≠ 0 := by omega
    simpa using this
  have hor : (br.size.2 == 1 || decide (k ≤ 1)) = false := by
    have h1 : br.size.2 ≠ 1 := by omega
    have h2 : ¬ k ≤ 1 := by omega
    simp [h1, h2]
  have hpart : (br.partition k).2 =
      partitionPerBucket br.genAllDisjointSetLists br.genAllDisjointSetLists.orderedStates := by
    unfold partition
    simp only [size_gen, hne0, hor, hkb, Bool.false_eq_true, if_false, if_true]
  refine ⟨rs, by rw [hpart, hrs], hall.length_eq.symm,
    by rw [card_classes, ← hos]; exact hall.length_eq.symm,
    List.Forall₂.imp (fun kp r hr => ⟨hr.1, hr.2.1, hr.2.2.1⟩) hall, ?_⟩
  obtain ⟨it, hit, hen⟩ := enumerate_begin hinv
  rw [begin_fst, end_gen] at hen
  refine ⟨it, _, br.genAllDisjointSetLists.orderedStates.map
    (fun kp => kp.2.flatMap (fun a => kp.2.map (fun q => (a, q)))), hit, hen, ?_, ?_⟩
  · rw [List.forall₂_map_right_iff]
    refine List.Forall₂.flip (List.Forall₂.imp ?_ hall)
    intro kp r hr fuel hfuel
    rw [length_bucketPairs] at hfuel
    exact hr.2.2.2 fuel hfuel
  · rw [← hos]
    exact allPairs_eq_flatten _

/-- C34, on the relation with the classes `{1, 3}` and `{2, 4}` and `k = 2`. -/
theorem partition_one_range_per_bucket_witness :
    Reachable exampleC ∧ exampleC.size.2 = 8 ∧
    exampleC.genAllDisjointSetLists.orderedStates = [(3, [1, 3]), (4, [2, 4])] ∧
    ∃ rs, (exampleC.partition 2).2 = .ok rs ∧
      rs.length = exampleC.genAllDisjointSetLists.orderedStates.length ∧
      rs.length = exampleC.classes.card ∧
      List.Forall₂
        (fun kp r => iterator.mkWithin exampleC.addr kp.2 = .ok r.1 ∧
          r.1.ityp = IterType.WITHIN ∧ r.2 = exampleC.end)
        exampleC.genAllDisjointSetLists.orderedStates rs ∧
      ∃ it l ls, exampleC.begin.2 = .ok it ∧
        (∀ fuel, exampleC.size.2 < fuel → enumerate fuel it exampleC.end = .ok l) ∧
        List.Forall₂ (fun r lw => ∀ fuel, lw.length < fuel → pairsOf fuel r = .ok lw) rs ls ∧
        l = ls.flatten :=
  ⟨reachable_exampleC, by decide, by decide,
    partition_one_range_per_bucket exampleC 2 reachable_exampleC (by decide) (by decide)
      (by decide)⟩

/-! ## The split of a bucket into one range per member -/

theorem anteriorIt_of_not_key {br : BinaryRelation} (hfresh : br.statesMapStale = false)
    {i : DomainInt} (hi : i ∉ br.orderedStates.map Prod.fst) :
    (br.anteriorIt i).2 = .error Failure.assertFailed := by
  have hnone : List.lookup i br.orderedStates = none := by
    rw [List.lookup_eq_none_iff]
    intro p hp
    have : i ≠ p.1 := fun hc => hi (hc ▸ List.mem_map.2 ⟨p, hp, rfl⟩)
    simpa using this
  unfold anteriorIt
  simp only [gen_of_fresh hfresh]
  unfold findBucket
  rw [hnone]
  rfl

theorem anteriorIt_of_key {br : BinaryRelation} (hfresh : br.statesMapStale = false)
    (hkeys : (br.orderedStates.map Prod.fst).Nodup) (hne : ∀ kp ∈ br.orderedStates, kp.2 ≠ [])
    {kp : DomainInt × StatesBucket} (hkp : kp ∈ br.orderedStates) :
    ∃ it, (br.anteriorIt kp.1).2 = .ok it := by
  obtain ⟨h, t, hb⟩ : ∃ h t, kp.2 = h :: t := by
    cases hb : kp.2 with
    | nil => exact absurd hb (hne kp hkp)
    | cons h t => exact ⟨h, t, rfl⟩
  refine ⟨⟨br.addr, false, IterType.ANTERIOR, (kp.1, h), h :: t, [], 0, 0⟩, ?_⟩
  unfold anteriorIt
  simp only [gen_of_fresh hfresh]
  rw [findBucket_of_mem hkeys hkp, hb]
  exact iterator.mkAnterior_cons br.addr kp.1 h t

theorem anteriorIt_cases {br : BinaryRelation} (hfresh : br.statesMapStale = false)
    (hkeys : (br.orderedStates.map Prod.fst).Nodup) (hne : ∀ kp ∈ br.orderedStates, kp.2 ≠ [])
    (i : DomainInt) :
    (∃ it, (br.anteriorIt i).2 = .ok it) ∨ (br.anteriorIt i).2 = .error Failure.assertFailed := by
  by_cases hi : i ∈ br.orderedStates.map Prod.fst
  · obtain ⟨kp, hkp, rfl⟩ := List.mem_map.1 hi
    exact Or.inl (anteriorIt_of_key hfresh hkeys hne hkp)
  · exact Or.inr (anteriorIt_of_not_key hfresh hi)

/-- The member loop of `partition` completes or aborts on the assert of
`anteriorIt`, and it aborts when a member is not a key of the map. -/
theorem partitionMembers_cases {br : BinaryRelation} (hfresh : br.statesMapStale = false)
    (hkeys : (br.orderedStates.map Prod.fst).Nodup) (hne : ∀ kp ∈ br.orderedStates, kp.2 ≠ []) :
    ∀ b : StatesBucket,
      ((∃ rs, partitionMembers br b = .ok rs) ∨
        partitionMembers br b = .error Failure.assertFailed) ∧
      ((∃ i ∈ b, i ∉ br.orderedStates.map Prod.fst) →
        partitionMembers br b = .error Failure.assertFailed) := by
  intro b
  induction b with
  | nil =>
    refine ⟨Or.inl ⟨[], rfl⟩, ?_⟩
    rintro ⟨i, hi, _⟩
    simp at hi
  | cons i rest ih =>
    rcases anteriorIt_cases hfresh hkeys hne i with ⟨it, hit⟩ | herr
    · rcases ih.1 with ⟨rs, hrs⟩ | hrest
      · constructor
        · left
          exact ⟨make_range it br.end :: rs, by rw [partitionMembers, hit, hrs]; rfl⟩
        · rintro ⟨j, hj, hjk⟩
          rcases List.mem_cons.1 hj with rfl | hj
          · have := anteriorIt_of_not_key hfresh hjk
            rw [hit] at this
            cases this
          · have := ih.2 ⟨j, hj, hjk⟩
            rw [hrs] at this
            cases this
      · have : partitionMembers br (i :: rest) = .error Failure.assertFailed := by
          rw [partitionMembers, hit, hrest]; rfl
        exact ⟨Or.inr this, fun _ => this⟩
    · have : partitionMembers br (i :: rest) = .error Failure.assertFailed := by
        rw [partitionMembers, herr]; rfl
      exact ⟨Or.inr this, fun _ => this⟩

/-- The second loop of `partition` completes or aborts on the assert of
`anteriorIt`, and it aborts when a bucket that is split has a member that is
not a key of the map. -/
theorem partitionSplit_cases {br : BinaryRelation} (hfresh : br.statesMapStale = false)
    (hkeys : (br.orderedStates.map Prod.fst).Nodup) (hne : ∀ kp ∈ br.orderedStates, kp.2 ≠ [])
    (perchunk : Nat) :
    ∀ m : StatesMap, (∀ kp ∈ m, kp ∈ br.orderedStates) →
      ((∃ rs, partitionSplit br perchunk m = .ok rs) ∨
        partitionSplit br perchunk m = .error Failure.assertFailed) ∧
      ((∃ kp ∈ m, kp.2.length * kp.2.length > perchunk ∧
          ∃ i ∈ kp.2, i ∉ br.orderedStates.map Prod.fst) →
        partitionSplit br perchunk m = .error Failure.assertFailed) := by
  intro m
  induction m with
  | nil =>
    intro _
    refine ⟨Or.inl ⟨[], rfl⟩, ?_⟩
    rintro ⟨kp, hkp, _⟩
    simp at hkp
  | cons itp rest ih =>
    intro hsub
    have ihr := ih (fun q hq => hsub q (List.mem_cons_of_mem _ hq))
    have hhere : ((∃ here, (if itp.2.length * itp.2.length > perchunk
            then partitionMembers br itp.2
            else (br.closure itp.1).2 >>= fun it => .ok [make_range it br.end]) = .ok here) ∨
          (if itp.2.length * itp.2.length > perchunk
            then partitionMembers br itp.2
            else (br.closure itp.1).2 >>= fun it => .ok [make_range it br.end]) =
              .error Failure.assertFailed) ∧
        ((itp.2.length * itp.2.length > perchunk ∧
            ∃ i ∈ itp.2, i ∉ br.orderedStates.map Prod.fst) →
          (if itp.2.length * itp.2.length > perchunk
            then partitionMembers br itp.2
            else (br.closure itp.1).2 >>= fun it => .ok [make_range it br.end]) =
              .error Failure.assertFailed) := by
      by_cases hs : itp.2.length * itp.2.length > perchunk
      · rw [if_pos hs]
        have := partitionMembers_cases hfresh hkeys hne itp.2
        exact ⟨this.1, fun hx => this.2 hx.2⟩
      · rw [if_neg hs]
        obtain ⟨itw, h1, _⟩ :=
          closure_buckets hfresh hkeys hne (hsub itp (List.mem_cons_self _ _))
        refine ⟨Or.inl ⟨[make_range itw br.end], by rw [h1]; rfl⟩, fun hx => absurd hx.1 hs⟩
    rcases hhere.1 with ⟨here, hh⟩ | herr
    · rcases ihr.1 with ⟨rs, hrs⟩ | hrest
      · constructor
        · left
          exact ⟨here ++ rs, by rw [partitionSplit, hh, hrs]; rfl⟩
        · rintro ⟨kp, hkp, hbig, hbad⟩
          rcases List.mem_cons.1 hkp with rfl | hkp
          · have := hhere.2 ⟨hbig, hbad⟩
            rw [hh] at this
            cases this
          · have := ihr.2 ⟨kp, hkp, hbig, hbad⟩
            rw [hrs] at this
            cases this
      · have : partitionSplit br perchunk (itp :: rest) = .error Failure.assertFailed := by
          rw [partitionSplit, hh, hrest]; rfl
        exact ⟨Or.inr this, fun _ => this⟩
    · have : partitionSplit br perchunk (itp :: rest) = .error Failure.assertFailed := by
        rw [partitionSplit, herr]; rfl
      exact ⟨Or.inr this, fun _ => this⟩

/-- In a fresh cache, a bucket of two or more members has a member that is not
a key of the map. -/
theorem exists_member_not_key {s : SparseDisjointSet} (h : s.WF)
    {kp : DomainInt × StatesBucket} (hkp : kp ∈ cacheOf s) (h2 : 2 ≤ kp.2.length) :
    ∃ i ∈ kp.2, i ∉ (cacheOf s).map Prod.fst := by
  obtain ⟨_, hk, hb⟩ := cacheOf_spec h
  obtain ⟨hnd, hmem⟩ := hb kp hkp
  have hex : ∃ v ∈ kp.2, v ≠ kp.1 := by
    obtain ⟨k, b⟩ := kp
    match b, h2, hnd with
    | x :: y :: t, _, hnd =>
      by_cases hx : x = k
      · refine ⟨y, by simp, ?_⟩
        intro hy
        simp only [List.nodup_cons, List.mem_cons] at hnd
        exact hnd.1 (Or.inl (hx.trans hy.symm))
      · exact ⟨x, by simp, hx⟩
  obtain ⟨v, hv, hvk⟩ := hex
  refine ⟨v, hv, ?_⟩
  intro hkey
  obtain ⟨w, hw, hwv⟩ := (hk v).1 hkey
  have hfv : s.readOnlyFindNode v = v := by
    rw [← hwv]
    exact SparseDisjointSet.find_find h ((SparseDisjointSet.nodeExists_iff s w).1 hw)
  exact hvk (hfv.symm.trans ((hmem v).1 hv).2)

/-- C33: in a reachable state with `size() ≥ 2`, `k ≥ 2` and fewer buckets than
`k`, `partition(k)` aborts on the assert of `anteriorIt` as soon as a bucket
of two or more members is to be split (`|B|² > size()/k`): the member loop
calls `anteriorIt` on a member that is not the key of its bucket. -/
theorem partition_aborts_when_class_split (br : BinaryRelation) (k : Nat) (h : Reachable br)
    (hsize : 2 ≤ br.size.2) (hk : 2 ≤ k)
    (hkb : br.genAllDisjointSetLists.orderedStates.length < k)
    (kp : DomainInt × StatesBucket) (hkp : kp ∈ br.genAllDisjointSetLists.orderedStates)
    (hbig : kp.2.length * kp.2.length > br.size.2 / k) (h2 : 2 ≤ kp.2.length) :
    (br.partition k).2 = .error Failure.assertFailed := by
  have hinv : Inv br := h.inv
  have hfresh1 := stale_gen br
  have hos := orderedStates_gen hinv
  have hkeys : (br.genAllDisjointSetLists.orderedStates.map Prod.fst).Nodup := by
    rw [hos]; exact (cacheOf_spec hinv.1).1
  have hne : ∀ kp ∈ br.genAllDisjointSetLists.orderedStates, kp.2 ≠ [] := by
    rw [hos]; exact fun kp hkp => bucket_ne_nil_of_mem_cacheOf hkp
  have hne0 : (br.size.2 == 0) = false := by
    have : br.size.2 ≠ 0 := by omega
    simpa using this
  have hor : (br.size.2 == 1 || decide (k ≤ 1)) = false := by
    have h1 : br.size.2 ≠ 1 := by omega
    have h2 : ¬ k ≤ 1 := by omega
    simp [h1, h2]
  have hnk : ¬ k ≤ br.genAllDisjointSetLists.orderedStates.length := by omega
  have hpart : (br.partition k).2 =
      partitionSplit br.genAllDisjointSetLists (br.size.2 / k)
        br.genAllDisjointSetLists.orderedStates := by
    unfold partition
    simp only [size_gen, hne0, hor, hnk, Bool.false_eq_true, if_false]
  rw [hpart]
  refine (partitionSplit_cases hfresh1 hkeys hne (br.size.2 / k)
    br.genAllDisjointSetLists.orderedStates (fun _ hq => hq)).2 ⟨kp, hkp, hbig, ?_⟩
  rw [hos] at hkp ⊢
  exact exists_member_not_key hinv.1 hkp h2

/-- C33, on the relation with the classes `{1, 3}` and `{2, 4}` and `k = 3`:
`size()` is 8, there are two buckets, `8 / 3 = 2 < 4`, and `partition(3)`
aborts where four ANTERIOR ranges are claimed. -/
theorem partition_aborts_when_class_split_witness :
    Reachable exampleC ∧ exampleC.size.2 = 8 ∧
    exampleC.genAllDisjointSetLists.orderedStates = [(3, [1, 3]), (4, [2, 4])] ∧
    (exampleC.partition 3).2 = .error Failure.assertFailed :=
  ⟨reachable_exampleC, by decide, by decide,
    partition_aborts_when_class_split exampleC 3 reachable_exampleC (by decide) (by decide)
      (by decide) (3, [1, 3]) (by decide) (by decide) (by decide)⟩

/-! ## The materialization of one class -/

theorem genDJSetList_fields (br : BinaryRelation) (val : DomainInt) :
    (br.genDJSetList val).1.statesMapStale = br.statesMapStale ∧
    (br.genDJSetList val).1.sds = br.sds ∧
    (br.genDJSetList val).1.addr = br.addr := by
  unfold genDJSetList
  split
  · exact ⟨rfl, rfl, rfl⟩
  · split
    · exact ⟨rfl, rfl, rfl⟩
    · simp only
      cases List.lookup (br.sds.readOnlyFindNode val) br.orderedStates <;> exact ⟨rfl, rfl, rfl⟩

/-- The regeneration of a stale cache does not depend on what the map held. -/
theorem gen_congr_of_stale {a b : BinaryRelation} (ha : a.statesMapStale = true)
    (hb : b.statesMapStale = true) (hsds : a.sds = b.sds) (haddr : a.addr = b.addr) :
    a.genAllDisjointSetLists = b.genAllDisjointSetLists := by
  unfold genAllDisjointSetLists
  simp only [ha, hb, Bool.not_true, Bool.false_eq_true, if_false, hsds]
  cases a
  cases b
  simp only at haddr hsds
  simp [haddr, hsds]

/-- C36: `genDJSetList(val)` leaves the staleness flag as it is, so a flag that
is set stays set; the union-find is left as it is too, and the refresh that
`size()`, `begin()` and `partition` start with gives the same object as
without the call: what `genDJSetList` put in the map is discarded. -/
theorem genDJSetList_keeps_stale (br : BinaryRelation) (val : DomainInt)
    (hstale : br.statesMapStale = true) :
    (br.genDJSetList val).1.statesMapStale = true ∧
    (br.genDJSetList val).1.sds = br.sds ∧
    (br.genDJSetList val).1.genAllDisjointSetLists = br.genAllDisjointSetLists ∧
    (br.genDJSetList val).1.size = br.size ∧
    (br.genDJSetList val).1.begin = br.begin ∧
    ∀ k, (br.genDJSetList val).1.partition k = br.partition k := by
  obtain ⟨h1, h2, h3⟩ := genDJSetList_fields br val
  have hgen : (br.genDJSetList val).1.genAllDisjointSetLists = br.genAllDisjointSetLists :=
    gen_congr_of_stale (h1.trans hstale) hstale h2 h3
  refine ⟨h1.trans hstale, h2, hgen, ?_, ?_, ?_⟩
  · unfold size; rw [hgen]
  · unfold begin; rw [hgen]
  · intro k; unfold partition; rw [hgen]

/-- C36, on the relation with the single class `{1, 2}`: `genDJSetList(1)`
stores an entry in the map, the flag stays set, and `size()` is 4 afterwards. -/
theorem genDJSetList_keeps_stale_witness :
    exampleA.statesMapStale = true ∧
    (exampleA.genDJSetList 1).1.orderedStates ≠ [] ∧
    (exampleA.genDJSetList 1).1.size.2 = 4 ∧
    ((exampleA.genDJSetList 1).1.statesMapStale = true ∧
      (exampleA.genDJSetList 1).1.sds = exampleA.sds ∧
      (exampleA.genDJSetList 1).1.genAllDisjointSetLists = exampleA.genAllDisjointSetLists ∧
      (exampleA.genDJSetList 1).1.size = exampleA.size ∧
      (exampleA.genDJSetList 1).1.begin = exampleA.begin ∧
      ∀ k, (exampleA.genDJSetList 1).1.partition k = exampleA.partition k) :=
  ⟨by decide, by decide, by decide, genDJSetList_keeps_stale exampleA 1 (by decide)⟩

/-! ## Copy assignment -/

/-- C37: copy assignment into an object whose staleness flag is clear (a newly
constructed one, or one whose cache has just been rebuilt) copies the
union-find and empties the map but leaves the flag clear, so the emptied map
passes for fresh: whatever the assigned relation holds, `size()` is 0
afterwards and the loop from `begin()` to `end()` yields no pair. -/
theorem operatorAssign_loses_content (a b : BinaryRelation) (haddr : a.addr ≠ b.addr)
    (hfresh : a.statesMapStale = false) :
    (a.operatorAssign b).sds = b.sds ∧
    (a.operatorAssign b).statesMapStale = false ∧
    (a.operatorAssign b).orderedStates = [] ∧
    (a.operatorAssign b).size.2 = 0 ∧
    ∃ it, (a.operatorAssign b).begin.2 = .ok it ∧
      ∀ fuel, 0 < fuel → enumerate fuel it (a.operatorAssign b).end = .ok [] := by
  have hne : (a.addr == b.addr) = false := by simpa using haddr
  have hop : a.operatorAssign b = { a with sds := b.sds, orderedStates := [] } := by
    unfold operatorAssign
    rw [hne]
    rfl
  have hf : (a.operatorAssign b).statesMapStale = false := by rw [hop]; exact hfresh
  have ho : (a.operatorAssign b).orderedStates = [] := by rw [hop]
  refine ⟨by rw [hop], hf, ho, ?_, ?_⟩
  · rw [size_of_fresh hf, ho]
    rfl
  · obtain ⟨it, hit, hen⟩ := enumerate_mkAll (a.operatorAssign b).addr [] (by simp)
    refine ⟨it, ?_, ?_⟩
    · unfold begin
      simp only [gen_of_fresh hf, ho]
      exact hit
    · intro fuel hfuel
      exact hen fuel (by simpa [allPairs] using hfuel)

/-- C37, with a newly constructed relation assigned the relation with the
single class `{1, 2}`, of size 4. -/
theorem operatorAssign_loses_content_witness :
    exampleA.size.2 = 4 ∧ (BinaryRelation.new 5).statesMapStale = false ∧
    (((BinaryRelation.new 5).operatorAssign exampleA).sds = exampleA.sds ∧
      ((BinaryRelation.new 5).operatorAssign exampleA).statesMapStale = false ∧
      ((BinaryRelation.new 5).operatorAssign exampleA).orderedStates = [] ∧
      ((BinaryRelation.new 5).operatorAssign exampleA).size.2 = 0 ∧
      ∃ it, ((BinaryRelation.new 5).operatorAssign exampleA).begin.2 = .ok it ∧
        ∀ fuel, 0 < fuel →
          enumerate fuel it ((BinaryRelation.new 5).operatorAssign exampleA).end = .ok []) :=
  ⟨by decide, by decide,
    operatorAssign_loses_content (BinaryRelation.new 5) exampleA (by decide) (by decide)⟩

/-! ## The exact effect of `insert` -/

theorem RelatedWith_left (br : BinaryRelation) (x y u : DomainInt) :
    RelatedWith br x y u x ↔ (u = x ∨ br.contains u x = true) := by
  unfold RelatedWith
  constructor
  · rintro (h | ⟨h, _⟩ | ⟨h, h1⟩)
    · exact Or.inr h
    · exact Or.inl h
    · exact Or.inl (h.trans h1.symm)
  · rintro (h | h)
    · exact Or.inr (Or.inl ⟨h, rfl⟩)
    · exact Or.inl h

theorem RelatedWith_right (br : BinaryRelation) (x y u : DomainInt) :
    RelatedWith br x y u y ↔ (u = y ∨ br.contains u y = true) := by
  unfold RelatedWith
  constructor
  · rintro (h | ⟨h, h1⟩ | ⟨h, _⟩)
    · exact Or.inr h
    · exact Or.inl (h.trans h1.symm)
    · exact Or.inl h
  · rintro (h | h)
    · exact Or.inr (Or.inr ⟨h, rfl⟩)
    · exact Or.inl h

theorem contains_insert {br : BinaryRelation} (h : br.sds.WF) (x y u v : DomainInt) :
    (br.insert x y).1.contains u v = true ↔
      RelatedWith br x y u v ∨ (RelatedWith br x y u x ∧ RelatedWith br x y v y) ∨
        (RelatedWith br x y u y ∧ RelatedWith br x y v x) := by
  rw [RelatedWith_left, RelatedWith_left, RelatedWith_right, RelatedWith_right]
  have := SparseDisjointSet.contains_unionNodes h x y u v
  unfold insert contains RelatedWith
  simp only
  unfold contains
  rw [this]
  constructor
  · rintro (h1 | h1 | h1 | h1 | h1)
    · exact Or.inl (Or.inl h1)
    · exact Or.inl (Or.inr (Or.inl h1))
    · exact Or.inl (Or.inr (Or.inr h1))
    · exact Or.inr (Or.inl h1)
    · exact Or.inr (Or.inr h1)
  · rintro ((h1 | h1 | h1) | h1 | h1)
    · exact Or.inl h1
    · exact Or.inr (Or.inl h1)
    · exact Or.inr (Or.inr (Or.inl h1))
    · exact Or.inr (Or.inr (Or.inr (Or.inl h1)))
    · exact Or.inr (Or.inr (Or.inr (Or.inr h1)))

theorem pairs_insert_new {br : BinaryRelation} (h : br.sds.WF) {x : DomainInt}
    (hx : br.containsElement x = false) :
    (br.insert x x).1.pairs = Insert.insert (x, x) br.pairs ∧ (x, x) ∉ br.pairs := by
  have hnx : ∀ u, ¬ br.contains u x = true := by
    intro u hu
    have := (SparseDisjointSet.mem_domain_of_contains hu).2
    rw [← SparseDisjointSet.nodeExists_iff] at this
    unfold containsElement at hx
    rw [hx] at this
    cases this
  constructor
  · ext ⟨u, v⟩
    rw [mem_pairs, Finset.mem_insert, mem_pairs, contains_insert h, RelatedWith_left,
      RelatedWith_left, Prod.mk.injEq]
    unfold RelatedWith
    constructor
    · rintro ((h1 | h1 | h1) | ⟨h1, h2⟩ | ⟨h1, h2⟩)
      · exact Or.inr h1
      · exact Or.inl h1
      · exact Or.inl h1
      · exact Or.inl ⟨h1.resolve_right (hnx u), h2.resolve_right (hnx v)⟩
      · exact Or.inl ⟨h1.resolve_right (hnx u), h2.resolve_right (hnx v)⟩
    · rintro (h1 | h1)
      · exact Or.inl (Or.inr (Or.inl h1))
      · exact Or.inl (Or.inl h1)
  · rw [mem_pairs]
    exact hnx x

/-- C38: in a reachable state, after `insert(x, y)` the pair `(u, v)` is
contained iff, with `~` the relation before the call extended by `x ~ x` and
`y ~ y`, `u ~ v`, or `u ~ x` and `v ~ y`, or `u ~ y` and `v ~ x`. No related
pair is lost, a pair whose first element is related to neither `x` nor `y` is
contained after the call iff it was before, and `insert(x, x)` for a new `x`
adds exactly the pair `(x, x)`, so that `size()` grows by 1 (stated for every
new element `z`). -/
theorem insert_exact_effect (br : BinaryRelation) (x y : DomainInt) (h : Reachable br) :
    (∀ u v, (br.insert x y).1.contains u v = true ↔
      RelatedWith br x y u v ∨ (RelatedWith br x y u x ∧ RelatedWith br x y v y) ∨
        (RelatedWith br x y u y ∧ RelatedWith br x y v x)) ∧
    (∀ u v, br.contains u v = true → (br.insert x y).1.contains u v = true) ∧
    (∀ u v, ¬ RelatedWith br x y u x → ¬ RelatedWith br x y u y →
      (br.insert x y).1.contains u v = br.contains u v) ∧
    (∀ z, br.containsElement z = false →
      (br.insert z z).1.pairs = Insert.insert (z, z) br.pairs ∧
      (br.insert z z).1.size.2 = br.size.2 + 1) := by
  have hinv : Inv br := h.inv
  refine ⟨contains_insert hinv.1 x y, ?_, ?_, ?_⟩
  · intro u v huv
    rw [contains_insert hinv.1]
    exact Or.inl (Or.inl huv)
  · intro u v hux huy
    rw [Bool.eq_iff_iff, contains_insert hinv.1]
    constructor
    · rintro (h1 | h1 | h1)
      · rcases h1 with h1 | ⟨h1, _⟩ | ⟨h1, _⟩
        · exact h1
        · exact absurd (Or.inr (Or.inl ⟨h1, rfl⟩)) hux
        · exact absurd (Or.inr (Or.inr ⟨h1, rfl⟩)) huy
      · exact absurd h1.1 hux
      · exact absurd h1.1 huy
    · exact fun h1 => Or.inl (Or.inl h1)
  · intro z hz
    obtain ⟨hp, hnot⟩ := pairs_insert_new hinv.1 hz
    refine ⟨hp, ?_⟩
    rw [← card_pairs (Inv_insert hinv z z), ← card_pairs hinv, hp,
      Finset.card_insert_of_not_mem hnot]

/-- C38, on the relation with the single class `{1, 2}`: `insert(2, 3)` puts 3
in the class, and `insert(7, 7)` takes `size()` from 4 to 5. -/
theorem insert_exact_effect_witness :
    Reachable exampleA ∧ exampleA.size.2 = 4 ∧ (exampleA.insert 7 7).1.size.2 = 5 ∧
    (exampleA.insert 2 3).1.contains 1 3 = true ∧
    ((∀ u v, (exampleA.insert 2 3).1.contains u v = true ↔
      RelatedWith exampleA 2 3 u v ∨
        (RelatedWith exampleA 2 3 u 2 ∧ RelatedWith exampleA 2 3 v 3) ∨
        (RelatedWith exampleA 2 3 u 3 ∧ RelatedWith exampleA 2 3 v 2)) ∧
    (∀ u v, exampleA.contains u v = true → (exampleA.insert 2 3).1.contains u v = true) ∧
    (∀ u v, ¬ RelatedWith exampleA 2 3 u 2 → ¬ RelatedWith exampleA 2 3 u 3 →
      (exampleA.insert 2 3).1.contains u v = exampleA.contains u v) ∧
    (∀ z, exampleA.containsElement z = false →
      (exampleA.insert z z).1.pairs = Insert.insert (z, z) exampleA.pairs ∧
      (exampleA.insert z z).1.size.2 = exampleA.size.2 + 1)) :=
  ⟨reachable_exampleA, by decide, by decide, by decide,
    insert_exact_effect exampleA 2 3 reachable_exampleA⟩

end BinaryRelation

/-! ## The cursor invariant of the iterator -/

namespace iterator

theorem mkAll_cons (addr : Nat) (k h : DomainInt) (t : StatesBucket) (rest : StatesMap) :
    mkAll addr ((k, h :: t) :: rest) =
      .ok ⟨addr, false, IterType.ALL, (h, h), h :: t, (k, h :: t) :: rest, 0, 0⟩ := by
  simp [mkAll, init, updateAnterior, updatePosterior, get, setAnterior, setPosterior, bind,
    Except.bind]

theorem isEndVal_of_next_ok {it it1 : iterator} (h : it.next = .ok it1) : it.isEndVal = false := by
  cases he : it.isEndVal
  · rfl
  · unfold next at h
    rw [he] at h
    simp at h

/-- One `operator++` of an ALL iterator whose cursor is in bounds, on the first
bucket of the rest of a map without empty bucket: it succeeds and leaves such
an iterator or the end. -/
theorem next_ALL_good (it : iterator) (hend : it.isEndVal = false) (hty : it.ityp = IterType.ALL)
    (hc : CursorInBounds it)
    (hmap : ∃ k rest, it.djSetMapListIt = (k, it.djSetList) :: rest ∧ ∀ kp ∈ rest, kp.2 ≠ []) :
    ∃ it1, it.next = .ok it1 ∧ it1.ityp = IterType.ALL ∧ CursorInBounds it1 ∧
      (it1.isEndVal = false →
        ∃ k rest, it1.djSetMapListIt = (k, it1.djSetList) :: rest ∧ ∀ kp ∈ rest, kp.2 ≠ []) := by
  obtain ⟨addr, e, ty, ⟨a, p⟩, b, m, i, j⟩ := it
  simp only at hend hty hmap
  subst hend hty
  obtain ⟨hi, hj, ha, hp⟩ := hc rfl
  simp only at hi hj ha hp
  obtain ⟨k, rest, rfl, hrest⟩ := hmap
  by_cases hj1 : j + 1 < b.length
  · have hq : b[j + 1]? = some b[j + 1] := List.getElem?_eq_getElem hj1
    exact ⟨_, next_ALL_posterior addr a p _ i hj1 hq, rfl, fun _ => ⟨hi, hj1, ha, hq⟩,
      fun _ => ⟨k, rest, rfl, hrest⟩⟩
  · have hj2 : j + 1 = b.length := by omega
    by_cases hi1 : i + 1 < b.length
    · have h0 : 0 < b.length := by omega
      have ha1 : b[i + 1]? = some b[i + 1] := List.getElem?_eq_getElem hi1
      have hh : b[0]? = some b[0] := List.getElem?_eq_getElem h0
      exact ⟨_, next_ALL_anterior addr a p _ hj2 hi1 ha1 hh, rfl, fun _ => ⟨hi1, h0, ha1, hh⟩,
        fun _ => ⟨k, rest, rfl, hrest⟩⟩
    · have hi2 : i + 1 = b.length := by omega
      cases rest with
      | nil =>
        refine ⟨_, next_ALL_end addr a p (k, b) hj2 hi2, rfl, ?_, ?_⟩
        · intro hc; cases hc
        · intro hc; cases hc
      | cons kp2 rest2 =>
        obtain ⟨k2, b2⟩ := kp2
        obtain ⟨h, t, rfl⟩ : ∃ h t, b2 = h :: t := by
          cases b2 with
          | nil => exact absurd rfl (hrest (k2, []) (List.mem_cons_self _ _))
          | cons h t => exact ⟨h, t, rfl⟩
        refine ⟨_, next_ALL_bucket addr a p h t (k, b) k2 rest2 hj2 hi2, rfl, ?_, ?_⟩
        · intro _
          exact ⟨by simp, by simp, by simp, by simp⟩
        · intro _
          exact ⟨k2, rest2, rfl, fun kp hkp => hrest kp (List.mem_cons_of_mem _ hkp)⟩

/-- One `operator++` of a WITHIN iterator whose cursor is in bounds: it
succeeds and leaves such an iterator or the end. -/
theorem next_WITHIN_good (it : iterator) (hend : it.isEndVal = false)
    (hty : it.ityp = IterType.WITHIN) (hc : CursorInBounds it) :
    ∃ it1, it.next = .ok it1 ∧ it1.ityp = IterType.WITHIN ∧ CursorInBounds it1 := by
  obtain ⟨addr, e, ty, ⟨a, p⟩, b, m, i, j⟩ := it
  simp only at hend hty
  subst hend hty
  obtain ⟨hi, hj, ha, hp⟩ := hc rfl
  simp only at hi hj ha hp
  by_cases hj1 : j + 1 < b.length
  · have hq : b[j + 1]? = some b[j + 1] := List.getElem?_eq_getElem hj1
    exact ⟨_, next_WITHIN_posterior addr a p m i hj1 hq, rfl, fun _ => ⟨hi, hj1, ha, hq⟩⟩
  · have hj2 : j + 1 = b.length := by omega
    by_cases hi1 : i + 1 < b.length
    · have h0 : 0 < b.length := by omega
      have ha1 : b[i + 1]? = some b[i + 1] := List.getElem?_eq_getElem hi1
      have hh : b[0]? = some b[0] := List.getElem?_eq_getElem h0
      exact ⟨_, next_WITHIN_anterior addr a p m hj2 hi1 ha1 hh, rfl, fun _ => ⟨hi1, h0, ha1, hh⟩⟩
    · have hi2 : i + 1 = b.length := by omega
      refine ⟨_, next_WITHIN_end addr a p m hj2 hi2, rfl, ?_⟩
      intro hc; cases hc

/-- Every iterator a run of `operator++` reaches from a good ALL iterator is a
good ALL iterator or the end. -/
theorem advances_ALL (it0 : iterator) (hty : it0.ityp = IterType.ALL) (hc : CursorInBounds it0)
    (hmap : it0.isEndVal = false →
      ∃ k rest, it0.djSetMapListIt = (k, it0.djSetList) :: rest ∧ ∀ kp ∈ rest, kp.2 ≠ [])
    {it : iterator} (hadv : Advances it0 it) :
    it.ityp = IterType.ALL ∧ CursorInBounds it ∧
      (it.isEndVal = false →
        ∃ k rest, it.djSetMapListIt = (k, it.djSetList) :: rest ∧ ∀ kp ∈ rest, kp.2 ≠ []) := by
  induction hadv with
  | refl => exact ⟨hty, hc, hmap⟩
  | step _ hbc ih =>
    have hend := isEndVal_of_next_ok hbc
    obtain ⟨it1, h1, h2⟩ := next_ALL_good _ hend ih.1 ih.2.1 (ih.2.2 hend)
    rw [hbc] at h1
    cases h1
    exact h2

/-- Every iterator a run of `operator++` reaches from a WITHIN iterator whose
cursor is in bounds is such an iterator or the end. -/
theorem advances_WITHIN (it0 : iterator) (hty : it0.ityp = IterType.WITHIN)
    (hc : CursorInBounds it0) {it : iterator} (hadv : Advances it0 it) :
    it.ityp = IterType.WITHIN ∧ CursorInBounds it := by
  induction hadv with
  | refl => exact ⟨hty, hc⟩
  | step _ hbc ih =>
    have hend := isEndVal_of_next_ok hbc
    obtain ⟨it1, h1, h2⟩ := next_WITHIN_good _ hend ih.1 ih.2
    rw [hbc] at h1
    cases h1
    exact h2

end iterator

/-- C39: the ALL iterator over a map without empty bucket and the WITHIN
iterator over a non-empty bucket are built, and every iterator that a run of
`operator++` reaches from them has, when it is not at end, both indices
strictly below the size of the current bucket and as current pair the pair of
the two members under the indices; from there `operator++` succeeds, so no
bucket is read out of bounds. -/
theorem cursor_stays_in_bounds (addr : Nat) (m : StatesMap) (b : StatesBucket)
    (hm : ∀ kp ∈ m, kp.2 ≠ []) (hb : b ≠ []) :
    (∃ it0, iterator.mkAll addr m = .ok it0 ∧
      ∀ it, Advances it0 it →
        CursorInBounds it ∧ (it.isEndVal = false → ∃ it1, it.next = .ok it1)) ∧
    (∃ it0, iterator.mkWithin addr b = .ok it0 ∧
      ∀ it, Advances it0 it →
        CursorInBounds it ∧ (it.isEndVal = false → ∃ it1, it.next = .ok it1)) := by
  constructor
  · cases m with
    | nil =>
      refine ⟨_, rfl, ?_⟩
      intro it hadv
      have := iterator.advances_ALL { iterator.init addr IterType.ALL [] [] with
        isEndVal := true } rfl (fun hc => by cases hc) (fun hc => by cases hc) hadv
      refine ⟨this.2.1, fun hend => ?_⟩
      obtain ⟨it1, h1, _⟩ := iterator.next_ALL_good it hend this.1 this.2.1 (this.2.2 hend)
      exact ⟨it1, h1⟩
    | cons kp rest =>
      obtain ⟨k, b1⟩ := kp
      obtain ⟨h, t, rfl⟩ : ∃ h t, b1 = h :: t := by
        cases b1 with
        | nil => exact absurd rfl (hm (k, []) (List.mem_cons_self _ _))
        | cons h t => exact ⟨h, t, rfl⟩
      refine ⟨_, iterator.mkAll_cons addr k h t rest, ?_⟩
      intro it hadv
      have := iterator.advances_ALL
        ⟨addr, false, IterType.ALL, (h, h), h :: t, (k, h :: t) :: rest, 0, 0⟩ rfl
        (fun _ => ⟨by simp, by simp, by simp, by simp⟩)
        (fun _ => ⟨k, rest, rfl, fun kp hkp => hm kp (List.mem_cons_of_mem _ hkp)⟩) hadv
      refine ⟨this.2.1, fun hend => ?_⟩
      obtain ⟨it1, h1, _⟩ := iterator.next_ALL_good it hend this.1 this.2.1 (this.2.2 hend)
      exact ⟨it1, h1⟩
  · obtain ⟨h, t, rfl⟩ : ∃ h t, b = h :: t := by
      cases b with
      | nil => exact absurd rfl hb
      | cons h t => exact ⟨h, t, rfl⟩
    refine ⟨_, iterator.mkWithin_cons addr h t, ?_⟩
    intro it hadv
    have := iterator.advances_WITHIN
      ⟨addr, false, IterType.WITHIN, (h, h), h :: t, [], 0, 0⟩ rfl
      (fun _ => ⟨by simp, by simp, by simp, by simp⟩) hadv
    refine ⟨this.2, fun hend => ?_⟩
    obtain ⟨it1, h1, _⟩ := iterator.next_WITHIN_good it hend this.1 this.2
    exact ⟨it1, h1⟩

/-- C39, on the map with the buckets `[2, 3, 4]` and `[10, 11]` and on the
bucket `[2, 3, 4]`. -/
theorem cursor_stays_in_bounds_witness :
    (∀ kp ∈ ([(4, [2, 3, 4]), (11, [10, 11])] : StatesMap), kp.2 ≠ []) ∧
    ([2, 3, 4] : StatesBucket) ≠ [] ∧
    ((∃ it0, iterator.mkAll 0 [(4, [2, 3, 4]), (11, [10, 11])] = .ok it0 ∧
      ∀ it, Advances it0 it →
        CursorInBounds it ∧ (it.isEndVal = false → ∃ it1, it.next = .ok it1)) ∧
    (∃ it0, iterator.mkWithin 0 [2, 3, 4] = .ok it0 ∧
      ∀ it, Advances it0 it →
        CursorInBounds it ∧ (it.isEndVal = false → ∃ it1, it.next = .ok it1))) :=
  ⟨by decide, by decide,
    cursor_stays_in_bounds 0 [(4, [2, 3, 4]), (11, [10, 11])] [2, 3, 4] (by decide) (by decide)⟩

namespace OrderingContext

/-! ## The ordering context stores the inverse of an order -/

/-- The decode loop writes the position of every entry at the entry's index and
leaves the other indices as they are. -/
theorem decodeLoop_spec (order : List Nat) :
    ∀ (i : Nat) (d : List Nat), (∀ o ∈ order, o < d.length) →
      ∃ d1, decodeLoop order i d = some d1 ∧ d1.length = d.length ∧
        (order.Nodup → ∀ (j : Nat) (hj : j < order.length),
          d1[order[j]]? = some ((i + j) % 2 ^ 32)) ∧
        (∀ e, e ∉ order → d1[e]? = d[e]?) := by
  induction order with
  | nil =>
    intro i d _
    exact ⟨d, rfl, rfl, fun _ j hj => absurd hj (by simp), fun _ _ => rfl⟩
  | cons o rest ih =>
    intro i d hlt
    have ho : o < d.length := hlt o (List.mem_cons_self _ _)
    obtain ⟨d1, h1, h2, h3, h4⟩ := ih (i + 1) (d.set o (i % 2 ^ 32)) (by
      intro q hq
      rw [List.length_set]
      exact hlt q (List.mem_cons_of_mem _ hq))
    refine ⟨d1, ?_, ?_, ?_, ?_⟩
    · rw [decodeLoop, if_pos ho]
      exact h1
    · rw [h2, List.length_set]
    · intro hnd j hj
      rw [List.nodup_cons] at hnd
      cases j with
      | zero =>
        simp only [List.getElem_cons_zero, Nat.add_zero]
        rw [h4 o hnd.1, List.getElem?_set, if_pos rfl, if_pos ho]
      | succ j =>
        simp only [List.getElem_cons_succ]
        have := h3 hnd.2 j (by simpa using hj)
        rw [this]
        congr 2
        omega
    · intro e he
      rw [List.mem_cons, not_or] at he
      rw [h4 e he.2, List.getElem?_set, if_neg (fun hc => he.1 hc.symm)]

theorem mapOrder_of_getElem? {ctx : OrderingContext} {tupleId : Nat} {d : List Nat}
    (h : ctx.tupleOrders[tupleId]? = some d) (e : Nat) : ctx.mapOrder tupleId e = d[e]? := by
  unfold mapOrder
  rw [h]

/-- What `insertOrder` leaves in the table: the decoded order under `tupleId`,
the other rows as they read before. -/
theorem insertOrder_of_decode (ctx : OrderingContext) (tupleId : Nat) (order d1 : List Nat)
    (hd : decodeLoop order 0 (List.replicate order.length 0) = some d1) :
    ∃ ctx1, ctx.insertOrder tupleId order = some ctx1 ∧
      (∀ e, ctx1.mapOrder tupleId e = d1[e]?) ∧
      (∀ t, t ≠ tupleId → ∀ e, ctx1.mapOrder t e = ctx.mapOrder t e) := by
  unfold insertOrder
  simp only [hd]
  refine ⟨_, rfl, ?_, ?_⟩
  · intro e
    apply mapOrder_of_getElem?
    simp only
    rw [List.getElem?_set, if_pos rfl, if_pos]
    by_cases hlen : tupleId ≥ ctx.tupleOrders.length
    · rw [if_pos hlen]
      unfold resize
      rw [if_neg (by omega)]
      simp
      omega
    · rw [if_neg hlen]
      omega
  · intro t ht e
    unfold mapOrder
    simp only
    rw [List.getElem?_set, if_neg (fun hc => ht hc.symm)]
    by_cases hlen : tupleId ≥ ctx.tupleOrders.length
    · rw [if_pos hlen]
      unfold resize
      rw [if_neg (by omega)]
      by_cases htl : t < ctx.tupleOrders.length
      · rw [List.getElem?_append_left htl]
      · rw [List.getElem?_append_right (by omega),
          List.getElem?_eq_none (l := ctx.tupleOrders) (by omega)]
        by_cases htr : t - ctx.tupleOrders.length < tupleId + 1 - ctx.tupleOrders.length
        · rw [List.getElem?_replicate, if_pos htr]
          simp
        · rw [List.getElem?_replicate, if_neg htr]
    · rw [if_neg hlen]

/-- What `insertOrder` does with an order that is a permutation of `0..n-1`
with `uint32_t` entries. -/
theorem insertOrder_spec (ctx : OrderingContext) (tupleId n : Nat) (order : List Nat)
    (hperm : order.Perm (List.range n)) (h32 : ∀ o ∈ order, o < 2 ^ 32) :
    ∃ ctx1, ctx.insertOrder tupleId order = some ctx1 ∧
      (∀ (i : Nat) (hi : i < order.length), ctx1.mapOrder tupleId order[i] = some i) ∧
      (∀ t, t ≠ tupleId → ∀ e, ctx1.mapOrder t e = ctx.mapOrder t e) := by
  have hlen : order.length = n := by rw [hperm.length_eq, List.length_range]
  have hnd : order.Nodup := hperm.nodup_iff.2 (List.nodup_range n)
  have hn32 : n ≤ 2 ^ 32 := by
    cases n with
    | zero => omega
    | succ k =>
      have : k ∈ order := hperm.mem_iff.2 (List.mem_range.2 (Nat.lt_succ_self k))
      have := h32 k this
      omega
  obtain ⟨d1, h1, _, h3, _⟩ := decodeLoop_spec order 0 (List.replicate order.length 0) (by
    intro o ho
    rw [List.length_replicate, hlen]
    exact List.mem_range.1 (hperm.mem_iff.1 ho))
  obtain ⟨ctx1, hc1, hc2, hc3⟩ := insertOrder_of_decode ctx tupleId order d1 h1
  refine ⟨ctx1, hc1, ?_, hc3⟩
  intro i hi
  rw [hc2, h3 hnd i hi, Nat.zero_add, Nat.mod_eq_of_lt (by omega)]

theorem range_map_mod {n : Nat} (h : n ≤ 2 ^ 32) :
    (List.range n).map (fun i => i % 2 ^ 32) = List.range n := by
  have : ∀ i ∈ List.range n, (fun i => i % 2 ^ 32) i = id i := by
    intro i hi
    exact Nat.mod_eq_of_lt (Nat.lt_of_lt_of_le (List.mem_range.1 hi) h)
  rw [List.map_congr_left this, List.map_id]

/-- C40: for an order that is a permutation of `0..n-1` (entries of type
`uint32_t`), `insertOrder(tupleId, order)` completes and afterwards
`mapOrder(tupleId, order[i]) = i` for every `i < n`, and `order` at
`mapOrder(tupleId, e)` is `e` for every `e < n`; for `n ≤ 2^32`,
`addNewTuple(tupleId, n)` completes and afterwards `mapOrder(tupleId, e) = e`
for every `e < n`; in both cases `mapOrder` reads for the other tuple ids
what it read before. -/
theorem mapOrder_inverts_order (ctx : OrderingContext) (tupleId n : Nat) (order : List Nat)
    (hperm : order.Perm (List.range n)) (h32 : ∀ o ∈ order, o < 2 ^ 32) :
    (∃ ctx1, ctx.insertOrder tupleId order = some ctx1 ∧
      (∀ (i : Nat) (hi : i < order.length), ctx1.mapOrder tupleId order[i] = some i) ∧
      (∀ e, e < n → ∃ i, ctx1.mapOrder tupleId e = some i ∧ order[i]? = some e) ∧
      (∀ t, t ≠ tupleId → ∀ e, ctx1.mapOrder t e = ctx.mapOrder t e)) ∧
    (n ≤ 2 ^ 32 →
      ∃ ctx2, ctx.addNewTuple tupleId n = some ctx2 ∧
        (∀ e, e < n → ctx2.mapOrder tupleId e = some e) ∧
        (∀ t, t ≠ tupleId → ∀ e, ctx2.mapOrder t e = ctx.mapOrder t e)) := by
  constructor
  · obtain ⟨ctx1, h1, h2, h3⟩ := insertOrder_spec ctx tupleId n order hperm h32
    refine ⟨ctx1, h1, h2, ?_, h3⟩
    intro e he
    have hmem : e ∈ order := hperm.mem_iff.2 (List.mem_range.2 he)
    obtain ⟨i, hi, hie⟩ := List.getElem_of_mem hmem
    refine ⟨i, ?_, ?_⟩
    · rw [← hie]; exact h2 i hi
    · rw [List.getElem?_eq_getElem hi, hie]
  · intro hn
    obtain ⟨ctx2, h1, h2, h3⟩ := insertOrder_spec ctx tupleId n (List.range n) (List.Perm.refl _)
      (fun o ho => Nat.lt_of_lt_of_le (List.mem_range.1 ho) hn)
    refine ⟨ctx2, ?_, ?_, h3⟩
    · unfold addNewTuple
      rw [range_map_mod hn]
      exact h1
    · intro e he
      have := h2 e (by rw [List.length_range]; exact he)
      rwa [List.getElem_range] at this

/-- C40, on the order `[2, 0, 1]` stored for tuple 2 in a context that holds
the order `[1, 0]` for tuple 0. -/
theorem mapOrder_inverts_order_witness :
    ([2, 0, 1] : List Nat).Perm (List.range 3) ∧
    (OrderingContext.mk [[1, 0]]).insertOrder 2 [2, 0, 1] =
      some (OrderingContext.mk [[1, 0], [], [1, 2, 0]]) ∧
    (OrderingContext.mk [[1, 0]]).addNewTuple 1 3 =
      some (OrderingContext.mk [[1, 0], [0, 1, 2]]) ∧
    ((∃ ctx1, (OrderingContext.mk [[1, 0]]).insertOrder 2 [2, 0, 1] = some ctx1 ∧
      (∀ (i : Nat) (hi : i < ([2, 0, 1] : List Nat).length),
        ctx1.mapOrder 2 ([2, 0, 1] : List Nat)[i] = some i) ∧
      (∀ e, e < 3 → ∃ i, ctx1.mapOrder 2 e = some i ∧ ([2, 0, 1] : List Nat)[i]? = some e) ∧
      (∀ t, t ≠ 2 → ∀ e, ctx1.mapOrder t e = (OrderingContext.mk [[1, 0]]).mapOrder t e)) ∧
    (3 ≤ 2 ^ 32 →
      ∃ ctx2, (OrderingContext.mk [[1, 0]]).addNewTuple 2 3 = some ctx2 ∧
        (∀ e, e < 3 → ctx2.mapOrder 2 e = some e) ∧
        (∀ t, t ≠ 2 → ∀ e, ctx2.mapOrder t e = (OrderingContext.mk [[1, 0]]).mapOrder t e))) :=
  ⟨by decide, by decide, by decide,
    mapOrder_inverts_order (OrderingContext.mk [[1, 0]]) 2 3 [2, 0, 1] (by decide) (by decide)⟩

end OrderingContext
end souffle
